import Mathlib

/-!
# StarRocks migration tool (smt): rule matching, shard unification, key selection

A shallow embedding of the planning core of the tool:

* `common/utils.go`  : `LongestCommonXfix`
* `common/types.go`  : `ParseDBSourceType`, `ParseDBSourceAuthType`
* `source/base.go`   : `DBSource.calculateRuledTablesMap`
* `convert/base.go`  : `Converter.reorderTableColumns`
* `convert/starrocks.go` : `StarRocks.ToCreateDDL`, `calculatePartitions`,
  `calculateBuckets`; the reordering step of the other two emitters

Conventions of the embedding.

* A Go `string` is a byte sequence.  It is embedded as a `List Char`, one `Char`
  per byte (the `Char` with the byte's code); `len`, indexing and slicing are
  the list operations.  ASCII literals denote themselves.
* `uint64` fields are `Nat`; arithmetic that can wrap is written with an
  explicit `% 2 ^ 64`.  `int64` values are `Int`.
* A Go `map` that can be `nil` is an `Option` of an association list.
* A pointer to a rule is embedded as the index of the rule in
  `config.TableRules` (the loader allocates one rule per section, so pointers
  and indices correspond one to one).
* A run-time failure of the Go code (index out of range, failed type
  assertion) is `none`.
-/

namespace Smt

/-- Go `string`: a sequence of bytes, one `Char` per byte. -/
abbrev GoString := List Char

/-! ## common/types.go -/

/-- Constant `SHARD_SUFFIX = "_auto_shard"`. -/
def SHARD_SUFFIX : GoString := "_auto_shard".toList

/-- Constant `GIGA_BYTES = 1024 * 1024 * 1024`. -/
def GIGA_BYTES : Nat := 1024 * 1024 * 1024

/-! ## common/utils.go -/

/-- The prefix scan of `LongestCommonXfix`:
`for i := 0; i < maxl; i++ { if xfix[i] != str[i] { xfix = xfix[:i]; break } }`.
The first argument counts the iterations still to run (`maxl - i`). -/
def prefixLoop (xfix str : GoString) : Nat → Nat → GoString
  | 0, _ => xfix
  | n + 1, i =>
    if xfix[i]? ≠ str[i]? then xfix.take i
    else prefixLoop xfix str n (i + 1)

/-- The suffix scan of `LongestCommonXfix`:
`for i := 0; i < maxl; i++ { xi := xfixl - i - 1; si := strl - i - 1;
   if xfix[xi] != str[si] { xfix = xfix[xi+1:]; break } }`. -/
def suffixLoop (xfix str : GoString) : Nat → Nat → GoString
  | 0, _ => xfix
  | n + 1, i =>
    if xfix[xfix.length - i - 1]? ≠ str[str.length - i - 1]? then
      xfix.drop (xfix.length - i - 1 + 1)
    else suffixLoop xfix str n (i + 1)

/-- The loop `for _, str := range strs[1:]` of `LongestCommonXfix`, with the
working value `xfix`. -/
def xfixLoop (pre : Bool) : GoString → List GoString → GoString
  | xfix, [] => xfix
  | xfix, str :: rest =>
    if xfix.length = 0 ∨ str.length = 0 then []
    else
      let maxl := if str.length < xfix.length then str.length else xfix.length
      xfixLoop pre (if pre then prefixLoop xfix str maxl 0 else suffixLoop xfix str maxl 0) rest

/-- `func LongestCommonXfix(strs []string, pre bool) string`. -/
def LongestCommonXfix (strs : List GoString) (pre : Bool) : GoString :=
  match strs with
  | [] => []
  | [xfix] => xfix
  | xfix :: rest => xfixLoop pre xfix rest

/-! ## model/*.go, conf/config.go -/

/-- Go `time.Time` as far as the core reads it: the Unix second and the
nanosecond within the second. -/
structure GoTime where
  sec : Int
  nsec : Nat
deriving DecidableEq, Repr

/-- `func (t Time) Unix() int64`. -/
def GoTime.Unix (t : GoTime) : Int := t.sec

/-- `time.Unix(sec, 0)`. -/
def GoTime.ofUnix (sec : Int) : GoTime := ⟨sec, 0⟩

/-- `model.ModelBase`. -/
structure ModelBase where
  TABLE_CATALOG : GoString
  TABLE_SCHEMA : GoString
  TABLE_NAME : GoString
deriving DecidableEq, Repr

/-- `model.Table` (information_schema.tables). -/
structure Table extends ModelBase where
  TABLE_TYPE : GoString
  ENGINE : GoString
  ROW_FORMAT : GoString
  TABLE_ROWS : Nat
  AVG_ROW_LENGTH : Nat
  INDEX_LENGTH : Nat
  DATA_LENGTH : Nat
  MAX_DATA_LENGTH : Nat
  AUTO_INCREMENT : Nat
  CREATE_TIME : GoTime
  TABLE_COMMENT : GoString
  UUID : GoString
deriving DecidableEq, Repr

/-- `model.Column` (information_schema.columns). -/
structure Column extends ModelBase where
  COLUMN_NAME : GoString
  ORDINAL_POSITION : Nat
  COLUMN_DEFAULT : Option GoString
  IS_NULLABLE : GoString
  DATA_TYPE : GoString
  NUMERIC_PRECISION : Nat
  NUMERIC_SCALE : Nat
  DATETIME_PRECISION : Nat
  COLUMN_TYPE : GoString
  COLUMN_KEY : GoString
  COLUMN_COMMENT : GoString
  UDT_NAME : GoString
  IsInPartitionKey : Bool
  IsInSortingKey : Bool
  IsInSamplingKey : Bool
deriving DecidableEq, Repr

/-- `model.KeyColumnUsage` (information_schema.key_column_usage). -/
structure KeyColumnUsage extends ModelBase where
  COLUMN_NAME : GoString
  CONSTRAINT_NAME : GoString
  ORDINAL_POSITION : Nat
deriving DecidableEq, Repr

/-- `common.TableColumns`: a table with its columns and its key entries. -/
structure TableColumns where
  Table : Table
  Columns : List Column
  PrimaryKCU : List KeyColumnUsage
  UniqueKCU : List KeyColumnUsage
deriving DecidableEq, Repr

/-- Go `map[string]string`; `none` is the nil map. -/
abbrev GoMap := Option (List (GoString × GoString))

/-- `conf.TableRule`. -/
structure TableRule where
  Seq : GoString
  DatabasePattern : GoString
  SchemaPattern : GoString
  TablePattern : GoString
  PartitionKey : GoString
  Partitions : GoString
  DuplicateKeys : GoString
  DistributedBy : GoString
  Buckets : Int
  FromShardingSrc : Bool
  Properties : GoMap
  ExternalProperties : GoMap
  FlinkSinkProps : GoMap
  FlinkSourceProps : GoMap
deriving DecidableEq, Repr

/-- The value `&conf.TableRule{}`: every field zero, every map nil. -/
def TableRule.zero : TableRule :=
  { Seq := [], DatabasePattern := [], SchemaPattern := [], TablePattern := [],
    PartitionKey := [], Partitions := [], DuplicateKeys := [], DistributedBy := [],
    Buckets := 0, FromShardingSrc := false, Properties := none,
    ExternalProperties := none, FlinkSinkProps := none, FlinkSourceProps := none }

/-! ## source/base.go: grouping loop of calculateRuledTablesMap -/

/-- Type of `c.ruledTablesMap`, `map[*conf.TableRule][]*common.TableColumns`:
an association list from rule (index in `config.TableRules`) to bundle list.
A Go map has no iteration order; the later loops treat every key on its own,
so the order of the association list is not observable. -/
abbrev RuledTablesMap := List (Nat × List TableColumns)

/-- The condition of lines 69-71: the three patterns of the rule match the
three identifier components of the table.  `RegMatchString` is a parameter. -/
def ruleMatches (RegMatchString : GoString → GoString → Bool) (tableRule : TableRule)
    (table : Table) : Bool :=
  RegMatchString tableRule.DatabasePattern table.TABLE_CATALOG &&
    RegMatchString tableRule.SchemaPattern table.TABLE_SCHEMA &&
    RegMatchString tableRule.TablePattern table.TABLE_NAME

/-- Loop of lines 68-75 over `c.config.TableRules`.  The accumulator is
`matchedTableRule`: `none` is the fresh `&conf.TableRule{}` of line 67, `some (i, r)`
the rule `r` found at index `i`.  The second argument is the index of the head. -/
def matchLoop (RegMatchString : GoString → GoString → Bool) (table : Table) :
    List TableRule → Nat → Option (Nat × TableRule) → Option (Nat × TableRule)
  | [], _, matched => matched
  | tableRule :: rest, idx, matched =>
    matchLoop RegMatchString table rest (idx + 1)
      (if ruleMatches RegMatchString tableRule table then some (idx, tableRule) else matched)

/-- Field `Properties` of `matchedTableRule` (line 76). -/
def matchedProperties : Option (Nat × TableRule) → GoMap
  | none => TableRule.zero.Properties
  | some (_, tableRule) => tableRule.Properties

/-- Lines 82-87: the columns of `allColumns` that carry the table's identifier. -/
def tableColumnsOf (allColumns : List Column) (table : Table) : List Column :=
  allColumns.filter fun col =>
    col.TABLE_SCHEMA = table.TABLE_SCHEMA ∧ col.TABLE_NAME = table.TABLE_NAME ∧
      col.TABLE_CATALOG = table.TABLE_CATALOG

/-- Line 91 negated: the key entry carries the table's identifier. -/
def kcuOfTable (table : Table) (keyCol : KeyColumnUsage) : Bool :=
  ¬ (keyCol.TABLE_SCHEMA ≠ table.TABLE_SCHEMA ∨ keyCol.TABLE_NAME ≠ table.TABLE_NAME ∨
      keyCol.TABLE_CATALOG ≠ table.TABLE_CATALOG)

/-- Line 94: `CONSTRAINT_NAME == "PRIMARY" || strings.HasPrefix(CONSTRAINT_NAME, "PK__")`. -/
def isPrimaryConstraint (name : GoString) : Bool :=
  name = "PRIMARY".toList ∨ "PK__".toList <+: name

/-- Body of lines 82-105: the bundle built for a table. -/
def makeBundle (allColumns : List Column) (keyColumnUsageRows : List KeyColumnUsage)
    (table : Table) : TableColumns :=
  { Table := table
    Columns := tableColumnsOf allColumns table
    PrimaryKCU := keyColumnUsageRows.filter fun keyCol =>
      kcuOfTable table keyCol && isPrimaryConstraint keyCol.CONSTRAINT_NAME
    UniqueKCU := keyColumnUsageRows.filter fun keyCol =>
      kcuOfTable table keyCol && !isPrimaryConstraint keyCol.CONSTRAINT_NAME }

/-- Lines 79-81 and 100: create the key with an empty list when it is absent,
then append the bundle to the list of the key. -/
def appendBundle : RuledTablesMap → Nat → TableColumns → RuledTablesMap
  | [], rule, bundle => [(rule, [bundle])]
  | (key, tables) :: rest, rule, bundle =>
    if key = rule then (key, tables ++ [bundle]) :: rest
    else (key, tables) :: appendBundle rest rule bundle

/-- Body of the loop of lines 66-106 for one table. -/
def groupStep (RegMatchString : GoString → GoString → Bool) (rules : List TableRule)
    (allColumns : List Column) (keyColumnUsageRows : List KeyColumnUsage)
    (ruledTablesMap : RuledTablesMap) (table : Table) : RuledTablesMap :=
  let matched := matchLoop RegMatchString table rules 0 none
  if (matchedProperties matched).isNone then ruledTablesMap
  else
    match matched with
    | none => ruledTablesMap
    | some (idx, _) =>
      appendBundle ruledTablesMap idx (makeBundle allColumns keyColumnUsageRows table)

/-- Lines 65-106: the grouping loop over `matchedTables`. -/
def groupTables (RegMatchString : GoString → GoString → Bool) (rules : List TableRule)
    (matchedTables : List Table) (allColumns : List Column)
    (keyColumnUsageRows : List KeyColumnUsage) : RuledTablesMap :=
  matchedTables.foldl (groupStep RegMatchString rules allColumns keyColumnUsageRows) []

/-! ## source/base.go: structural check (lines 107-130) -/

/-- Field `FromShardingSrc` of the rule at an index. -/
def getFromShardingSrc (rules : List TableRule) (rule : Nat) : Bool :=
  match rules[rule]? with
  | some r => r.FromShardingSrc
  | none => false

/-- Assignment `rule.FromShardingSrc = flag` to the rule at an index. -/
def setFromShardingSrc : List TableRule → Nat → Bool → List TableRule
  | [], _, _ => []
  | r :: rest, 0, flag => { r with FromShardingSrc := flag } :: rest
  | r :: rest, rule + 1, flag => r :: setFromShardingSrc rest rule flag

/-- Lines 121-125: `for idx, col := range columns`, comparing with
`tmpColumns[idx]`; the loop runs only when both lists have the same length, so
the index is in range.  The flag is the value of `rule.FromShardingSrc`. -/
def columnsLoop (tmpColumns : List Column) : List Column → Nat → Bool → Bool
  | [], _, flag => flag
  | col :: rest, idx, flag =>
    columnsLoop tmpColumns rest (idx + 1)
      (match tmpColumns[idx]? with
       | some tmp =>
         if tmp.COLUMN_NAME ≠ col.COLUMN_NAME ∨ tmp.COLUMN_TYPE ≠ col.COLUMN_TYPE then false
         else flag
       | none => flag)

/-- Lines 112-129: `for _, table := range tables`, carrying the flag of the rule
and `tmpColumns`. -/
def tablesLoop : List TableColumns → Bool → List Column → Bool
  | [], flag, _ => flag
  | table :: rest, flag, tmpColumns =>
    if flag then
      if tmpColumns.length = 0 then tablesLoop rest flag table.Columns
      else if tmpColumns.length ≠ table.Columns.length then tablesLoop rest false tmpColumns
      else tablesLoop rest (columnsLoop tmpColumns table.Columns 0 flag) tmpColumns
    else tablesLoop rest flag tmpColumns

/-- Body of the loop of lines 107-130 for one rule: the value of
`rule.FromShardingSrc` after the body, from its value before. -/
def checkSharding (flag : Bool) (tables : List TableColumns) : Bool :=
  tablesLoop tables (if tables.length = 1 then false else flag) []

/-- Lines 107-130: the loop over the map, writing the flag of every key. -/
def checkShardingLoop : RuledTablesMap → List TableRule → List TableRule
  | [], rules => rules
  | (rule, tables) :: rest, rules =>
    checkShardingLoop rest
      (setFromShardingSrc rules rule (checkSharding (getFromShardingSrc rules rule) tables))

/-! ## source/base.go: merge (lines 131-192) -/

/-- Number of binary digits of `n`, for `n < 2 ^ fuel`. -/
def bitLength : Nat → Nat → Nat
  | 0, _ => 0
  | fuel + 1, n => if n = 0 then 0 else bitLength fuel (n / 2) + 1

/-- Value of the conversion `float64(x)` of an `int64`: `x` itself when it has
at most 53 significant bits, otherwise the nearest number with a 53 bit
significand, ties to even.  For an integer argument the result is an integer. -/
def float64OfInt64 (x : Int) : Int :=
  if x.natAbs < 2 ^ 53 then x
  else
    let n := x.natAbs
    let e := bitLength 64 n - 53
    let q := n / 2 ^ e
    let r := n % 2 ^ e
    let rounded :=
      if 2 ^ e < 2 * r ∨ (2 * r = 2 ^ e ∧ q % 2 = 1) then (q + 1) * 2 ^ e else q * 2 ^ e
    if x < 0 then -(rounded : Int) else (rounded : Int)

/-- Value of the conversion `int64(f)` of an integral `float64`.  Out of the
`int64` range Go leaves the result to the implementation; the amd64 result
`-2^63` is taken. -/
def int64OfFloat64 (f : Int) : Int :=
  if -(2 : Int) ^ 63 ≤ f ∧ f < (2 : Int) ^ 63 then f else -(2 : Int) ^ 63

/-- Line 143: `int64(math.Min(float64(created), float64(firstCreatedTime)))`. -/
def minCreatedTime (created firstCreatedTime : Int) : Int :=
  int64OfFloat64 (min (float64OfInt64 created) (float64OfInt64 firstCreatedTime))

/-- Local variables of lines 133-137. -/
structure MergeAcc where
  totalSize : Nat
  firstCreatedTime : Int
  databaseNames : List GoString
  schemaNames : List GoString
  tableNames : List GoString
deriving DecidableEq, Repr

/-- Body of the loop of lines 138-144. -/
def mergeStep (acc : MergeAcc) (table : TableColumns) : MergeAcc :=
  { databaseNames := acc.databaseNames ++ [table.Table.TABLE_CATALOG]
    schemaNames := acc.schemaNames ++ [table.Table.TABLE_SCHEMA]
    tableNames := acc.tableNames ++ [table.Table.TABLE_NAME]
    totalSize := (acc.totalSize + table.Table.DATA_LENGTH) % 2 ^ 64
    firstCreatedTime := minCreatedTime table.Table.CREATE_TIME.Unix acc.firstCreatedTime }

/-- Lines 148-155 (and 156-163, 164-171): the unified value of one identifier
component; `placeholder` is `"db"`, `"schema"` or `"table"`. -/
def unifyName (placeholder : GoString) (names : List GoString) : GoString :=
  let name := LongestCommonXfix names true
  if name.length = 0 then placeholder ++ SHARD_SUFFIX
  else if name = names.headD [] then names.headD []
  else name ++ SHARD_SUFFIX

/-- Lines 133-190 for one rule: the merged bundle.  `now` is `time.Now().Unix()`.
`tables[0]` fails on an empty list. -/
def mergeBundles (now : Int) (tables : List TableColumns) : Option TableColumns :=
  let acc := tables.foldl mergeStep
    { totalSize := 0, firstCreatedTime := now, databaseNames := [], schemaNames := [],
      tableNames := [] }
  match tables with
  | [] => none
  | singleTable :: _ =>
    let databaseName := unifyName "db".toList acc.databaseNames
    let schemaName := unifyName "schema".toList acc.schemaNames
    let tableName := unifyName "table".toList acc.tableNames
    some
      { Table :=
          { singleTable.Table with
            CREATE_TIME := GoTime.ofUnix acc.firstCreatedTime
            DATA_LENGTH := acc.totalSize
            TABLE_CATALOG := databaseName
            TABLE_SCHEMA := schemaName
            TABLE_NAME := tableName }
        PrimaryKCU := singleTable.PrimaryKCU.map fun kcu =>
          { kcu with TABLE_CATALOG := databaseName, TABLE_SCHEMA := schemaName,
                     TABLE_NAME := tableName }
        UniqueKCU := singleTable.UniqueKCU.map fun kcu =>
          { kcu with TABLE_CATALOG := databaseName, TABLE_SCHEMA := schemaName,
                     TABLE_NAME := tableName }
        Columns := singleTable.Columns.map fun col =>
          { col with TABLE_CATALOG := databaseName, TABLE_SCHEMA := schemaName,
                     TABLE_NAME := tableName } }

/-- Body of the loop of lines 131-192 for one rule: the bundle list of the rule
after the body, given the flag of the rule. -/
def mergeRule (now : Int) (flag : Bool) (tables : List TableColumns) :
    Option (List TableColumns) :=
  if flag then (mergeBundles now tables).map fun singleTable => [singleTable]
  else some tables

/-- Lines 131-192: the loop over the map.  `now rule` is the clock reading
`time.Now().Unix()` taken in the iteration of the rule. -/
def mergeLoop (now : Nat → Int) (rules : List TableRule) : RuledTablesMap → Option RuledTablesMap
  | [] => some []
  | (rule, tables) :: rest =>
    match mergeRule (now rule) (getFromShardingSrc rules rule) tables with
    | none => none
    | some tables' => (mergeLoop now rules rest).map fun rest' => (rule, tables') :: rest'

/-- Both unification loops (lines 107-192) seen from one rule: the flag and the
bundle list after them, from the flag before and the bundle list. -/
def unifyRule (now : Int) (flag : Bool) (tables : List TableColumns) :
    Option (Bool × List TableColumns) :=
  (mergeRule now (checkSharding flag tables) tables).map fun tables' =>
    (checkSharding flag tables, tables')

/-- `func (c *DBSource) calculateRuledTablesMap(matchedTables, allColumns,
keyColumnUsageRows)`: the rules with their flags and `c.ruledTablesMap` after the
call; `none` when the call fails. -/
def calculateRuledTablesMap (RegMatchString : GoString → GoString → Bool) (now : Nat → Int)
    (rules : List TableRule) (matchedTables : List Table) (allColumns : List Column)
    (keyColumnUsageRows : List KeyColumnUsage) : Option (List TableRule × RuledTablesMap) :=
  let grouped := groupTables RegMatchString rules matchedTables allColumns keyColumnUsageRows
  let rules' := checkShardingLoop grouped rules
  (mergeLoop now rules' grouped).map fun merged => (rules', merged)

/-! ## Sample data -/

/-- Sample table with the given identifier, size and creation second. -/
def sampleTable (catalog schema name : String) (size : Nat) (created : Int) : Table :=
  { TABLE_CATALOG := catalog.toList, TABLE_SCHEMA := schema.toList, TABLE_NAME := name.toList,
    TABLE_TYPE := "BASE TABLE".toList, ENGINE := "InnoDB".toList, ROW_FORMAT := [],
    TABLE_ROWS := 0, AVG_ROW_LENGTH := 0, INDEX_LENGTH := 0, DATA_LENGTH := size,
    MAX_DATA_LENGTH := 0, AUTO_INCREMENT := 0, CREATE_TIME := ⟨created, 0⟩,
    TABLE_COMMENT := [], UUID := [] }

/-- Sample rule with the given patterns and `Properties` map, flag set as the
loader sets it. -/
def sampleRule (seq database table : String) (properties : GoMap) : TableRule :=
  { TableRule.zero with
    Seq := seq.toList, DatabasePattern := database.toList, SchemaPattern := ".*".toList,
    TablePattern := table.toList, FromShardingSrc := true, Properties := properties }

/-- Sample matcher: a pattern matches the strings it is a prefix of, `".*"` matches all. -/
def samplePrefixMatch (pattern str : GoString) : Bool :=
  pattern = ".*".toList ∨ pattern <+: str

/-! ## Vocabulary of the claims on shard unification -/

/-- The pair (name, type) of a column, the part the structural check compares. -/
def columnLayout (col : Column) : GoString × GoString := (col.COLUMN_NAME, col.COLUMN_TYPE)

/-- The column layout of a bundle: the (name, type) pairs of its columns in order.
Two bundles are structurally equivalent when their layouts are equal (same
column count, same pair at every position). -/
def bundleLayout (bundle : TableColumns) : List (GoString × GoString) :=
  bundle.Columns.map columnLayout

/-- Sample column. -/
def sampleColumn (name type nullable : String) : Column :=
  { TABLE_CATALOG := "shop".toList, TABLE_SCHEMA := "shop".toList, TABLE_NAME := [],
    COLUMN_NAME := name.toList, ORDINAL_POSITION := 0, COLUMN_DEFAULT := none,
    IS_NULLABLE := nullable.toList, DATA_TYPE := type.toList, NUMERIC_PRECISION := 0,
    NUMERIC_SCALE := 0, DATETIME_PRECISION := 0, COLUMN_TYPE := type.toList, COLUMN_KEY := [],
    COLUMN_COMMENT := [], UDT_NAME := [], IsInPartitionKey := false, IsInSortingKey := false,
    IsInSamplingKey := false }

/-- Sample bundle without key entries. -/
def sampleBundle (name : String) (size : Nat) (created : Int) (columns : List Column) :
    TableColumns :=
  { Table := sampleTable "shop" "shop" name size created, Columns := columns,
    PrimaryKCU := [], UniqueKCU := [] }

/-- The longest common prefix of a list of names, as a property: `p` is a prefix
of every name, and every common prefix of the names is a prefix of `p`. -/
def IsLongestCommonPrefix (p : GoString) (names : List GoString) : Prop :=
  (∀ s ∈ names, p <+: s) ∧ ∀ q : GoString, (∀ s ∈ names, q <+: s) → q <+: p

/-! ## convert/base.go -/

/-- Read `m[key]` in a `map[string][]string`: the zero value (nil slice) when the
key is absent. -/
def groupsGet (groups : List (GoString × List GoString)) (name : GoString) : List GoString :=
  (List.lookup name groups).getD []

/-- Assignment `m[key] = value` in a `map[string][]string`. -/
def groupsSet : List (GoString × List GoString) → GoString → List GoString →
    List (GoString × List GoString)
  | [], name, value => [(name, value)]
  | (key, old) :: rest, name, value =>
    if key = name then (key, value) :: rest else (key, old) :: groupsSet rest name value

/-- Body of the loop of lines 28-34 of `reorderTableColumns`; the state is
`uniqueKeyGroups` and `constraintNames`. -/
def keyGroupStep (state : List (GoString × List GoString) × List GoString)
    (key : KeyColumnUsage) : List (GoString × List GoString) × List GoString :=
  let state' :=
    if (List.lookup key.CONSTRAINT_NAME state.1).isNone then
      (groupsSet state.1 key.CONSTRAINT_NAME [], state.2 ++ [key.CONSTRAINT_NAME])
    else state
  (groupsSet state'.1 key.CONSTRAINT_NAME
      (groupsGet state'.1 key.CONSTRAINT_NAME ++ [key.COLUMN_NAME]), state'.2)

/-- The test of lines 37-39: `funk.Filter` keeps some column that is nullable
and whose name `funk.ContainsString` finds in the group. -/
def groupHasNullable (columns : List Column) (group : List GoString) : Bool :=
  0 < (columns.filter fun col =>
    col.IS_NULLABLE = "YES".toList ∧ col.COLUMN_NAME ∈ group).length

/-- Loop of lines 36-44: the first group without nullable column, or the initial
empty `keyList`. -/
def selectKeyList (uniqueKeyGroups : List (GoString × List GoString)) (columns : List Column) :
    List GoString → List GoString
  | [] => []
  | name :: rest =>
    if groupHasNullable columns (groupsGet uniqueKeyGroups name) then
      selectKeyList uniqueKeyGroups columns rest
    else groupsGet uniqueKeyGroups name

/-- Lines 50-54: `funk.Map(keyList, ...)` with `funk.Find(columns, ...)`.  `Find`
returns nil when no column has the name, and the type assertion
`.(*model.Column)` then fails. -/
def findKeyColumns (columns : List Column) : List GoString → Option (List Column)
  | [] => some []
  | key :: rest =>
    match columns.find? fun col => col.COLUMN_NAME = key with
    | none => none
    | some col => (findKeyColumns columns rest).map fun cols => col :: cols

/-- `func (c *Converter) reorderTableColumns(keys, columns) (newKeyList,
reorderedColumns)`; `none` when the call fails. -/
def reorderTableColumns (keys : List KeyColumnUsage) (columns : List Column) :
    Option (List GoString × List Column) :=
  let state := keys.foldl keyGroupStep ([], [])
  let keyList := selectKeyList state.1 columns state.2
  if keyList.length = 0 then some (keyList, columns)
  else
    match findKeyColumns columns keyList with
    | none => none
    | some uniqCols =>
      some (keyList, uniqCols ++ columns.filter fun col => ¬ col.COLUMN_NAME ∈ keyList)

/-! ## Vocabulary of the claims on key selection -/

/-- Constraint names in first-encountered order, each once. -/
def firstSeen : List GoString → List GoString
  | [] => []
  | name :: rest => name :: (firstSeen rest).filter fun other => other ≠ name

/-- The group of a constraint name: the column names of the key entries with
that constraint name, in the order of the entries. -/
def keyGroup (keys : List KeyColumnUsage) (name : GoString) : List GoString :=
  (keys.filter fun key => key.CONSTRAINT_NAME = name).map fun key => key.COLUMN_NAME

/-- The groups of the key entries in first-encountered order of their names. -/
def keyGroups (keys : List KeyColumnUsage) : List (List GoString) :=
  (firstSeen (keys.map fun key => key.CONSTRAINT_NAME)).map (keyGroup keys)

/-- A group has a nullable column: some column of the list has `IS_NULLABLE`
equal to `"YES"` and its name in the group. -/
def HasNullableColumn (columns : List Column) (group : List GoString) : Prop :=
  ∃ col ∈ columns, col.IS_NULLABLE = "YES".toList ∧ col.COLUMN_NAME ∈ group

instance (columns : List Column) (group : List GoString) :
    Decidable (HasNullableColumn columns group) := by
  unfold HasNullableColumn
  infer_instance

/-- The key list the claim describes: the first group, in first-encountered
order, without nullable column; empty when no group qualifies. -/
def firstQualifyingGroup (keys : List KeyColumnUsage) (columns : List Column) : List GoString :=
  ((keyGroups keys).find? fun group => ¬ HasNullableColumn columns group).getD []

/-- Sample key entry. -/
def sampleKey (constraint column : String) : KeyColumnUsage :=
  { TABLE_CATALOG := "shop".toList, TABLE_SCHEMA := "shop".toList, TABLE_NAME := "t".toList,
    COLUMN_NAME := column.toList, CONSTRAINT_NAME := constraint.toList, ORDINAL_POSITION := 0 }

/-- What the first loop of `reorderTableColumns` has built after a stretch of
key entries: the names in first-encountered order and, under every name seen,
its group. -/
def KeyGroupInv (pre : List KeyColumnUsage)
    (state : List (GoString × List GoString) × List GoString) : Prop :=
  state.2 = firstSeen (pre.map fun key => key.CONSTRAINT_NAME) ∧
  ∀ n, List.lookup n state.1 =
    if n ∈ pre.map (fun key => key.CONSTRAINT_NAME) then some (keyGroup pre n) else none

/-! ## convert/starrocks.go, convert/flink.go, convert/starrocks-external.go: the
reordering step of the three emitters -/

/-- `StarRocks.ToCreateDDL`, lines 57-63: the local `keys` and the bundle after the
step.  The bundle is changed in place (`tableColumns.Columns = ...`). -/
def starRocksReorder (tableColumns : TableColumns) : Option (List GoString × TableColumns) :=
  if 0 < tableColumns.PrimaryKCU.length then
    (reorderTableColumns tableColumns.PrimaryKCU tableColumns.Columns).map fun r =>
      (r.1, { tableColumns with Columns := r.2 })
  else if 0 < tableColumns.UniqueKCU.length then
    (reorderTableColumns tableColumns.UniqueKCU tableColumns.Columns).map fun r =>
      (r.1, { tableColumns with Columns := r.2 })
  else some ([], tableColumns)

/-- `Flink.ToCreateDDL`, lines 58-64: the local `primaryKeys` and the bundle after
the step. -/
def flinkReorder (tableColumns : TableColumns) : Option (List GoString × TableColumns) :=
  if 0 < tableColumns.PrimaryKCU.length then
    (reorderTableColumns tableColumns.PrimaryKCU tableColumns.Columns).map fun r =>
      (r.1, { tableColumns with Columns := r.2 })
  else if 0 < tableColumns.UniqueKCU.length then
    (reorderTableColumns tableColumns.UniqueKCU tableColumns.Columns).map fun r =>
      (r.1, { tableColumns with Columns := r.2 })
  else some ([], tableColumns)

/-- `StarRocksExternal.ToCreateDDL`, line 86:
`_, tableColumns.Columns = c.reorderTableColumns(tableColumns.UniqueKCU, tableColumns.Columns)`. -/
def starRocksExternalReorder (tableColumns : TableColumns) : Option TableColumns :=
  (reorderTableColumns tableColumns.UniqueKCU tableColumns.Columns).map fun r =>
    { tableColumns with Columns := r.2 }

/-- The key entries the claim on the emitters names for a bundle: the primary
entries when there are any, otherwise the unique entries (empty when both lists
are empty). -/
def effectiveKeyEntries (tableColumns : TableColumns) : List KeyColumnUsage :=
  if tableColumns.PrimaryKCU ≠ [] then tableColumns.PrimaryKCU else tableColumns.UniqueKCU

/-- Sample bundle with a primary key on `id` and a unique key on `email`. -/
def sampleKeyedBundle : TableColumns :=
  { Table := sampleTable "shop" "shop" "users" 5 100
    Columns := [sampleColumn "name" "varchar" "YES", sampleColumn "email" "varchar" "NO",
      sampleColumn "id" "int" "NO"]
    PrimaryKCU := [sampleKey "PRIMARY" "id"]
    UniqueKCU := [sampleKey "uk_email" "email"] }

/-! ## Machine arithmetic: int64 and float64 -/

/-- Constant `DAY_SECONDS = 24 * 3600`. -/
def DAY_SECONDS : Nat := 24 * 3600

/-- Wraparound of `int64` arithmetic: the value congruent to `x` modulo `2 ^ 64`
in the range from `-2 ^ 63` to `2 ^ 63 - 1`. -/
def wrapInt64 (x : Int) : Int :=
  (x + 9223372036854775808) % 18446744073709551616 - 9223372036854775808

/-- Go `a / b` on `int64`, `b` not zero: the quotient truncated toward zero;
`-2 ^ 63 / -1` wraps. -/
def int64Div (a b : Int) : Int := wrapInt64 (Int.tdiv a b)

/-- Number of binary digits of `n`. -/
def bitLen (n : Nat) : Nat := bitLength n n

/-- A `float64` value: the finite number `m * 2 ^ e`, or a value that is not
finite (an infinity or NaN).  The exponent range of `float64` is not modelled:
the values computed here are conversions of `int64` and quotients of such, far
inside the normal range. -/
inductive GoFloat where
  | finite (m e : Int)
  | nonFinite
deriving DecidableEq, Repr

/-- Conversion `float64(x)` of an `int64`. -/
def GoFloat.ofInt64 (x : Int) : GoFloat := .finite (float64OfInt64 x) 0

/-- Rounding of the quotient `N / D` to the nearest natural number, ties to even. -/
def roundHalfEven (N D : Nat) : Nat :=
  if D < 2 * (N % D) ∨ (2 * (N % D) = D ∧ N / D % 2 = 1) then N / D + 1 else N / D

/-- Scaling of a quotient `P / Q` of positive numbers to 53 significant bits:
numerator `N`, denominator `D` and exponent `e` with `P / Q = N / D * 2 ^ e` and
`2 ^ 52 ≤ N / D < 2 ^ 53`. -/
def quotScale (P Q : Nat) : Nat × Nat × Int :=
  let up := bitLen Q + 53 - bitLen P
  let down := bitLen P - (bitLen Q + 53)
  let N := P * 2 ^ up
  let D := Q * 2 ^ down
  if 2 ^ 53 * D ≤ N then (N, 2 * D, (down : Int) - (up : Int) + 1)
  else (N, D, (down : Int) - (up : Int))

/-- The `float64` quotient of two positive numbers: mantissa and exponent of the
value nearest to `P / Q` with a 53 bit significand, ties to even. -/
def roundQuot (P Q : Nat) : Nat × Int :=
  (roundHalfEven (quotScale P Q).1 (quotScale P Q).2.1, (quotScale P Q).2.2)

/-- Division `x / y` of `float64` values.  A zero divisor gives a value that is
not finite; operands that are not finite do not occur as divisors here. -/
def GoFloat.div : GoFloat → GoFloat → GoFloat
  | .finite mx ex, .finite my ey =>
    if my = 0 then .nonFinite
    else if mx = 0 then .finite 0 0
    else
      let q := roundQuot (mx.natAbs * 2 ^ (ex - ey).toNat) (my.natAbs * 2 ^ (ey - ex).toNat)
      .finite (if (decide (mx < 0)) != (decide (my < 0)) then -(q.1 : Int) else (q.1 : Int)) q.2
  | _, _ => .nonFinite

/-- Function `math.Ceil`. -/
def GoFloat.ceil : GoFloat → GoFloat
  | .finite m e =>
    if 0 ≤ e then .finite m e else .finite (-((-m) / ((2 ^ (-e).toNat : Nat) : Int))) 0
  | .nonFinite => .nonFinite

/-- Conversion `int64(f)`: the fraction is discarded; a value that is not finite
or out of range gives the amd64 result `-2 ^ 63`. -/
def GoFloat.toInt64 : GoFloat → Int
  | .finite m e =>
    int64OfFloat64
      (if 0 ≤ e then m * ((2 ^ e.toNat : Nat) : Int)
       else Int.tdiv m ((2 ^ (-e).toNat : Nat) : Int))
  | .nonFinite => -9223372036854775808

/-! ## convert/starrocks.go: calculatePartitions, calculateBuckets -/

/-- What `calculatePartitions` takes from the package `time`: the clock reading
`time.Now()`, `t.Format(common.DATE_TEMPLATE)` and `t.AddDate(years, months, days)`. -/
structure TimeEnv where
  now : GoTime
  format : GoTime → GoString
  addDate : Int → Int → Int → GoTime → GoTime

/-- The one-byte string of the double quote. -/
def quote : GoString := [Char.ofNat 34]

/-- Assignment `m[key] = value` in a `map[string]string`. -/
def propsSet : List (GoString × GoString) → GoString → GoString → List (GoString × GoString)
  | [], name, value => [(name, value)]
  | (key, old) :: rest, name, value =>
    if key = name then (key, value) :: rest else (key, old) :: propsSet rest name value

/-- Closure `setDProps` of `calculatePartitions` (lines 155-160), applied to the
empty `dynamicProperties`. -/
def setDProps (interval : GoString) : List (GoString × GoString) :=
  propsSet
    (propsSet
      (propsSet (propsSet [] "dynamic_partition.enable".toList "true".toList)
        "dynamic_partition.time_unit".toList interval)
      "dynamic_partitoin.end".toList "3".toList)
    "dynamic_partition.prefix".toList "auto_gen_p_".toList

/-- Lines 161-164: the day count `days`, from `time.Now().Unix()` and
`tableCreatedTime.Unix()`. -/
def partitionDays (now created : Int) : Int :=
  let days :=
    (GoFloat.ceil
      (GoFloat.div (GoFloat.ofInt64 (wrapInt64 (now - created)))
        (GoFloat.ofInt64 DAY_SECONDS))).toInt64
  if days = 0 then 1 else days

/-- Lines 165-186 of `calculatePartitions`, from the value of `days`: the result
`(partitionSize, dProps, partitions)`.  The slices `[:7]` and `[:4]` of a formatted
date are in range, the layout `2006-01-02` gives at least ten bytes. -/
def calculatePartitionsFor (env : TimeEnv) (tableSize : Int) (tableCreatedTime : GoTime)
    (days : Int) : Int × List (GoString × GoString) × GoString :=
  if int64Div tableSize days > 10 * (GIGA_BYTES : Int) then
    if tableSize < 100 * (GIGA_BYTES : Int) then (int64Div tableSize days, [], [])
    else
      (int64Div tableSize days, setDProps "DAY".toList,
        "  START (".toList ++ quote ++ env.format tableCreatedTime ++ quote ++ ") END (".toList ++
          quote ++ env.format (GoTime.ofUnix (wrapInt64 (env.now.Unix + DAY_SECONDS))) ++ quote ++
          ") EVERY (INTERVAL 1 day)".toList)
  else if int64Div tableSize days > (GIGA_BYTES : Int) then
    if tableSize < 100 * (GIGA_BYTES : Int) then
      (wrapInt64 (int64Div tableSize days * 30), [], [])
    else
      (wrapInt64 (int64Div tableSize days * 30), setDProps "MONTH".toList,
        "  START (".toList ++ quote ++ ((env.format tableCreatedTime).take 7 ++ "-01".toList) ++
          quote ++ ") END (".toList ++ quote ++
          ((env.format (env.addDate 0 1 0 env.now)).take 7 ++ "-01".toList) ++ quote ++
          ") EVERY (INTERVAL 1 month)".toList)
  else if tableSize < 100 * (GIGA_BYTES : Int) then
    (wrapInt64 (int64Div tableSize days * 365), [], [])
  else
    (wrapInt64 (int64Div tableSize days * 365), setDProps "YEAR".toList,
      "  START (".toList ++ quote ++ ((env.format tableCreatedTime).take 4 ++ "-01-01".toList) ++
        quote ++ ") END (".toList ++ quote ++
        ((env.format (env.addDate 1 0 0 env.now)).take 4 ++ "-01-01".toList) ++ quote ++
        ") EVERY (INTERVAL 1 year)".toList)

/-- `func (c *StarRocks) calculatePartitions(tableSize int64, tableCreatedTime time.Time)
(partitionSize int64, dProps map[string]string, partitions string)`. -/
def calculatePartitions (env : TimeEnv) (tableSize : Int) (tableCreatedTime : GoTime) :
    Int × List (GoString × GoString) × GoString :=
  calculatePartitionsFor env tableSize tableCreatedTime
    (partitionDays env.now.Unix tableCreatedTime.Unix)

/-- `func (c *StarRocks) calculateBuckets(partitionSize int64) int64`; `BENum` is
`c.config.BENum`. -/
def calculateBuckets (BENum : Int) (partitionSize : Int) : Int :=
  if partitionSize < (GIGA_BYTES : Int) then 1
  else if partitionSize < wrapInt64 (BENum * (GIGA_BYTES : Int)) then
    (GoFloat.ceil
      (GoFloat.div (GoFloat.ofInt64 partitionSize) (GoFloat.ofInt64 GIGA_BYTES))).toInt64
  else
    wrapInt64
      ((GoFloat.ceil
          (GoFloat.div
            (GoFloat.div (GoFloat.ofInt64 partitionSize) (GoFloat.ofInt64 GIGA_BYTES))
            (GoFloat.ofInt64 BENum))).toInt64 * BENum)

/-- Sample time environment: the clock reads the given second; dates are
formatted as a fixed text of ten bytes. -/
def sampleEnv (now : Int) : TimeEnv :=
  { now := GoTime.ofUnix now, format := fun _ => "2024-05-17".toList,
    addDate := fun _ _ _ t => t }

/-- The granularity the planner chooses for a rate, in the order of the tests of
`calculatePartitions`: DAY above 10 GiB, else MONTH above 1 GiB, else YEAR. -/
def chosenGranularity (rate : Int) : GoString :=
  if rate > 10 * (GIGA_BYTES : Int) then "DAY".toList
  else if rate > (GIGA_BYTES : Int) then "MONTH".toList
  else "YEAR".toList

/-! ## convert/starrocks.go: StarRocks.ToCreateDDL, one bundle -/

/-- Type `common.DBSourceType` (an `int`). -/
abbrev DBSourceType := Int

/-- Constant `DBSourceUnknow` (`iota` 0). -/
def DBSourceUnknow : DBSourceType := 0
/-- Constant `DBSourceMySQL`. -/
def DBSourceMySQL : DBSourceType := 1
/-- Constant `DBSourcePostgreSQL`. -/
def DBSourcePostgreSQL : DBSourceType := 2
/-- Constant `DBSourceOracle`. -/
def DBSourceOracle : DBSourceType := 3
/-- Constant `DBSourceSQLServer`. -/
def DBSourceSQLServer : DBSourceType := 4
/-- Constant `DBSourceClickHouse`. -/
def DBSourceClickHouse : DBSourceType := 5
/-- Constant `DBSourceHive`. -/
def DBSourceHive : DBSourceType := 6
/-- Constant `DBSourceTiDB`. -/
def DBSourceTiDB : DBSourceType := 7

/-- What `StarRocks.ToCreateDDL` reads besides the rule and the bundle: the
configuration (`DBType`, `BENum`), the provider (`CombineSchemaName`,
`FormatStarRocksColumnDef`, which returns `none` for an error), the clock, and
the order in which `for key, val := range properties` (line 142) visits the
entries of the map.  Go leaves that order unspecified: `rangeOrder` is any
rearrangement of the entries.  The providers of ClickHouse and Hive also rewrite
`column.DATA_TYPE` inside `FormatStarRocksColumnDef`; here the call is a function
of its arguments. -/
structure StarRocksEnv where
  DBType : DBSourceType
  BENum : Int
  CombineSchemaName : Bool
  FormatStarRocksColumnDef : Table → Column → Option GoString
  time : TimeEnv
  rangeOrder : List (GoString × GoString) → List (GoString × GoString)
  rangeOrder_perm : ∀ entries, (rangeOrder entries).Perm entries

/-- Function `strings.Join`. -/
def joinStrings (sep : GoString) : List GoString → GoString
  | [] => []
  | [s] => s
  | s :: rest => s ++ sep ++ joinStrings sep rest

/-- The verb `%d` of `fmt.Sprintf` and `strconv.FormatInt(x, 10)`. -/
def formatInt (x : Int) : GoString := (toString x).toList

/-- A name between backquotes, as in the format strings of the emitters. -/
def backquoted (s : GoString) : GoString := [Char.ofNat 96] ++ s ++ [Char.ofNat 96]

/-- Conversion `int64(x)` of a `uint64`. -/
def int64OfUint64 (x : Nat) : Int := wrapInt64 (x : Int)

/-- Method `GetSchemaPrefixedTableName` of `model.ModelBase`. -/
def GetSchemaPrefixedTableName (table : Table) : GoString :=
  table.TABLE_SCHEMA ++ "__".toList ++ table.TABLE_NAME

/-- Lines 65-77 of `StarRocks.ToCreateDDL`: the loop over the columns, carrying
`columnStrList` and `partitionKey`; `none` when a column definition fails
(the function returns the error). -/
def formatColumnsLoop (env : StarRocksEnv) (table : Table) :
    List Column → List GoString → GoString → Option (List GoString × GoString)
  | [], columnStrList, partitionKey => some (columnStrList, partitionKey)
  | column :: rest, columnStrList, partitionKey =>
    match env.FormatStarRocksColumnDef table column with
    | none => none
    | some columnStr =>
      if column.DATA_TYPE ≠ "date".toList ∧ column.DATA_TYPE ≠ "datetime".toList ∧
          column.DATA_TYPE ≠ "timestamp".toList then
        formatColumnsLoop env table rest (columnStrList ++ [columnStr]) partitionKey
      else
        formatColumnsLoop env table rest (columnStrList ++ [columnStr])
          (if partitionKey.length = 0 then column.COLUMN_NAME else partitionKey)

/-- Lines 80-106: the local `keysList` and the key clause appended to the
statement. -/
def keysClause (env : StarRocksEnv) (rule : TableRule) (tableColumns : TableColumns)
    (keys : List GoString) : GoString × GoString :=
  if 0 < keys.length then
    let keysList := joinStrings ", ".toList (keys.map backquoted)
    if env.DBType = DBSourceHive ∨
        (env.DBType = DBSourceClickHouse ∧ tableColumns.Table.ENGINE = "MergeTree".toList) then
      (keysList, "DUPLICATE KEY(".toList ++ keysList ++ ")\n".toList)
    else if env.DBType = DBSourceClickHouse ∧
        tableColumns.Table.ENGINE = "SummingMergeTree".toList then
      (keysList, "AGGREGATE KEY(".toList ++ keysList ++ ")\n".toList)
    else (keysList, "PRIMARY KEY(".toList ++ keysList ++ ")\n".toList)
  else
    let dupKeys := tableColumns.Columns.map fun col => backquoted col.COLUMN_NAME
    let keysList := joinStrings ", ".toList (if 3 < dupKeys.length then dupKeys.take 3 else dupKeys)
    if 0 < rule.DuplicateKeys.length then
      (keysList, "DUPLICATE KEY(".toList ++ rule.DuplicateKeys ++ ")\n".toList)
    else (keysList, "DUPLICATE KEY(".toList ++ keysList ++ ")\n".toList)

/-- Lines 112-118: the partition clause appended to the statement (empty when
none is appended), from `keys`, `partitionKey` and the `partitions` that
`calculatePartitions` returned. -/
def partitionClause (rule : TableRule) (keys : List GoString) (partitionKey partitions : GoString) :
    GoString :=
  if keys.length = 0 ∧ 0 < partitionKey.length ∧ 0 < partitions.length then
    "PARTITION BY RANGE (".toList ++ partitionKey ++ ") (\n".toList ++
      (if 0 < rule.Partitions.length then rule.Partitions else partitions) ++ "\n)\n".toList
  else []

/-- Lines 125-128: the local `buckets`. -/
def bucketCount (env : StarRocksEnv) (rule : TableRule) (partitionSize : Int) : Int :=
  if rule.Buckets > 0 then rule.Buckets else calculateBuckets env.BENum partitionSize

/-- Lines 121-129: the distribution clause appended to the statement. -/
def distributedClause (env : StarRocksEnv) (rule : TableRule) (keysList : GoString)
    (partitionSize : Int) : GoString :=
  "DISTRIBUTED BY HASH(".toList ++
    (if 0 < rule.DistributedBy.length then rule.DistributedBy else keysList) ++
    ") BUCKETS ".toList ++ formatInt (bucketCount env rule partitionSize) ++ "\n".toList

/-- The loop `for k, v := range dynamicProperties { properties[k] = v }`. -/
def propsSetAll (properties : List (GoString × GoString)) :
    List (GoString × GoString) → List (GoString × GoString)
  | [] => properties
  | (k, v) :: rest => propsSetAll (propsSet properties k v) rest

/-- Lines 132-140: the map `matchedTableRule.Properties` after the step (the local
`properties` is the same map).  A write into a nil map fails. -/
def mergeProperties (properties : GoMap) (keys : List GoString)
    (dynamicProperties : List (GoString × GoString)) (buckets : Int) : Option GoMap :=
  let ok := ((properties.getD []).lookup "dynamic_partition.time_unit".toList).isSome
  if keys.length = 0 ∧ ¬ ok then
    if 0 < dynamicProperties.length then
      match properties with
      | none => none
      | some props =>
        some (some (propsSet (propsSetAll props dynamicProperties)
          "dynamic_partition.buckets".toList (formatInt buckets)))
    else some properties
  else some properties

/-- Lines 141-145: the properties clause, for the entries of the map in the
order in which the loop of line 142 visits them. -/
def propertiesClause (properties : GoMap) : GoString :=
  "PROPERTIES (\n".toList ++
    joinStrings ",\n".toList ((properties.getD []).map fun p =>
      "  ".toList ++ quote ++ p.1 ++ quote ++ " = ".toList ++ quote ++ p.2 ++ quote) ++
    "\n)".toList

/-- What one iteration of the inner loop of `StarRocks.ToCreateDDL` leaves: the
two statements, the rule (its `Properties` map may have grown) and the bundle
(its columns may have been reordered). -/
structure BundleDDL where
  ddl : GoString
  createTableDDL : GoString
  rule : TableRule
  tableColumns : TableColumns
deriving DecidableEq, Repr

/-- Lines 55, 78 and 80-108: the statement up to the comment: the head with the
database and table names, the column definitions, the engine, the key clause
and the comment. -/
def createTableHead (databaseName shemaPrefixedTableName : GoString)
    (columnStrList : List GoString) (keyClause comment : GoString) : GoString :=
  "CREATE TABLE IF NOT EXISTS ".toList ++ backquoted databaseName ++ ".".toList ++
    backquoted shemaPrefixedTableName ++ " (\n".toList ++
    joinStrings ",\n".toList columnStrList ++ "\n) ENGINE=olap\n".toList ++
    keyClause ++ ("COMMENT ".toList ++ quote ++ comment ++ quote ++ "\n".toList)

/-- Body of the inner loop of `StarRocks.ToCreateDDL` (lines 36-147) for one rule
and one bundle, without the bookkeeping of `ddlList` and `ruledDDLMap`; `none`
when the iteration does not complete (failed key lookup, error of a column
definition, write into a nil map). -/
def starRocksBundle (env : StarRocksEnv) (rule : TableRule) (tableColumns : TableColumns) :
    Option BundleDDL :=
  let databaseName := tableColumns.Table.TABLE_CATALOG
  let ddl := "CREATE DATABASE IF NOT EXISTS ".toList ++ backquoted databaseName
  let shemaPrefixedTableName :=
    if ¬ rule.FromShardingSrc ∧ ¬ env.CombineSchemaName then tableColumns.Table.TABLE_NAME
    else GetSchemaPrefixedTableName tableColumns.Table
  match starRocksReorder tableColumns with
  | none => none
  | some (keys, tableColumns') =>
    match formatColumnsLoop env tableColumns'.Table tableColumns'.Columns []
        (if 0 < rule.PartitionKey.length then rule.PartitionKey else []) with
    | none => none
    | some (columnStrList, partitionKey) =>
      let key := keysClause env rule tableColumns' keys
      let planned := calculatePartitions env.time
        (int64OfUint64 tableColumns'.Table.DATA_LENGTH) tableColumns'.Table.CREATE_TIME
      let buckets := bucketCount env rule planned.1
      match mergeProperties rule.Properties keys planned.2.1 buckets with
      | none => none
      | some properties =>
        some
          { ddl := ddl
            createTableDDL :=
              createTableHead databaseName shemaPrefixedTableName columnStrList key.2
                  tableColumns'.Table.TABLE_COMMENT ++
                partitionClause rule keys partitionKey planned.2.2 ++
                distributedClause env rule key.1 planned.1 ++
                propertiesClause (properties.map env.rangeOrder)
            rule := { rule with Properties := properties }
            tableColumns := tableColumns' }

/-- Sample environment of the StarRocks emitter: MySQL source, three backends,
every column defined as its backquoted name followed by its type, the entries
of a map visited in the order in which they were written. -/
def sampleStarRocksEnv (now : Int) : StarRocksEnv :=
  { DBType := DBSourceMySQL, BENum := 3, CombineSchemaName := false,
    FormatStarRocksColumnDef := fun _ col =>
      some ("  ".toList ++ backquoted col.COLUMN_NAME ++ " ".toList ++ col.COLUMN_TYPE),
    time := sampleEnv now,
    rangeOrder := fun entries => entries,
    rangeOrder_perm := fun entries => List.Perm.refl entries }
/-- Sample rule with an explicit partition clause and an explicit bucket count. -/
def sampleOverrideRule : TableRule :=
  { sampleRule "1" "shop" "events" (some [("replication_num".toList, "3".toList)]) with
    Partitions := "START (x) END (y) EVERY (z)".toList, Buckets := 7 }

/-- Sample bundle without key entries, with a date column. -/
def sampleEventsBundle (size : Nat) : TableColumns :=
  sampleBundle "events" size 100 [sampleColumn "id" "int" "NO", sampleColumn "day" "date" "NO"]

/-! ## common/types.go: ParseDBSourceType, ParseDBSourceAuthType -/

/-- A Go `error` value: `none` is nil, `some msg` an error with the message. -/
abbrev GoError := Option GoString

/-- Variable `dbSourceTypeMap`. -/
def dbSourceTypeMap : List (GoString × DBSourceType) :=
  [("mysql".toList, DBSourceMySQL), ("pgsql".toList, DBSourcePostgreSQL),
   ("oracle".toList, DBSourceOracle), ("sqlserver".toList, DBSourceSQLServer),
   ("clickhouse".toList, DBSourceClickHouse), ("hive".toList, DBSourceHive),
   ("tidb".toList, DBSourceTiDB)]

/-- `func ParseDBSourceType(name string) (DBSourceType, error)`. -/
def ParseDBSourceType (name : GoString) : DBSourceType × GoError :=
  match List.lookup name dbSourceTypeMap with
  | some sourceType => (sourceType, none)
  | none => (DBSourceUnknow, some "Unsupported db source.".toList)

/-- Type `common.DBSourceAuthType` (an `int`). -/
abbrev DBSourceAuthType := Int

/-- Constant `DBSourceAuthUnknow` (`iota` 0). -/
def DBSourceAuthUnknow : DBSourceAuthType := 0
/-- Constant `DBSourceAuthKerberos`. -/
def DBSourceAuthKerberos : DBSourceAuthType := 1
/-- Constant `DBSourceAuthNoSasl`. -/
def DBSourceAuthNoSasl : DBSourceAuthType := 2
/-- Constant `DBSourceAuthNone`. -/
def DBSourceAuthNone : DBSourceAuthType := 3
/-- Constant `DBSourceAuthNoneHTTP`. -/
def DBSourceAuthNoneHTTP : DBSourceAuthType := 4
/-- Constant `DBSourceAuthKerberosHTTP`. -/
def DBSourceAuthKerberosHTTP : DBSourceAuthType := 5
/-- Constant `DBSourceAuthZK`. -/
def DBSourceAuthZK : DBSourceAuthType := 6
/-- Constant `DBSourceAuthLDAP`. -/
def DBSourceAuthLDAP : DBSourceAuthType := 7

/-- Variable `dbSourceAuthTypeMap`. -/
def dbSourceAuthTypeMap : List (GoString × DBSourceAuthType) :=
  [("kerberos".toList, DBSourceAuthKerberos), ("nosasl".toList, DBSourceAuthNoSasl),
   ("none".toList, DBSourceAuthNone), ("none_http".toList, DBSourceAuthNoneHTTP),
   ("kerberos_http".toList, DBSourceAuthKerberosHTTP), ("zk".toList, DBSourceAuthZK),
   ("ldap".toList, DBSourceAuthLDAP)]

/-- `func ParseDBSourceAuthType(name string) (DBSourceAuthType, error)`. -/
def ParseDBSourceAuthType (name : GoString) : DBSourceAuthType × GoError :=
  match List.lookup name dbSourceAuthTypeMap with
  | some sourceType => (sourceType, none)
  | none => (DBSourceAuthUnknow, some "Unsupported db authentication type.".toList)

/-- The seven source names of the claim on `ParseDBSourceType`. -/
def sourceTypeNames : List GoString :=
  ["mysql".toList, "pgsql".toList, "oracle".toList, "sqlserver".toList, "clickhouse".toList,
   "hive".toList, "tidb".toList]

/-- The seven authentication names of the claim on `ParseDBSourceAuthType`. -/
def sourceAuthTypeNames : List GoString :=
  ["kerberos".toList, "nosasl".toList, "none".toList, "none_http".toList,
   "kerberos_http".toList, "zk".toList, "ldap".toList]

/-! ## Vocabulary of the claims on the grouping loop -/

/-- Lines 67-78 of `calculateRuledTablesMap` for one table: the rule (its index)
whose bundle list receives the table; `none` when the table is skipped, because
no rule matched or because the matched rule has a nil `Properties` map. -/
def assignedRule (RegMatchString : GoString → GoString → Bool) (rules : List TableRule)
    (table : Table) : Option Nat :=
  match matchLoop RegMatchString table rules 0 none with
  | none => none
  | some (idx, tableRule) => if tableRule.Properties.isNone then none else some idx

/-- Read `c.ruledTablesMap[rule]`: the bundle list of a rule, the nil slice when
the rule is not a key. -/
def bundlesOf (ruledTablesMap : RuledTablesMap) (rule : Nat) : List TableColumns :=
  (List.lookup rule ruledTablesMap).getD []

/-! ## source/base.go: the unification step on its own -/

/-- Lines 107-192 of `calculateRuledTablesMap`: the two loops over
`c.ruledTablesMap` that follow the grouping loop, as a function of the rules
(their flags) and the map; `none` when the merge fails. -/
def unifyRuledTablesMap (now : Nat → Int) (rules : List TableRule)
    (ruledTablesMap : RuledTablesMap) : Option (List TableRule × RuledTablesMap) :=
  let rules' := checkShardingLoop ruledTablesMap rules
  (mergeLoop now rules' ruledTablesMap).map fun merged => (rules', merged)

/-- Sample shard family: two tables `orders_00` and `orders_01` with one layout. -/
def sampleShardMap : RuledTablesMap :=
  [(0, [sampleBundle "orders_00" 10 100 [sampleColumn "id" "int" "NO"],
        sampleBundle "orders_01" 12 200 [sampleColumn "id" "int" "NO"]])]

/-! ## convert/starrocks.go: StarRocks.ToCreateDDL, the bundles of one rule -/

/-- The inner loop of `StarRocks.ToCreateDDL` (lines 35-148) for one rule: the
bundles of `tableColumnsList` in order.  `matchedTableRule` is a pointer and its
`Properties` a map: what an iteration writes into the map is what the next
iteration reads, so the rule left by an iteration is the rule of the next.
`none` when an iteration does not complete. -/
def starRocksBundles (env : StarRocksEnv) : TableRule → List TableColumns → Option (List BundleDDL)
  | _, [] => some []
  | rule, tableColumns :: rest =>
    match starRocksBundle env rule tableColumns with
    | none => none
    | some r => (starRocksBundles env r.rule rest).map fun rs => r :: rs

/-- The keys of the `Properties` map with which a statement was emitted. -/
def emittedPropertyKeys (r : BundleDDL) : List GoString :=
  (r.rule.Properties.getD []).map Prod.fst

/-- Sample rule over all tables of `shop`, with the single configured property
`replication_num`; its tables have different layouts, so the flag is false. -/
def sampleShopRule : TableRule :=
  { sampleRule "1" "shop" "" (some [("replication_num".toList, "3".toList)]) with
    FromShardingSrc := false }

/-- Sample rule whose configured properties switch dynamic partitioning off. -/
def sampleStaticRule : TableRule :=
  { sampleRule "1" "shop" "events"
      (some [("dynamic_partition.enable".toList, "false".toList)]) with
    FromShardingSrc := false }

/-- Sample bundle `users` of five bytes, without key entries. -/
def sampleUsersBundle : TableColumns :=
  sampleBundle "users" 5 100 [sampleColumn "id" "int" "NO", sampleColumn "name" "varchar" "YES"]

/-- The rule as the iterations over a stretch of bundles leave it: the rule of
the last iteration, the rule itself when no iteration ran. -/
def ruleAfter (rule : TableRule) (rs : List BundleDDL) : TableRule :=
  rs.foldl (fun _ r => r.rule) rule

/-! ## Theorems: LongestCommonXfix -/

/-- A common prefix of both operands survives the prefix scan. -/
theorem prefixLoop_keeps_common (xfix str q : GoString) (hx : q <+: xfix) (hs : q <+: str) :
    ∀ n i, q <+: prefixLoop xfix str n i := by
  intro n
  induction n with
  | zero => intro i; simpa [prefixLoop] using hx
  | succ n ih =>
    intro i
    unfold prefixLoop
    split
    · rename_i hne
      rw [List.prefix_take_iff]
      refine ⟨hx, ?_⟩
      by_contra hlt
      push_neg at hlt
      obtain ⟨t, rfl⟩ := hx
      obtain ⟨u, rfl⟩ := hs
      apply hne
      rw [List.getElem?_append_left hlt, List.getElem?_append_left hlt]
    · exact ih (i + 1)

/-- A common prefix of the working value and of all remaining strings is a
prefix of what the outer loop returns (prefix mode). -/
theorem xfixLoop_keeps_common (q : GoString) :
    ∀ (rest : List GoString) (xfix : GoString), q <+: xfix → (∀ s ∈ rest, q <+: s) →
      q <+: xfixLoop true xfix rest := by
  intro rest
  induction rest with
  | nil => intro xfix hx _; simpa [xfixLoop] using hx
  | cons str rest ih =>
    intro xfix hx hall
    have hs : q <+: str := hall str (List.mem_cons_self _ _)
    unfold xfixLoop
    split
    · rename_i h0
      rcases h0 with h0 | h0
      · have : xfix = [] := List.length_eq_zero.mp h0
        subst this
        exact hx
      · have : str = [] := List.length_eq_zero.mp h0
        subst this
        exact hs
    · simp only [if_true]
      exact ih _ (prefixLoop_keeps_common xfix str q hx hs _ 0)
        (fun s hmem => hall s (List.mem_cons_of_mem _ hmem))

/-- An empty working value or an empty remaining string makes the outer loop
return the empty string. -/
theorem xfixLoop_nil_of_empty (pre : Bool) :
    ∀ (rest : List GoString) (xfix : GoString), xfix = [] ∨ [] ∈ rest →
      xfixLoop pre xfix rest = [] := by
  intro rest
  induction rest with
  | nil =>
    intro xfix h
    rcases h with h | h
    · simp [xfixLoop, h]
    · simp at h
  | cons str rest ih =>
    intro xfix h
    unfold xfixLoop
    split
    · rfl
    · rename_i hne
      push_neg at hne
      apply ih
      right
      rcases h with h | h
      · exact absurd (by simp [h]) hne.1
      · rcases List.mem_cons.mp h with h | h
        · exact absurd (by simp [← h]) hne.2
        · exact h

/-- C3: for every non-empty list of strings, every string that is a prefix of
all strings of the list is a prefix of `LongestCommonXfix strs true`: the result
is at least as long as the longest common prefix. -/
theorem LongestCommonXfix_prefix_contains_common (strs : List GoString) (q : GoString)
    (hne : strs ≠ []) (hq : ∀ s ∈ strs, q <+: s) :
    q <+: LongestCommonXfix strs true := by
  match strs, hne, hq with
  | [x], _, hq => simpa [LongestCommonXfix] using hq x (List.mem_singleton_self x)
  | x :: y :: rest, _, hq =>
    simp only [LongestCommonXfix]
    exact xfixLoop_keeps_common q (y :: rest) x (hq x (List.mem_cons_self _ _))
      (fun s hmem => hq s (List.mem_cons_of_mem _ hmem))

theorem LongestCommonXfix_prefix_contains_common_witness :
    (["ab_01".toList, "ab_02".toList] : List GoString) ≠ [] ∧
    "ab_".toList <+: LongestCommonXfix ["ab_01".toList, "ab_02".toList] true :=
  ⟨by decide,
   LongestCommonXfix_prefix_contains_common ["ab_01".toList, "ab_02".toList] "ab_".toList
     (by decide) (by decide)⟩

/-- C2 (evaluation at the failing input): on `["abc", "ab"]` the prefix mode
returns `"abc"`, which is not a prefix of the second string `"ab"`: a later
string that is a proper prefix of the working value does not shorten it. -/
theorem LongestCommonXfix_not_common_prefix :
    LongestCommonXfix ["abc".toList, "ab".toList] true = "abc".toList ∧
    ¬ (LongestCommonXfix ["abc".toList, "ab".toList] true <+: "ab".toList) := by
  decide

/-- C4: the prefix mode on the four sample lists, and the empty result whenever
the list is empty or holds an empty string. -/
theorem LongestCommonXfix_prefix_samples :
    LongestCommonXfix ["ab_01".toList, "ab_02".toList, "ab_03".toList] true = "ab_0".toList ∧
    LongestCommonXfix [] true = "".toList ∧
    LongestCommonXfix ["x".toList] true = "x".toList ∧
    LongestCommonXfix ["ab".toList, "cd".toList] true = "".toList ∧
    ∀ strs : List GoString, (strs = [] ∨ [] ∈ strs) → LongestCommonXfix strs true = [] := by
  refine ⟨by decide, by decide, by decide, by decide, ?_⟩
  intro strs h
  match strs, h with
  | [], _ => rfl
  | [x], h =>
    rcases h with h | h
    · simp at h
    · simpa [LongestCommonXfix] using (List.mem_singleton.mp h).symm
  | x :: y :: rest, h =>
    simp only [LongestCommonXfix]
    apply xfixLoop_nil_of_empty
    rcases h with h | h
    · simp at h
    · rcases List.mem_cons.mp h with h | h
      · exact Or.inl h.symm
      · exact Or.inr h

theorem LongestCommonXfix_prefix_samples_witness :
    LongestCommonXfix ["ab".toList, "".toList, "ac".toList] true = [] :=
  LongestCommonXfix_prefix_samples.2.2.2.2 ["ab".toList, "".toList, "ac".toList]
    (Or.inr (by decide))

/-! ## Theorems: rule matching -/

/-- Rules that do not match leave `matchedTableRule` as it is. -/
theorem matchLoop_no_match (m : GoString → GoString → Bool) (table : Table) :
    ∀ (rules : List TableRule) (idx : Nat) (matched : Option (Nat × TableRule)),
      (∀ r ∈ rules, ruleMatches m r table = false) →
      matchLoop m table rules idx matched = matched := by
  intro rules
  induction rules with
  | nil => intro idx matched _; rfl
  | cons r rest ih =>
    intro idx matched h
    have hr : ruleMatches m r table = false := h r (List.mem_cons_self _ _)
    simp only [matchLoop, hr]
    exact ih (idx + 1) matched (fun r' hmem => h r' (List.mem_cons_of_mem _ hmem))

/-- The matching loop ends on the matching rule of greatest index. -/
theorem matchLoop_last_match (m : GoString → GoString → Bool) (table : Table) :
    ∀ (rules : List TableRule) (idx : Nat) (matched : Option (Nat × TableRule)) (i : Nat)
      (r : TableRule), rules[i]? = some r → ruleMatches m r table = true →
      (∀ j r', i < j → rules[j]? = some r' → ruleMatches m r' table = false) →
      matchLoop m table rules idx matched = some (idx + i, r) := by
  intro rules
  induction rules with
  | nil => intro idx matched i r hi; simp at hi
  | cons r0 rest ih =>
    intro idx matched i r hi hm hlast
    cases i with
    | zero =>
      simp only [List.getElem?_cons_zero, Option.some.injEq] at hi
      subst hi
      simp only [matchLoop, hm, if_true, Nat.add_zero]
      apply matchLoop_no_match
      intro r' hmem
      obtain ⟨j, hj⟩ := List.getElem?_of_mem hmem
      exact hlast (j + 1) r' (Nat.succ_pos j) (by simpa using hj)
    | succ i =>
      simp only [List.getElem?_cons_succ] at hi
      simp only [matchLoop]
      rw [ih (idx + 1) _ i r hi hm
        (fun j r' hlt hj => hlast (j + 1) r' (Nat.succ_lt_succ hlt) (by simpa using hj))]
      congr 2
      omega

/-- The matching loop keeps the fresh rule only when no rule matches. -/
theorem matchLoop_eq_none (m : GoString → GoString → Bool) (table : Table) :
    ∀ (rules : List TableRule) (idx : Nat) (matched : Option (Nat × TableRule)),
      matchLoop m table rules idx matched = none →
      ∀ r ∈ rules, ruleMatches m r table = false := by
  intro rules
  induction rules with
  | nil => intro idx matched _ r hr; simp at hr
  | cons r0 rest ih =>
    intro idx matched h r hr
    simp only [matchLoop] at h
    by_cases h0 : ruleMatches m r0 table = true
    · simp only [h0, if_true] at h
      have hall := ih (idx + 1) _ h
      -- the accumulator is `some`, so the result cannot be `none`
      rw [matchLoop_no_match m table rest (idx + 1) _ hall] at h
      simp at h
    · have h0' : ruleMatches m r0 table = false := by simpa using h0
      rcases List.mem_cons.mp hr with rfl | hmem
      · exact h0'
      · exact ih (idx + 1) _ h r hmem

/-- What the matching loop returns is a rule of the list. -/
theorem matchLoop_mem (m : GoString → GoString → Bool) (table : Table) :
    ∀ (rules : List TableRule) (idx : Nat) (matched : Option (Nat × TableRule)) (i : Nat)
      (r : TableRule), matchLoop m table rules idx matched = some (i, r) →
      matched = some (i, r) ∨ r ∈ rules := by
  intro rules
  induction rules with
  | nil => intro idx matched i r h; exact Or.inl h
  | cons r0 rest ih =>
    intro idx matched i r h
    simp only [matchLoop] at h
    rcases ih (idx + 1) _ i r h with h1 | h1
    · split at h1
      · simp only [Option.some.injEq, Prod.mk.injEq] at h1
        exact Or.inr (h1.2 ▸ List.mem_cons_self _ _)
      · exact Or.inl h1
    · exact Or.inr (List.mem_cons_of_mem _ h1)

theorem lookup_appendBundle_self (rule : Nat) (bundle : TableColumns) :
    ∀ map : RuledTablesMap, List.lookup rule (appendBundle map rule bundle) =
      some ((List.lookup rule map).getD [] ++ [bundle]) := by
  intro map
  induction map with
  | nil => simp [appendBundle, List.lookup]
  | cons e rest ih =>
    obtain ⟨key, tables⟩ := e
    by_cases hk : key = rule
    · subst hk
      simp [appendBundle, List.lookup]
    · have hk' : (rule == key) = false := by simpa using fun h => hk h.symm
      simp [appendBundle, List.lookup, hk, hk', ih]

theorem lookup_appendBundle_other (rule : Nat) (bundle : TableColumns) (k : Nat) (hne : k ≠ rule) :
    ∀ map : RuledTablesMap, List.lookup k (appendBundle map rule bundle) = List.lookup k map := by
  intro map
  induction map with
  | nil =>
    have : (k == rule) = false := by simpa using hne
    simp [appendBundle, List.lookup, this]
  | cons e rest ih =>
    obtain ⟨key, tables⟩ := e
    by_cases hk : key = rule
    · subst hk
      have : (k == key) = false := by simpa using hne
      simp [appendBundle, List.lookup, this]
    · by_cases hkk : (k == key) = true
      · simp [appendBundle, List.lookup, hk, hkk]
      · have hkk' : (k == key) = false := by simpa using hkk
        simp [appendBundle, List.lookup, hk, hkk', ih]

theorem appendBundle_ne (rule : Nat) (bundle : TableColumns) (map : RuledTablesMap) :
    appendBundle map rule bundle ≠ map := by
  intro h
  have h1 := lookup_appendBundle_self rule bundle map
  rw [h] at h1
  cases hl : List.lookup rule map with
  | none => simp [hl] at h1
  | some l =>
    simp only [hl, Option.getD_some, Option.some.injEq] at h1
    have := congrArg List.length h1
    simp at this

/-- The test of line 76 recognises the placeholder of line 67 by its nil
`Properties` map.  A rule with a nil map, which the configuration loader never
builds, would be taken for the placeholder: it matches the table, and the table
is still put in no bundle list. -/
theorem groupStep_nil_properties_unmatched :
    ruleMatches samplePrefixMatch (sampleRule "1" "shop" "orders" none)
      (sampleTable "shop" "shop" "orders_00" 5 100) = true ∧
    groupStep samplePrefixMatch [sampleRule "1" "shop" "orders" none] [] [] []
      (sampleTable "shop" "shop" "orders_00" 5 100) = [] := by
  decide

/-- C1: for every rule list as the configuration holds it (every rule has a
non-nil `Properties` map: `conf/config.go`, the only place that builds rules,
allocates the map of every rule) and every table, with pattern matching a given
predicate, the body of the grouping loop appends the bundle of the table to the
list of the matching rule of greatest index and leaves the other lists alone,
and it leaves the map unchanged (the table is put in no bundle list) if and only
if no rule matches the table. -/
theorem groupStep_assigns_last_match (m : GoString → GoString → Bool) (rules : List TableRule)
    (allColumns : List Column) (kcus : List KeyColumnUsage) (map : RuledTablesMap)
    (table : Table) (hprops : ∀ r ∈ rules, r.Properties ≠ none) :
    (∀ i r, rules[i]? = some r → ruleMatches m r table = true →
        (∀ j r', i < j → rules[j]? = some r' → ruleMatches m r' table = false) →
        List.lookup i (groupStep m rules allColumns kcus map table) =
            some ((List.lookup i map).getD [] ++ [makeBundle allColumns kcus table]) ∧
          ∀ k, k ≠ i →
            List.lookup k (groupStep m rules allColumns kcus map table) = List.lookup k map) ∧
    ((∀ r ∈ rules, ruleMatches m r table = false) ↔
      groupStep m rules allColumns kcus map table = map) := by
  constructor
  · intro i r hi hm hlast
    have hloop := matchLoop_last_match m table rules 0 none i r hi hm hlast
    have hp : (matchedProperties (some (0 + i, r))).isNone = false := by
      have := hprops r (List.getElem?_mem hi)
      cases hq : r.Properties with
      | none => exact absurd hq this
      | some _ => simp [matchedProperties, hq]
    have hstep : groupStep m rules allColumns kcus map table =
        appendBundle map i (makeBundle allColumns kcus table) := by
      rw [Nat.zero_add] at hloop hp
      simp [groupStep, hloop, hp]
    rw [hstep]
    exact ⟨lookup_appendBundle_self i _ map, fun k hk => lookup_appendBundle_other i _ k hk map⟩
  · constructor
    · intro hnone
      simp [groupStep, matchLoop_no_match m table rules 0 none hnone, matchedProperties,
        TableRule.zero]
    · intro hsame r hr
      cases hloop : matchLoop m table rules 0 none with
      | none => exact matchLoop_eq_none m table rules 0 none hloop r hr
      | some found =>
        obtain ⟨i, r0⟩ := found
        exfalso
        have hmem : r0 ∈ rules := by
          rcases matchLoop_mem m table rules 0 none i r0 hloop with h | h
          · simp at h
          · exact h
        have hp : (matchedProperties (some (i, r0))).isNone = false := by
          have := hprops r0 hmem
          cases hq : r0.Properties with
          | none => exact absurd hq this
          | some _ => simp [matchedProperties, hq]
        have hstep : groupStep m rules allColumns kcus map table =
            appendBundle map i (makeBundle allColumns kcus table) := by
          simp [groupStep, hloop, hp]
        rw [hstep] at hsame
        exact appendBundle_ne _ _ _ hsame

theorem groupStep_assigns_last_match_witness :
    List.lookup 1 (groupStep samplePrefixMatch
        [sampleRule "1" "shop" "" (some []), sampleRule "2" "shop" "orders" (some [])] [] [] []
        (sampleTable "shop" "shop" "orders_00" 5 100)) =
      some ([] ++ [makeBundle [] [] (sampleTable "shop" "shop" "orders_00" 5 100)]) :=
  ((groupStep_assigns_last_match samplePrefixMatch
      [sampleRule "1" "shop" "" (some []), sampleRule "2" "shop" "orders" (some [])] [] [] []
      (sampleTable "shop" "shop" "orders_00" 5 100) (by decide)).1 1
      (sampleRule "2" "shop" "orders" (some [])) (by decide) (by decide)
      (by
        intro j r' hlt hj
        have : j < 2 := by
          by_contra hge
          have : ([sampleRule "1" "shop" "" (some []),
            sampleRule "2" "shop" "orders" (some [])] : List TableRule)[j]? = none :=
            List.getElem?_eq_none (by simp; omega)
          rw [this] at hj
          exact Option.noConfusion hj
        omega)).1

/-! ## Theorems: structural check -/

/-- The column loop keeps the flag exactly when the compared stretch of
`tmpColumns` has the layout of the columns. -/
theorem columnsLoop_eq :
    ∀ (columns suf : List Column) (pre : List Column) (flag : Bool),
      suf.length = columns.length →
      columnsLoop (pre ++ suf) columns pre.length flag =
        (flag && decide (suf.map columnLayout = columns.map columnLayout)) := by
  intro columns
  induction columns with
  | nil =>
    intro suf pre flag hlen
    have : suf = [] := List.length_eq_zero.mp hlen
    subst this
    simp [columnsLoop]
  | cons col rest ih =>
    intro suf pre flag hlen
    match suf, hlen with
    | s :: ss, hlen =>
      have hlen' : ss.length = rest.length := by simpa using hlen
      have hget : (pre ++ s :: ss)[pre.length]? = some s := by
        rw [List.getElem?_append_right (Nat.le_refl _)]; simp
      have hre : pre ++ s :: ss = (pre ++ [s]) ++ ss := by simp
      have hl : pre.length + 1 = (pre ++ [s]).length := by simp
      simp only [columnsLoop, hget]
      rw [hre, hl, ih ss (pre ++ [s]) _ hlen']
      by_cases hc : columnLayout s = columnLayout col
      · have h1 : s.COLUMN_NAME = col.COLUMN_NAME := congrArg Prod.fst hc
        have h2 : s.COLUMN_TYPE = col.COLUMN_TYPE := congrArg Prod.snd hc
        simp [h1, h2, hc]
      · have hor : s.COLUMN_NAME ≠ col.COLUMN_NAME ∨ s.COLUMN_TYPE ≠ col.COLUMN_TYPE := by
          by_contra hcon
          push_neg at hcon
          exact hc (Prod.ext hcon.1 hcon.2)
        simp [hor, hc]

/-- The column loop from index 0, on lists of equal length. -/
theorem columnsLoop_zero (tmpColumns columns : List Column) (flag : Bool)
    (hlen : tmpColumns.length = columns.length) :
    columnsLoop tmpColumns columns 0 flag =
      (flag && decide (tmpColumns.map columnLayout = columns.map columnLayout)) := by
  simpa using columnsLoop_eq columns tmpColumns [] flag hlen

/-- Once the flag is false the table loop leaves it false. -/
theorem tablesLoop_false :
    ∀ (tables : List TableColumns) (tmpColumns : List Column),
      tablesLoop tables false tmpColumns = false := by
  intro tables
  induction tables with
  | nil => intro _; rfl
  | cons t rest ih => intro tmp; simp [tablesLoop, ih]

/-- Bundles that all have the layout of `tmpColumns` keep the flag true. -/
theorem tablesLoop_true_of_same_layout (layout : List (GoString × GoString)) :
    ∀ (tables : List TableColumns) (tmpColumns : List Column),
      (∀ t ∈ tables, bundleLayout t = layout) →
      (tmpColumns = [] ∨ tmpColumns.map columnLayout = layout) →
      tablesLoop tables true tmpColumns = true := by
  intro tables
  induction tables with
  | nil => intro _ _ _; rfl
  | cons t rest ih =>
    intro tmp hall htmp
    have ht : t.Columns.map columnLayout = layout := hall t (List.mem_cons_self _ _)
    have hrest : ∀ t' ∈ rest, bundleLayout t' = layout :=
      fun t' hmem => hall t' (List.mem_cons_of_mem _ hmem)
    simp only [tablesLoop, if_true]
    split
    · exact ih _ hrest (Or.inr ht)
    · rename_i hlen
      have htmp' : tmp.map columnLayout = layout := by
        rcases htmp with h | h
        · exact absurd (by simp [h]) hlen
        · exact h
      have hlen2 : tmp.length = t.Columns.length := by
        have := congrArg List.length (htmp'.trans ht.symm)
        simpa using this
      simp only [hlen2, ne_eq, not_true_eq_false, if_false]
      rw [columnsLoop_zero tmp t.Columns true hlen2]
      simp only [htmp', ht, decide_True, Bool.and_self]
      exact ih _ hrest (Or.inr htmp')

/-- A bundle whose layout differs from that of a non-empty `tmpColumns` makes the
table loop end with the flag false. -/
theorem tablesLoop_false_of_mismatch :
    ∀ (tables : List TableColumns) (flag : Bool) (tmpColumns : List Column),
      tmpColumns ≠ [] →
      (∃ t ∈ tables, bundleLayout t ≠ tmpColumns.map columnLayout) →
      tablesLoop tables flag tmpColumns = false := by
  intro tables
  induction tables with
  | nil => intro _ _ _ h; simp at h
  | cons t rest ih =>
    intro flag tmp hne hex
    cases flag with
    | false => exact tablesLoop_false _ _
    | true =>
      have hlen0 : ¬ tmp.length = 0 := fun h => hne (List.length_eq_zero.mp h)
      simp only [tablesLoop, if_true, hlen0, if_false]
      split
      · exact tablesLoop_false _ _
      · rename_i hlen
        have hlen2 : tmp.length = t.Columns.length := by simpa using hlen
        rw [columnsLoop_zero tmp t.Columns true hlen2]
        by_cases hsame : tmp.map columnLayout = t.Columns.map columnLayout
        · simp only [hsame, decide_True, Bool.and_self]
          apply ih true tmp hne
          obtain ⟨t', hmem, hdiff⟩ := hex
          rcases List.mem_cons.mp hmem with rfl | hmem'
          · exact absurd hsame.symm hdiff
          · exact ⟨t', hmem', hdiff⟩
        · simp only [hsame, decide_False, Bool.and_false]
          exact tablesLoop_false _ _

/-- For a rule whose first bundle has at least one column: if two of its bundles
differ in layout, the structural check ends with the flag false and both loops
leave the bundle list as it is. -/
theorem unifyRule_mismatch_first_nonempty (now : Int) (flag : Bool) (first : TableColumns)
    (rest : List TableColumns) (hfirst : first.Columns ≠ [])
    (hdiff : ∃ a ∈ first :: rest, ∃ b ∈ first :: rest, bundleLayout a ≠ bundleLayout b) :
    unifyRule now flag (first :: rest) = some (false, first :: rest) := by
  have hex : ∃ t ∈ rest, bundleLayout t ≠ first.Columns.map columnLayout := by
    by_contra hcon
    push_neg at hcon
    have hall : ∀ t ∈ first :: rest, bundleLayout t = bundleLayout first := by
      intro t ht
      rcases List.mem_cons.mp ht with rfl | h
      · rfl
      · exact hcon t h
    obtain ⟨a, ha, b, hb, hab⟩ := hdiff
    exact hab ((hall a ha).trans (hall b hb).symm)
  have hcheck : checkSharding flag (first :: rest) = false := by
    unfold checkSharding
    generalize (if (first :: rest).length = 1 then false else flag) = flag'
    cases flag' with
    | false => exact tablesLoop_false _ _
    | true =>
      simp only [tablesLoop, if_true, List.length_nil]
      exact tablesLoop_false_of_mismatch rest true first.Columns hfirst hex
  simp [unifyRule, mergeRule, hcheck]

/-- C5 (evaluation at the failing input): a rule with the flag set and two
bundles, the first without columns and the second with one column.  The column
counts differ, yet the flag stays true and the two bundles are merged into one
bundle of size 5 + 7. -/
theorem unifyRule_merges_after_empty_columns :
    (unifyRule 1000 true
        [sampleBundle "t_0" 5 100 [], sampleBundle "t_1" 7 200 [sampleColumn "id" "int" "NO"]]).map
      (fun r => (r.1, r.2.length, r.2.map fun b => b.Table.DATA_LENGTH)) =
      some (true, 1, [12]) ∧
    bundleLayout (sampleBundle "t_0" 5 100 []) ≠
      bundleLayout (sampleBundle "t_1" 7 200 [sampleColumn "id" "int" "NO"]) := by
  decide

/-! ## Theorems: merge -/

/-- The names, the size and the first bundle are all the merge reads besides the
creation times: the size accumulated by the merge loop. -/
theorem foldl_mergeStep_totalSize :
    ∀ (tables : List TableColumns) (acc : MergeAcc),
      (tables.foldl mergeStep acc).totalSize % 2 ^ 64 =
        (acc.totalSize + (tables.map fun t => t.Table.DATA_LENGTH).sum) % 2 ^ 64 := by
  intro tables
  induction tables with
  | nil => intro acc; simp
  | cons t rest ih =>
    intro acc
    simp only [List.foldl_cons, List.map_cons, List.sum_cons]
    rw [ih]
    simp only [mergeStep]
    omega

/-- After at least one step the accumulated size is reduced modulo `2 ^ 64`. -/
theorem foldl_mergeStep_totalSize_lt :
    ∀ (tables : List TableColumns) (acc : MergeAcc), acc.totalSize < 2 ^ 64 →
      (tables.foldl mergeStep acc).totalSize < 2 ^ 64 := by
  intro tables
  induction tables with
  | nil => intro acc h; simpa using h
  | cons t rest ih =>
    intro acc _
    simp only [List.foldl_cons]
    apply ih
    simp only [mergeStep]
    exact Nat.mod_lt _ (by norm_num)

/-- The size of the merged bundle is the sum of the members' sizes in `uint64`
arithmetic. -/
theorem mergeBundles_size (now : Int) (tables : List TableColumns) (merged : TableColumns)
    (h : mergeBundles now tables = some merged) :
    merged.Table.DATA_LENGTH = (tables.map fun t => t.Table.DATA_LENGTH).sum % 2 ^ 64 := by
  match tables, h with
  | first :: rest, h =>
    simp only [mergeBundles, Option.some.injEq] at h
    subst h
    simp only
    have h1 := foldl_mergeStep_totalSize (first :: rest)
      { totalSize := 0, firstCreatedTime := now, databaseNames := [], schemaNames := [],
        tableNames := [] }
    have h2 := foldl_mergeStep_totalSize_lt (first :: rest)
      { totalSize := 0, firstCreatedTime := now, databaseNames := [], schemaNames := [],
        tableNames := [] } (by norm_num)
    rw [Nat.mod_eq_of_lt h2] at h1
    simpa using h1

/-- C6: for a rule whose flag is initially true and that holds two or more
bundles, all with the same column layout, the two unification loops leave
exactly one bundle in the list of the rule, the flag stays true, and the size of
that bundle is the sum of the members' sizes modulo `2 ^ 64`. -/
theorem unifyRule_merges_equivalent (now : Int) (tables : List TableColumns)
    (hlen : 2 ≤ tables.length)
    (hequiv : ∀ a ∈ tables, ∀ b ∈ tables, bundleLayout a = bundleLayout b) :
    ∃ merged, unifyRule now true tables = some (true, [merged]) ∧
      merged.Table.DATA_LENGTH = (tables.map fun t => t.Table.DATA_LENGTH).sum % 2 ^ 64 := by
  match tables, hlen, hequiv with
  | first :: second :: rest, _, hequiv =>
    have hcheck : checkSharding true (first :: second :: rest) = true := by
      unfold checkSharding
      have : ¬ (first :: second :: rest).length = 1 := by simp
      simp only [this, if_false]
      exact tablesLoop_true_of_same_layout (bundleLayout first) _ []
        (fun t ht => hequiv t ht first (List.mem_cons_self _ _)) (Or.inl rfl)
    cases hm : mergeBundles now (first :: second :: rest) with
    | none => simp [mergeBundles] at hm
    | some merged =>
      refine ⟨merged, ?_, mergeBundles_size now _ merged hm⟩
      simp [unifyRule, mergeRule, hcheck, hm]

/-- C6 (witness): members of 10, 12 and 11 GiB with one layout give one bundle
of 33 GiB. -/
theorem unifyRule_merges_equivalent_witness :
    ∃ merged,
      unifyRule 1000 true
        [sampleBundle "orders_00" (10 * GIGA_BYTES) 100 [sampleColumn "id" "int" "NO"],
         sampleBundle "orders_01" (12 * GIGA_BYTES) 200 [sampleColumn "id" "int" "NO"],
         sampleBundle "orders_02" (11 * GIGA_BYTES) 300 [sampleColumn "id" "int" "NO"]] =
        some (true, [merged]) ∧
      merged.Table.DATA_LENGTH = 33 * GIGA_BYTES := by
  obtain ⟨merged, h1, h2⟩ := unifyRule_merges_equivalent 1000
    [sampleBundle "orders_00" (10 * GIGA_BYTES) 100 [sampleColumn "id" "int" "NO"],
     sampleBundle "orders_01" (12 * GIGA_BYTES) 200 [sampleColumn "id" "int" "NO"],
     sampleBundle "orders_02" (11 * GIGA_BYTES) 300 [sampleColumn "id" "int" "NO"]]
    (by decide) (by decide)
  exact ⟨merged, h1, h2.trans (by decide)⟩

/-- The conversion to `float64` is exact below `2 ^ 53` in absolute value. -/
theorem float64OfInt64_exact (x : Int) (h : x.natAbs < 2 ^ 53) : float64OfInt64 x = x := by
  unfold float64OfInt64
  rw [if_pos h]

/-- Line 143 computes the minimum when both times are below `2 ^ 53` seconds in
absolute value. -/
theorem minCreatedTime_exact (a b : Int) (ha : a.natAbs < 2 ^ 53) (hb : b.natAbs < 2 ^ 53) :
    minCreatedTime a b = min a b := by
  unfold minCreatedTime
  rw [float64OfInt64_exact a ha, float64OfInt64_exact b hb]
  unfold int64OfFloat64
  have h1 : -(2 : Int) ^ 63 ≤ min a b ∧ min a b < (2 : Int) ^ 63 := by
    constructor
    · apply le_min <;> omega
    · apply lt_of_le_of_lt (min_le_left a b); omega
  simp only [h1, and_self, if_true]

/-- The creation time accumulated by the merge loop, for times below `2 ^ 53`
seconds in absolute value: it is at most the starting value and at most every
member's time, and it is the starting value or some member's time. -/
theorem foldl_mergeStep_firstCreatedTime :
    ∀ (tables : List TableColumns) (acc : MergeAcc), acc.firstCreatedTime.natAbs < 2 ^ 53 →
      (∀ t ∈ tables, t.Table.CREATE_TIME.Unix.natAbs < 2 ^ 53) →
      (tables.foldl mergeStep acc).firstCreatedTime ≤ acc.firstCreatedTime ∧
      (∀ t ∈ tables, (tables.foldl mergeStep acc).firstCreatedTime ≤ t.Table.CREATE_TIME.Unix) ∧
      ((tables.foldl mergeStep acc).firstCreatedTime = acc.firstCreatedTime ∨
        ∃ t ∈ tables, (tables.foldl mergeStep acc).firstCreatedTime = t.Table.CREATE_TIME.Unix) := by
  intro tables
  induction tables with
  | nil => intro acc _ _; simp
  | cons t rest ih =>
    intro acc hacc hall
    have ht := hall t (List.mem_cons_self _ _)
    have hstep : (mergeStep acc t).firstCreatedTime =
        min t.Table.CREATE_TIME.Unix acc.firstCreatedTime := by
      simp only [mergeStep]
      exact minCreatedTime_exact _ _ ht hacc
    have hstep_abs : (mergeStep acc t).firstCreatedTime.natAbs < 2 ^ 53 := by
      rw [hstep]
      rcases min_choice t.Table.CREATE_TIME.Unix acc.firstCreatedTime with h | h <;> rw [h] <;>
        assumption
    obtain ⟨h1, h2, h3⟩ := ih (mergeStep acc t) hstep_abs
      (fun t' hmem => hall t' (List.mem_cons_of_mem _ hmem))
    simp only [List.foldl_cons]
    refine ⟨?_, ?_, ?_⟩
    · exact le_trans h1 (hstep ▸ min_le_right _ _)
    · intro t' hmem
      rcases List.mem_cons.mp hmem with rfl | hmem'
      · exact le_trans h1 (hstep ▸ min_le_left _ _)
      · exact h2 t' hmem'
    · rcases h3 with h3 | ⟨t', hmem, h3⟩
      · rw [h3, hstep]
        rcases min_choice t.Table.CREATE_TIME.Unix acc.firstCreatedTime with h | h
        · exact Or.inr ⟨t, List.mem_cons_self _ _, h⟩
        · exact Or.inl h
      · exact Or.inr ⟨t', List.mem_cons_of_mem _ hmem, h3⟩

/-- C7 (counterexample): two members created at seconds 200 and 300, merged
while the clock reads 100: the merged creation time is 100, the clock reading,
not the earliest member time 200.  And two members created at seconds
`-(2 ^ 53 + 1)` and 300: the merged creation time is `-2 ^ 53`, the `float64`
nearest to the earliest member time. -/
theorem mergeBundles_created_not_member_min :
    (mergeBundles 100
        [sampleBundle "orders_00" 5 200 [], sampleBundle "orders_01" 7 300 []]).map
      (fun merged => merged.Table.CREATE_TIME) = some (GoTime.ofUnix 100) ∧
    (mergeBundles 1000
        [sampleBundle "orders_00" 5 (-9007199254740993) [],
         sampleBundle "orders_01" 7 300 []]).map
      (fun merged => merged.Table.CREATE_TIME) = some (GoTime.ofUnix (-9007199254740992)) := by
  decide

/-- C7 (amended): for every merged shard family, with the clock reading and the
members' creation times below `2 ^ 53` seconds in absolute value, the merged
creation time is the whole second `r` that is the minimum of the clock reading
and the members' creation times; it is the minimum across the members whenever
some member was created no later than the clock reading. -/
theorem mergeBundles_created_min (now : Int) (tables : List TableColumns)
    (merged : TableColumns) (h : mergeBundles now tables = some merged)
    (hnow : now.natAbs < 2 ^ 53)
    (hall : ∀ t ∈ tables, t.Table.CREATE_TIME.Unix.natAbs < 2 ^ 53) :
    ∃ r : Int, merged.Table.CREATE_TIME = GoTime.ofUnix r ∧
      r ≤ now ∧ (∀ t ∈ tables, r ≤ t.Table.CREATE_TIME.Unix) ∧
      (r = now ∨ ∃ t ∈ tables, r = t.Table.CREATE_TIME.Unix) ∧
      ((∃ t ∈ tables, t.Table.CREATE_TIME.Unix ≤ now) →
        ∃ t ∈ tables, r = t.Table.CREATE_TIME.Unix) := by
  match tables, h, hall with
  | first :: rest, h, hall =>
    simp only [mergeBundles, Option.some.injEq] at h
    subst h
    obtain ⟨h1, h2, h3⟩ := foldl_mergeStep_firstCreatedTime (first :: rest)
      { totalSize := 0, firstCreatedTime := now, databaseNames := [], schemaNames := [],
        tableNames := [] } hnow hall
    refine ⟨_, rfl, h1, h2, h3, ?_⟩
    rintro ⟨t, hmem, hle⟩
    rcases h3 with h3 | h3
    · refine ⟨t, hmem, le_antisymm (h2 t hmem) ?_⟩
      rw [h3]
      exact hle
    · exact h3

set_option maxRecDepth 8000 in
/-- C7 (witness): members created at seconds 100, 200 and 300, merged while the
clock reads 1000. -/
theorem mergeBundles_created_min_witness :
    ∃ r : Int, GoTime.ofUnix 100 = GoTime.ofUnix r ∧
      r ≤ 1000 ∧
      (∀ t ∈ [sampleBundle "orders_00" 5 100 [], sampleBundle "orders_01" 7 200 [],
          sampleBundle "orders_02" 7 300 []], r ≤ t.Table.CREATE_TIME.Unix) ∧
      (r = 1000 ∨ ∃ t ∈ [sampleBundle "orders_00" 5 100 [], sampleBundle "orders_01" 7 200 [],
          sampleBundle "orders_02" 7 300 []], r = t.Table.CREATE_TIME.Unix) ∧
      ((∃ t ∈ [sampleBundle "orders_00" 5 100 [], sampleBundle "orders_01" 7 200 [],
          sampleBundle "orders_02" 7 300 []], t.Table.CREATE_TIME.Unix ≤ 1000) →
        ∃ t ∈ [sampleBundle "orders_00" 5 100 [], sampleBundle "orders_01" 7 200 [],
          sampleBundle "orders_02" 7 300 []], r = t.Table.CREATE_TIME.Unix) :=
  mergeBundles_created_min 1000
    [sampleBundle "orders_00" 5 100 [], sampleBundle "orders_01" 7 200 [],
      sampleBundle "orders_02" 7 300 []]
    (sampleBundle "orders_0_auto_shard" 19 100 [])
    rfl (by decide) (by decide)

/-- The three cases of the identifier unification, on the value that
`LongestCommonXfix` returns for the names. -/
theorem unifyName_cases (placeholder : GoString) (names : List GoString) :
    (LongestCommonXfix names true = [] → unifyName placeholder names = placeholder ++ SHARD_SUFFIX) ∧
    (LongestCommonXfix names true ≠ [] → LongestCommonXfix names true = names.headD [] →
      unifyName placeholder names = names.headD []) ∧
    (LongestCommonXfix names true ≠ [] → LongestCommonXfix names true ≠ names.headD [] →
      unifyName placeholder names = LongestCommonXfix names true ++ SHARD_SUFFIX) := by
  refine ⟨?_, ?_, ?_⟩
  · intro h
    simp [unifyName, h]
  · intro h h1
    have h0 : ¬ (LongestCommonXfix names true).length = 0 := fun hl => h (List.length_eq_zero.mp hl)
    simp only [unifyName, h0, if_false]
    rw [if_pos h1]
  · intro h h1
    have h0 : ¬ (LongestCommonXfix names true).length = 0 := fun hl => h (List.length_eq_zero.mp hl)
    simp only [unifyName, h0, if_false]
    rw [if_neg h1]

/-- C8 (evaluation at the failing input): members named `orders_10` and
`orders_1`, in this order.  Their longest common prefix is `orders_1`, which is
not the first member's full name, yet the merged table is named `orders_10`, the
first member's name, and not `orders_1_auto_shard`.  On the names `orders_00`,
`orders_01`, `orders_02` the merged name is `orders_0_auto_shard`. -/
theorem mergeBundles_name_not_common_prefix :
    (mergeBundles 1000
        [sampleBundle "orders_10" 5 100 [], sampleBundle "orders_1" 7 200 []]).map
      (fun merged => merged.Table.TABLE_NAME) = some "orders_10".toList ∧
    IsLongestCommonPrefix "orders_1".toList ["orders_10".toList, "orders_1".toList] ∧
    "orders_1".toList ≠ "orders_10".toList ∧
    (mergeBundles 1000
        [sampleBundle "orders_00" 5 100 [], sampleBundle "orders_01" 7 200 [],
         sampleBundle "orders_02" 7 300 []]).map
      (fun merged => merged.Table.TABLE_NAME) = some "orders_0_auto_shard".toList := by
  refine ⟨by decide, ⟨by decide, ?_⟩, by decide, by decide⟩
  intro q hq
  exact hq "orders_1".toList (by decide)

/-! ## Theorems: the whole of calculateRuledTablesMap -/

/-- Appending a bundle keeps every bundle list of the map non-empty. -/
theorem appendBundle_nonempty (rule : Nat) (bundle : TableColumns) :
    ∀ map : RuledTablesMap, (∀ e ∈ map, e.2 ≠ []) →
      ∀ e ∈ appendBundle map rule bundle, e.2 ≠ [] := by
  intro map
  induction map with
  | nil =>
    intro _ e he
    simp only [appendBundle, List.mem_singleton] at he
    subst he
    simp
  | cons e0 rest ih =>
    obtain ⟨key, tables⟩ := e0
    intro h e he
    unfold appendBundle at he
    split at he
    · rcases List.mem_cons.mp he with rfl | he'
      · simp
      · exact h e (List.mem_cons_of_mem _ he')
    · rcases List.mem_cons.mp he with rfl | he'
      · exact h _ (List.mem_cons_self _ _)
      · exact ih (fun e' he'' => h e' (List.mem_cons_of_mem _ he'')) e he'

/-- The body of the grouping loop keeps every bundle list non-empty. -/
theorem groupStep_nonempty (m : GoString → GoString → Bool) (rules : List TableRule)
    (allColumns : List Column) (kcus : List KeyColumnUsage) (map : RuledTablesMap)
    (table : Table) (h : ∀ e ∈ map, e.2 ≠ []) :
    ∀ e ∈ groupStep m rules allColumns kcus map table, e.2 ≠ [] := by
  unfold groupStep
  simp only
  split
  · exact h
  · split
    · exact h
    · exact appendBundle_nonempty _ _ map h

/-- Every key of the map built by the grouping loop has at least one bundle. -/
theorem groupTables_nonempty (m : GoString → GoString → Bool) (rules : List TableRule)
    (allColumns : List Column) (kcus : List KeyColumnUsage) :
    ∀ (matchedTables : List Table) (map : RuledTablesMap), (∀ e ∈ map, e.2 ≠ []) →
      ∀ e ∈ matchedTables.foldl (groupStep m rules allColumns kcus) map, e.2 ≠ [] := by
  intro matchedTables
  induction matchedTables with
  | nil => intro map h; simpa using h
  | cons t rest ih =>
    intro map h
    simp only [List.foldl_cons]
    exact ih _ (groupStep_nonempty m rules allColumns kcus map t h)

/-- The merge of a non-empty bundle list succeeds. -/
theorem mergeBundles_isSome (now : Int) (tables : List TableColumns) (h : tables ≠ []) :
    ∃ merged, mergeBundles now tables = some merged := by
  match tables, h with
  | first :: rest, _ => exact ⟨_, rfl⟩

/-- On a map without empty bundle lists the merge loop succeeds, and in its
result every rule whose flag is true has exactly one bundle. -/
theorem mergeLoop_flag_single (now : Nat → Int) (rules : List TableRule) :
    ∀ map : RuledTablesMap, (∀ e ∈ map, e.2 ≠ []) →
      ∃ merged, mergeLoop now rules map = some merged ∧
        ∀ e ∈ merged, getFromShardingSrc rules e.1 = true → e.2.length = 1 := by
  intro map
  induction map with
  | nil => intro _; exact ⟨[], rfl, by simp⟩
  | cons e0 rest ih =>
    obtain ⟨rule, tables⟩ := e0
    intro h
    obtain ⟨merged, hm, hprop⟩ := ih (fun e he => h e (List.mem_cons_of_mem _ he))
    have hne : tables ≠ [] := h (rule, tables) (List.mem_cons_self _ _)
    cases hflag : getFromShardingSrc rules rule with
    | false =>
      refine ⟨(rule, tables) :: merged, by simp [mergeLoop, mergeRule, hflag, hm], ?_⟩
      intro e he
      rcases List.mem_cons.mp he with rfl | he'
      · intro hcon
        simp [hflag] at hcon
      · exact hprop e he'
    | true =>
      obtain ⟨single, hs⟩ := mergeBundles_isSome (now rule) tables hne
      refine ⟨(rule, [single]) :: merged, by simp [mergeLoop, mergeRule, hflag, hm, hs], ?_⟩
      intro e he
      rcases List.mem_cons.mp he with rfl | he'
      · intro _; rfl
      · exact hprop e he'

/-- C9: `calculateRuledTablesMap` finishes, and afterwards every rule that is a
key of the rule-to-bundles map and whose `FromShardingSrc` flag is true has a
bundle list of exactly one element. -/
theorem calculateRuledTablesMap_sharding_single (m : GoString → GoString → Bool)
    (now : Nat → Int) (rules : List TableRule) (matchedTables : List Table)
    (allColumns : List Column) (kcus : List KeyColumnUsage) :
    ∃ rules' ruledTablesMap,
      calculateRuledTablesMap m now rules matchedTables allColumns kcus =
        some (rules', ruledTablesMap) ∧
      ∀ e ∈ ruledTablesMap, getFromShardingSrc rules' e.1 = true → e.2.length = 1 := by
  have hne := groupTables_nonempty m rules allColumns kcus matchedTables [] (by simp)
  obtain ⟨merged, hm, hprop⟩ := mergeLoop_flag_single now
    (checkShardingLoop (groupTables m rules matchedTables allColumns kcus) rules)
    (groupTables m rules matchedTables allColumns kcus) hne
  exact ⟨_, merged, by simp [calculateRuledTablesMap, hm], hprop⟩

/-! ## Theorems: reorderTableColumns -/

theorem mem_firstSeen (x : GoString) : ∀ l : List GoString, x ∈ firstSeen l ↔ x ∈ l := by
  intro l
  induction l with
  | nil => simp [firstSeen]
  | cons a l ih =>
    simp only [firstSeen, List.mem_cons, List.mem_filter, ih]
    constructor
    · rintro (h | ⟨h, _⟩)
      · exact Or.inl h
      · exact Or.inr h
    · intro h
      by_cases hx : x = a
      · exact Or.inl hx
      · rcases h with h | h
        · exact Or.inl h
        · exact Or.inr ⟨h, by simpa using hx⟩

/-- First-encountered order grows at the end: a name seen before changes
nothing, a new name is appended. -/
theorem firstSeen_append_singleton (a : GoString) :
    ∀ l : List GoString,
      firstSeen (l ++ [a]) = if a ∈ l then firstSeen l else firstSeen l ++ [a] := by
  intro l
  induction l with
  | nil => simp [firstSeen]
  | cons b l ih =>
    have hstep : firstSeen (b :: l ++ [a]) =
        b :: (firstSeen (l ++ [a])).filter fun other => other ≠ b := rfl
    rw [hstep, ih]
    by_cases hal : a ∈ l
    · simp [hal, firstSeen]
    · by_cases hab : a = b
      · subst hab
        simp [hal, firstSeen, List.filter_append]
      · have hba : ¬ b = a := fun h => hab h.symm
        simp [hal, hab, hba, firstSeen, List.filter_append]

theorem lookup_groupsSet (name : GoString) (value : List GoString) (n : GoString) :
    ∀ groups : List (GoString × List GoString),
      List.lookup n (groupsSet groups name value) =
        if n = name then some value else List.lookup n groups := by
  intro groups
  induction groups with
  | nil =>
    by_cases h : n = name
    · simp [groupsSet, List.lookup, h]
    · have : (n == name) = false := by simpa using h
      simp [groupsSet, List.lookup, h, this]
  | cons e rest ih =>
    obtain ⟨key, old⟩ := e
    by_cases hk : key = name
    · subst hk
      by_cases h : n = key
      · simp [groupsSet, List.lookup, h]
      · have : (n == key) = false := by simpa using h
        simp [groupsSet, List.lookup, h, this]
    · by_cases h : n = key
      · subst h
        simp [groupsSet, List.lookup, hk]
      · have : (n == key) = false := by simpa using h
        simp [groupsSet, List.lookup, hk, this, ih]

theorem keyGroup_append_singleton (pre : List KeyColumnUsage) (key : KeyColumnUsage)
    (n : GoString) :
    keyGroup (pre ++ [key]) n =
      if key.CONSTRAINT_NAME = n then keyGroup pre n ++ [key.COLUMN_NAME] else keyGroup pre n := by
  by_cases h : key.CONSTRAINT_NAME = n
  · simp [keyGroup, List.filter_append, h]
  · simp [keyGroup, List.filter_append, h]

theorem keyGroup_eq_nil_of_not_mem (pre : List KeyColumnUsage) (n : GoString)
    (h : n ∉ pre.map fun key => key.CONSTRAINT_NAME) : keyGroup pre n = [] := by
  simp only [keyGroup, List.map_eq_nil_iff, List.filter_eq_nil_iff]
  intro key hkey hn
  apply h
  simp only [decide_eq_true_eq] at hn
  exact List.mem_map.mpr ⟨key, hkey, hn⟩

theorem keyGroupStep_seen (groups : List (GoString × List GoString)) (names : List GoString)
    (key : KeyColumnUsage) (group : List GoString)
    (h : List.lookup key.CONSTRAINT_NAME groups = some group) :
    keyGroupStep (groups, names) key =
      (groupsSet groups key.CONSTRAINT_NAME (group ++ [key.COLUMN_NAME]), names) := by
  simp [keyGroupStep, h, groupsGet]

theorem keyGroupStep_new (groups : List (GoString × List GoString)) (names : List GoString)
    (key : KeyColumnUsage) (h : List.lookup key.CONSTRAINT_NAME groups = none) :
    keyGroupStep (groups, names) key =
      (groupsSet (groupsSet groups key.CONSTRAINT_NAME []) key.CONSTRAINT_NAME
        ([] ++ [key.COLUMN_NAME]), names ++ [key.CONSTRAINT_NAME]) := by
  simp [keyGroupStep, h, groupsGet, lookup_groupsSet]

theorem keyGroupStep_inv (pre : List KeyColumnUsage) (key : KeyColumnUsage)
    (state : List (GoString × List GoString) × List GoString) (h : KeyGroupInv pre state) :
    KeyGroupInv (pre ++ [key]) (keyGroupStep state key) := by
  obtain ⟨groups, names⟩ := state
  obtain ⟨hnames, hgroups⟩ := h
  simp only at hnames hgroups
  have hmap : (pre ++ [key]).map (fun key => key.CONSTRAINT_NAME) =
      pre.map (fun key => key.CONSTRAINT_NAME) ++ [key.CONSTRAINT_NAME] := by simp
  by_cases hseen : key.CONSTRAINT_NAME ∈ pre.map fun key => key.CONSTRAINT_NAME
  · have hl : List.lookup key.CONSTRAINT_NAME groups = some (keyGroup pre key.CONSTRAINT_NAME) := by
      rw [hgroups, if_pos hseen]
    rw [keyGroupStep_seen groups names key _ hl]
    constructor
    · show names = _
      rw [hmap, firstSeen_append_singleton, if_pos hseen]
      exact hnames
    · intro n
      show List.lookup n (groupsSet groups _ _) = _
      rw [lookup_groupsSet, hmap, keyGroup_append_singleton]
      by_cases hn : n = key.CONSTRAINT_NAME
      · subst hn
        simp
      · have hn' : ¬ key.CONSTRAINT_NAME = n := fun h => hn h.symm
        rw [if_neg hn, if_neg hn', hgroups n]
        simp [hn]
  · have hl : List.lookup key.CONSTRAINT_NAME groups = none := by
      rw [hgroups, if_neg hseen]
    rw [keyGroupStep_new groups names key hl]
    constructor
    · show names ++ [key.CONSTRAINT_NAME] = _
      rw [hmap, firstSeen_append_singleton, if_neg hseen, hnames]
    · intro n
      show List.lookup n (groupsSet (groupsSet groups _ _) _ _) = _
      rw [lookup_groupsSet, lookup_groupsSet, hmap, keyGroup_append_singleton]
      by_cases hn : n = key.CONSTRAINT_NAME
      · subst hn
        simp [keyGroup_eq_nil_of_not_mem pre _ hseen]
      · have hn' : ¬ key.CONSTRAINT_NAME = n := fun h => hn h.symm
        rw [if_neg hn, if_neg hn, if_neg hn', hgroups n]
        simp [hn]

theorem foldl_keyGroupStep_inv :
    ∀ (keys pre : List KeyColumnUsage) (state : List (GoString × List GoString) × List GoString),
      KeyGroupInv pre state → KeyGroupInv (pre ++ keys) (keys.foldl keyGroupStep state) := by
  intro keys
  induction keys with
  | nil => intro pre state h; simpa using h
  | cons key rest ih =>
    intro pre state h
    have := ih (pre ++ [key]) _ (keyGroupStep_inv pre key state h)
    simpa using this

theorem groupHasNullable_iff (columns : List Column) (group : List GoString) :
    groupHasNullable columns group = true ↔ HasNullableColumn columns group := by
  simp only [groupHasNullable, HasNullableColumn, decide_eq_true_eq, List.length_pos,
    ne_eq, List.filter_eq_nil_iff, not_forall, Classical.not_imp, not_not]
  constructor
  · rintro ⟨col, hcol, h⟩
    exact ⟨col, hcol, h⟩
  · rintro ⟨col, hcol, h⟩
    exact ⟨col, hcol, h⟩

/-- The selection loop returns the first group, in the order of the names,
without nullable column. -/
theorem selectKeyList_eq_find (groups : List (GoString × List GoString)) (columns : List Column) :
    ∀ names : List GoString,
      selectKeyList groups columns names =
        ((names.map (groupsGet groups)).find? fun group =>
          ¬ HasNullableColumn columns group).getD [] := by
  intro names
  induction names with
  | nil => rfl
  | cons name rest ih =>
    by_cases h : HasNullableColumn columns (groupsGet groups name)
    · have h' := (groupHasNullable_iff columns _).mpr h
      simp [selectKeyList, h', h, ih]
    · have h' : groupHasNullable columns (groupsGet groups name) = false := by
        cases hb : groupHasNullable columns (groupsGet groups name) with
        | false => rfl
        | true => exact absurd ((groupHasNullable_iff columns _).mp hb) h
      simp [selectKeyList, h', h]

/-- The key list that `reorderTableColumns` selects is the first group, in
first-encountered order of the constraint names, without nullable column. -/
theorem selectKeyList_foldl (keys : List KeyColumnUsage) (columns : List Column) :
    selectKeyList (keys.foldl keyGroupStep ([], [])).1 columns
        (keys.foldl keyGroupStep ([], [])).2 = firstQualifyingGroup keys columns := by
  have hinv : KeyGroupInv ([] ++ keys) (keys.foldl keyGroupStep ([], [])) :=
    foldl_keyGroupStep_inv keys [] ([], []) ⟨rfl, fun n => by simp [List.lookup]⟩
  obtain ⟨hnames, hgroups⟩ := hinv
  rw [List.nil_append] at hnames hgroups
  rw [selectKeyList_eq_find, hnames]
  unfold firstQualifyingGroup keyGroups
  congr 2
  apply List.map_congr_left
  intro n hn
  have hn' : n ∈ keys.map fun key => key.CONSTRAINT_NAME := (mem_firstSeen n _).mp hn
  simp [groupsGet, hgroups n, hn']

/-- The lookup of the key columns succeeds when every key names a column. -/
theorem findKeyColumns_isSome (columns : List Column) :
    ∀ keyList : List GoString, (∀ c ∈ keyList, ∃ col ∈ columns, col.COLUMN_NAME = c) →
      ∃ uniqCols, findKeyColumns columns keyList = some uniqCols := by
  intro keyList
  induction keyList with
  | nil => intro _; exact ⟨[], rfl⟩
  | cons key rest ih =>
    intro h
    obtain ⟨cols, hcols⟩ := ih (fun c hc => h c (List.mem_cons_of_mem _ hc))
    obtain ⟨col, hmem, hname⟩ := h key (List.mem_cons_self _ _)
    cases hf : columns.find? (fun col => decide (col.COLUMN_NAME = key)) with
    | none =>
      rw [List.find?_eq_none] at hf
      exact absurd (by simpa using hname) (hf col hmem)
    | some found => exact ⟨found :: cols, by simp [findKeyColumns, hf, hcols]⟩

/-- C10 (counterexample): the only group, `PRIMARY` with the column `id`, has no
nullable column, so it is the first qualifying group; the column list holds no
column `id`, the lookup of the key column fails and no key list is returned. -/
theorem reorderTableColumns_fails_on_missing_column :
    firstQualifyingGroup [sampleKey "PRIMARY" "id"] [sampleColumn "name" "varchar" "YES"] =
      ["id".toList] ∧
    reorderTableColumns [sampleKey "PRIMARY" "id"] [sampleColumn "name" "varchar" "YES"] =
      none := by
  decide

/-- C10 (amended): when every column name of the first group without nullable
column (groups taken by constraint name in first-encountered order) occurs among
the columns, `reorderTableColumns` returns that group as key list; when every
group has a nullable column it returns the empty key list and the input column
list unchanged. -/
theorem reorderTableColumns_keyList (keys : List KeyColumnUsage) (columns : List Column)
    (hfound : ∀ c ∈ firstQualifyingGroup keys columns, ∃ col ∈ columns, col.COLUMN_NAME = c) :
    (∃ reordered, reorderTableColumns keys columns =
        some (firstQualifyingGroup keys columns, reordered)) ∧
    ((∀ group ∈ keyGroups keys, HasNullableColumn columns group) →
      reorderTableColumns keys columns = some ([], columns)) := by
  have hsel := selectKeyList_foldl keys columns
  constructor
  · by_cases hlen : (firstQualifyingGroup keys columns).length = 0
    · exact ⟨columns, by simp only [reorderTableColumns, hsel, hlen, if_true]⟩
    · obtain ⟨uniqCols, hu⟩ := findKeyColumns_isSome columns _ hfound
      refine ⟨uniqCols ++ columns.filter fun col =>
        ¬ col.COLUMN_NAME ∈ firstQualifyingGroup keys columns, ?_⟩
      simp only [reorderTableColumns, hsel, hlen, if_false, hu]
  · intro hall
    have hnone : (keyGroups keys).find? (fun group => ¬ HasNullableColumn columns group) = none := by
      rw [List.find?_eq_none]
      intro group hg
      simpa using hall group hg
    have hq : firstQualifyingGroup keys columns = [] := by
      unfold firstQualifyingGroup
      rw [hnone]
      rfl
    simp only [reorderTableColumns, hsel, hq, List.length_nil, if_true]

/-- C10 (witness): the group `uk1` holds the nullable column `b` and is skipped;
the next group `uk2` is returned as key list. -/
theorem reorderTableColumns_keyList_witness :
    firstQualifyingGroup
        [sampleKey "uk1" "a", sampleKey "uk2" "c", sampleKey "uk1" "b", sampleKey "uk2" "d"]
        [sampleColumn "a" "int" "NO", sampleColumn "b" "int" "YES",
         sampleColumn "c" "int" "NO", sampleColumn "d" "int" "NO"] =
      ["c".toList, "d".toList] ∧
    ∃ reordered,
      reorderTableColumns
        [sampleKey "uk1" "a", sampleKey "uk2" "c", sampleKey "uk1" "b", sampleKey "uk2" "d"]
        [sampleColumn "a" "int" "NO", sampleColumn "b" "int" "YES",
         sampleColumn "c" "int" "NO", sampleColumn "d" "int" "NO"] =
      some (firstQualifyingGroup
        [sampleKey "uk1" "a", sampleKey "uk2" "c", sampleKey "uk1" "b", sampleKey "uk2" "d"]
        [sampleColumn "a" "int" "NO", sampleColumn "b" "int" "YES",
         sampleColumn "c" "int" "NO", sampleColumn "d" "int" "NO"], reordered) :=
  ⟨by decide,
   (reorderTableColumns_keyList
      [sampleKey "uk1" "a", sampleKey "uk2" "c", sampleKey "uk1" "b", sampleKey "uk2" "d"]
      [sampleColumn "a" "int" "NO", sampleColumn "b" "int" "YES",
       sampleColumn "c" "int" "NO", sampleColumn "d" "int" "NO"] (by decide)).1⟩

/-! ## Theorems: the two unification loops, rule by rule -/

theorem setFromShardingSrc_length :
    ∀ (rules : List TableRule) (rule : Nat) (flag : Bool),
      (setFromShardingSrc rules rule flag).length = rules.length := by
  intro rules
  induction rules with
  | nil => intro _ _; rfl
  | cons r rest ih =>
    intro rule flag
    cases rule with
    | zero => rfl
    | succ k => simp [setFromShardingSrc, ih]

theorem getFromShardingSrc_set_self :
    ∀ (rules : List TableRule) (rule : Nat) (flag : Bool), rule < rules.length →
      getFromShardingSrc (setFromShardingSrc rules rule flag) rule = flag := by
  intro rules
  induction rules with
  | nil => intro _ _ h; simp at h
  | cons r rest ih =>
    intro rule flag h
    cases rule with
    | zero => simp [setFromShardingSrc, getFromShardingSrc]
    | succ k =>
      have hk : k < rest.length := by simpa using h
      have := ih k flag hk
      simpa [setFromShardingSrc, getFromShardingSrc] using this

theorem getFromShardingSrc_set_other :
    ∀ (rules : List TableRule) (rule other : Nat) (flag : Bool), other ≠ rule →
      getFromShardingSrc (setFromShardingSrc rules rule flag) other =
        getFromShardingSrc rules other := by
  intro rules
  induction rules with
  | nil => intro _ _ _ _; rfl
  | cons r rest ih =>
    intro rule other flag hne
    cases rule with
    | zero =>
      cases other with
      | zero => exact absurd rfl hne
      | succ j => simp [setFromShardingSrc, getFromShardingSrc]
    | succ k =>
      cases other with
      | zero => simp [setFromShardingSrc, getFromShardingSrc]
      | succ j =>
        have := ih k j flag (fun h => hne (by rw [h]))
        simpa [setFromShardingSrc, getFromShardingSrc] using this

/-- The check loop leaves the flag of a rule that is no key of the map. -/
theorem checkShardingLoop_not_key :
    ∀ (map : RuledTablesMap) (rules : List TableRule) (rule : Nat),
      rule ∉ map.map Prod.fst →
      getFromShardingSrc (checkShardingLoop map rules) rule = getFromShardingSrc rules rule := by
  intro map
  induction map with
  | nil => intro _ _ _; rfl
  | cons e rest ih =>
    obtain ⟨key, tables⟩ := e
    intro rules rule hnot
    have h1 : rule ≠ key := fun h => hnot (by simp [h])
    have h2 : rule ∉ rest.map Prod.fst := fun h => hnot (by simp [h])
    simp only [checkShardingLoop]
    rw [ih _ rule h2, getFromShardingSrc_set_other _ _ _ _ h1]

theorem checkShardingLoop_length :
    ∀ (map : RuledTablesMap) (rules : List TableRule),
      (checkShardingLoop map rules).length = rules.length := by
  intro map
  induction map with
  | nil => intro _; rfl
  | cons e rest ih =>
    obtain ⟨key, tables⟩ := e
    intro rules
    simp only [checkShardingLoop]
    rw [ih, setFromShardingSrc_length]

/-- With pairwise distinct keys that are indices of the rule list, the check
loop gives every key the flag that the check of its own bundle list computes. -/
theorem checkShardingLoop_key :
    ∀ (map : RuledTablesMap) (rules : List TableRule), (map.map Prod.fst).Nodup →
      (∀ e ∈ map, e.1 < rules.length) →
      ∀ e ∈ map, getFromShardingSrc (checkShardingLoop map rules) e.1 =
        checkSharding (getFromShardingSrc rules e.1) e.2 := by
  intro map
  induction map with
  | nil => intro _ _ _ e he; simp at he
  | cons e0 rest ih =>
    obtain ⟨key, tables⟩ := e0
    intro rules hnodup hlt e he
    simp only [List.map_cons, List.nodup_cons] at hnodup
    have hkey : key < rules.length := hlt (key, tables) (List.mem_cons_self _ _)
    simp only [checkShardingLoop]
    rcases List.mem_cons.mp he with rfl | he'
    · rw [checkShardingLoop_not_key rest _ key hnodup.1]
      exact getFromShardingSrc_set_self rules key _ hkey
    · have hne : e.1 ≠ key := by
        intro h
        exact hnodup.1 (h ▸ List.mem_map_of_mem Prod.fst he')
      rw [ih _ hnodup.2 (fun e' he'' => by
        rw [setFromShardingSrc_length]
        exact hlt e' (List.mem_cons_of_mem _ he'')) e he']
      rw [getFromShardingSrc_set_other _ _ _ _ hne]

/-- Every entry of the result of the merge loop comes from an entry of the map
with the same key, by the merge body run with the flag of the key. -/
theorem mergeLoop_entry (now : Nat → Int) (rules : List TableRule) :
    ∀ (map merged : RuledTablesMap), mergeLoop now rules map = some merged →
      ∀ e ∈ merged, ∃ tables, (e.1, tables) ∈ map ∧
        mergeRule (now e.1) (getFromShardingSrc rules e.1) tables = some e.2 := by
  intro map
  induction map with
  | nil =>
    intro merged h e he
    simp only [mergeLoop, Option.some.injEq] at h
    subst h
    simp at he
  | cons e0 rest ih =>
    obtain ⟨key, tables⟩ := e0
    intro merged h e he
    simp only [mergeLoop] at h
    cases hr : mergeRule (now key) (getFromShardingSrc rules key) tables with
    | none => simp [hr] at h
    | some tables' =>
      cases hrest : mergeLoop now rules rest with
      | none => simp [hr, hrest] at h
      | some rest' =>
        simp only [hr, hrest, Option.map_some', Option.some.injEq] at h
        subst h
        rcases List.mem_cons.mp he with rfl | he'
        · exact ⟨tables, List.mem_cons_self _ _, hr⟩
        · obtain ⟨ts, hmem, hts⟩ := ih rest' hrest e he'
          exact ⟨ts, List.mem_cons_of_mem _ hmem, hts⟩

theorem appendBundle_keys (rule : Nat) (bundle : TableColumns) :
    ∀ map : RuledTablesMap,
      (appendBundle map rule bundle).map Prod.fst =
        if rule ∈ map.map Prod.fst then map.map Prod.fst else map.map Prod.fst ++ [rule] := by
  intro map
  induction map with
  | nil => simp [appendBundle]
  | cons e rest ih =>
    obtain ⟨key, tables⟩ := e
    by_cases hk : key = rule
    · subst hk
      simp [appendBundle]
    · have hk' : ¬ rule = key := fun h => hk h.symm
      by_cases hmem : rule ∈ rest.map Prod.fst
      · simp only [appendBundle, hk, if_false, List.map_cons, ih, if_pos hmem, List.mem_cons,
          hmem, or_true, if_true]
      · simp only [appendBundle, hk, if_false, List.map_cons, ih, if_neg hmem, List.mem_cons,
          hmem, hk', or_self, List.cons_append]

/-- The rule the matching loop returns sits in the list, at an index from the
starting index on. -/
theorem matchLoop_index (m : GoString → GoString → Bool) (table : Table) :
    ∀ (rules : List TableRule) (idx : Nat) (matched : Option (Nat × TableRule)) (i : Nat)
      (r : TableRule), matchLoop m table rules idx matched = some (i, r) →
      matched = some (i, r) ∨ (idx ≤ i ∧ i < idx + rules.length) := by
  intro rules
  induction rules with
  | nil => intro idx matched i r h; exact Or.inl h
  | cons r0 rest ih =>
    intro idx matched i r h
    simp only [matchLoop] at h
    rcases ih (idx + 1) _ i r h with h1 | ⟨h1, h2⟩
    · split at h1
      · simp only [Option.some.injEq, Prod.mk.injEq] at h1
        refine Or.inr ⟨by omega, ?_⟩
        simp only [List.length_cons]
        omega
      · exact Or.inl h1
    · refine Or.inr ⟨by omega, ?_⟩
      simp only [List.length_cons]
      omega

/-- The body of the grouping loop keeps the keys pairwise distinct and inside
the rule list. -/
theorem groupStep_keys (m : GoString → GoString → Bool) (rules : List TableRule)
    (allColumns : List Column) (kcus : List KeyColumnUsage) (map : RuledTablesMap)
    (table : Table) (h : (map.map Prod.fst).Nodup ∧ ∀ e ∈ map, e.1 < rules.length) :
    ((groupStep m rules allColumns kcus map table).map Prod.fst).Nodup ∧
      ∀ e ∈ groupStep m rules allColumns kcus map table, e.1 < rules.length := by
  unfold groupStep
  simp only
  split
  · exact h
  · cases hloop : matchLoop m table rules 0 none with
    | none => exact h
    | some found =>
      obtain ⟨i, r⟩ := found
      have hi : i < rules.length := by
        rcases matchLoop_index m table rules 0 none i r hloop with h1 | ⟨_, h2⟩
        · simp at h1
        · simpa using h2
      simp only
      have hkeys := appendBundle_keys i (makeBundle allColumns kcus table) map
      constructor
      · rw [hkeys]
        split
        · exact h.1
        · rename_i hnot
          exact List.Nodup.append h.1 (List.nodup_singleton i) (by simpa using hnot)
      · intro e he
        have hmem : e.1 ∈ (appendBundle map i (makeBundle allColumns kcus table)).map Prod.fst :=
          List.mem_map_of_mem Prod.fst he
        rw [hkeys] at hmem
        split at hmem
        · obtain ⟨e', he', heq⟩ := List.mem_map.mp hmem
          rw [← heq]
          exact h.2 e' he'
        · rcases List.mem_append.mp hmem with h1 | h1
          · obtain ⟨e', he', heq⟩ := List.mem_map.mp h1
            rw [← heq]
            exact h.2 e' he'
          · rw [List.mem_singleton.mp h1]
            exact hi

theorem groupTables_keys (m : GoString → GoString → Bool) (rules : List TableRule)
    (allColumns : List Column) (kcus : List KeyColumnUsage) :
    ∀ (matchedTables : List Table) (map : RuledTablesMap),
      ((map.map Prod.fst).Nodup ∧ ∀ e ∈ map, e.1 < rules.length) →
      ((matchedTables.foldl (groupStep m rules allColumns kcus) map).map Prod.fst).Nodup ∧
        ∀ e ∈ matchedTables.foldl (groupStep m rules allColumns kcus) map, e.1 < rules.length := by
  intro matchedTables
  induction matchedTables with
  | nil => intro map h; simpa using h
  | cons t rest ih =>
    intro map h
    simp only [List.foldl_cons]
    exact ih _ (groupStep_keys m rules allColumns kcus map t h)

/-- Seen from one rule, `calculateRuledTablesMap` is `unifyRule`: every entry of
the resulting map comes from the entry of the same rule in the grouped map, and
the flag and the bundle list of the rule are those `unifyRule` returns for the
initial flag and the grouped bundle list. -/
theorem calculateRuledTablesMap_per_rule (m : GoString → GoString → Bool) (now : Nat → Int)
    (rules : List TableRule) (matchedTables : List Table) (allColumns : List Column)
    (kcus : List KeyColumnUsage) (rules' : List TableRule) (ruledTablesMap : RuledTablesMap)
    (h : calculateRuledTablesMap m now rules matchedTables allColumns kcus =
      some (rules', ruledTablesMap)) :
    ∀ e ∈ ruledTablesMap, ∃ tables,
      (e.1, tables) ∈ groupTables m rules matchedTables allColumns kcus ∧
      unifyRule (now e.1) (getFromShardingSrc rules e.1) tables =
        some (getFromShardingSrc rules' e.1, e.2) := by
  intro e he
  simp only [calculateRuledTablesMap] at h
  cases hm : mergeLoop now
      (checkShardingLoop (groupTables m rules matchedTables allColumns kcus) rules)
      (groupTables m rules matchedTables allColumns kcus) with
  | none => simp [hm] at h
  | some merged =>
    simp only [hm, Option.map_some', Option.some.injEq, Prod.mk.injEq] at h
    obtain ⟨hrules, hmap⟩ := h
    subst hrules hmap
    obtain ⟨tables, hmem, hmerge⟩ := mergeLoop_entry now _ _ merged hm e he
    have hkeys := groupTables_keys m rules allColumns kcus matchedTables []
      ⟨by simp, by simp⟩
    have hflag := checkShardingLoop_key
      (groupTables m rules matchedTables allColumns kcus) rules hkeys.1 hkeys.2
      (e.1, tables) hmem
    simp only at hflag
    refine ⟨tables, hmem, ?_⟩
    rw [hflag] at hmerge
    simp [unifyRule, hmerge, hflag]

/-! ## Theorems: column order after reorderTableColumns, key entries of the emitters -/

/-- The lookup of the key columns returns, for every key in order, the first
column of the list with that name. -/
theorem findKeyColumns_first_columns (columns : List Column) :
    ∀ (keyList : List GoString) (uniqCols : List Column),
      findKeyColumns columns keyList = some uniqCols →
      List.Forall₂ (fun key col => columns.find? (fun c => c.COLUMN_NAME = key) = some col)
        keyList uniqCols := by
  intro keyList
  induction keyList with
  | nil =>
    intro uniqCols h
    simp only [findKeyColumns, Option.some.injEq] at h
    subst h
    exact List.Forall₂.nil
  | cons key rest ih =>
    intro uniqCols h
    simp only [findKeyColumns] at h
    cases hf : columns.find? (fun c => decide (c.COLUMN_NAME = key)) with
    | none => simp [hf] at h
    | some col =>
      cases hr : findKeyColumns columns rest with
      | none => simp [hf, hr] at h
      | some cols =>
        simp only [hf, hr, Option.map_some', Option.some.injEq] at h
        subst h
        exact List.Forall₂.cons hf (ih cols hr)

/-- C11 (counterexample): the group `uk` with the columns `a` and `b` has no
nullable column, so a key is selected; the column list holds no column `b`, the
lookup fails and no column list is returned. -/
theorem reorderTableColumns_selects_without_result :
    firstQualifyingGroup [sampleKey "uk" "a", sampleKey "uk" "b"]
        [sampleColumn "a" "int" "NO", sampleColumn "c" "int" "NO"] =
      ["a".toList, "b".toList] ∧
    reorderTableColumns [sampleKey "uk" "a", sampleKey "uk" "b"]
        [sampleColumn "a" "int" "NO", sampleColumn "c" "int" "NO"] = none := by
  decide

/-- C11 (amended): when `reorderTableColumns` selects a key (the first group
without nullable column is not empty) and every column name of that key occurs
among the columns, the returned column list is: for every entry of the key, in
the order of the entries, the first input column with the entry's name; then the
input columns whose name is not in the key, in their input order. -/
theorem reorderTableColumns_columns (keys : List KeyColumnUsage) (columns : List Column)
    (hsel : firstQualifyingGroup keys columns ≠ [])
    (hfound : ∀ c ∈ firstQualifyingGroup keys columns, ∃ col ∈ columns, col.COLUMN_NAME = c) :
    ∃ uniqCols,
      reorderTableColumns keys columns =
        some (firstQualifyingGroup keys columns,
          uniqCols ++ columns.filter fun col =>
            ¬ col.COLUMN_NAME ∈ firstQualifyingGroup keys columns) ∧
      List.Forall₂ (fun key col => columns.find? (fun c => c.COLUMN_NAME = key) = some col)
        (firstQualifyingGroup keys columns) uniqCols := by
  have hsel' := selectKeyList_foldl keys columns
  have hlen : ¬ (firstQualifyingGroup keys columns).length = 0 :=
    fun h => hsel (List.length_eq_zero.mp h)
  obtain ⟨uniqCols, hu⟩ := findKeyColumns_isSome columns _ hfound
  refine ⟨uniqCols, ?_, findKeyColumns_first_columns columns _ uniqCols hu⟩
  simp only [reorderTableColumns, hsel', hlen, if_false, hu]

/-- C11 (witness): the key `(c, a)` on the columns `a, b, c` gives `c, a, b`. -/
theorem reorderTableColumns_columns_witness :
    ∃ uniqCols,
      reorderTableColumns [sampleKey "uk" "c", sampleKey "uk" "a"]
          [sampleColumn "a" "int" "NO", sampleColumn "b" "int" "YES",
           sampleColumn "c" "int" "NO"] =
        some (firstQualifyingGroup [sampleKey "uk" "c", sampleKey "uk" "a"]
            [sampleColumn "a" "int" "NO", sampleColumn "b" "int" "YES",
             sampleColumn "c" "int" "NO"],
          uniqCols ++ [sampleColumn "a" "int" "NO", sampleColumn "b" "int" "YES",
            sampleColumn "c" "int" "NO"].filter fun col =>
              ¬ col.COLUMN_NAME ∈ firstQualifyingGroup [sampleKey "uk" "c", sampleKey "uk" "a"]
                [sampleColumn "a" "int" "NO", sampleColumn "b" "int" "YES",
                 sampleColumn "c" "int" "NO"]) ∧
      List.Forall₂
        (fun key col =>
          [sampleColumn "a" "int" "NO", sampleColumn "b" "int" "YES",
            sampleColumn "c" "int" "NO"].find? (fun c => c.COLUMN_NAME = key) = some col)
        (firstQualifyingGroup [sampleKey "uk" "c", sampleKey "uk" "a"]
          [sampleColumn "a" "int" "NO", sampleColumn "b" "int" "YES",
           sampleColumn "c" "int" "NO"]) uniqCols :=
  reorderTableColumns_columns [sampleKey "uk" "c", sampleKey "uk" "a"]
    [sampleColumn "a" "int" "NO", sampleColumn "b" "int" "YES", sampleColumn "c" "int" "NO"]
    (by decide) (by decide)

/-- The emitters `StarRocks.ToCreateDDL` and `Flink.ToCreateDDL` give
`reorderTableColumns` the primary key entries when there are any, otherwise the
unique key entries, and do not call it when both lists are empty. -/
theorem starRocks_flink_reorder_entries (tableColumns : TableColumns) :
    (tableColumns.PrimaryKCU = [] → tableColumns.UniqueKCU = [] →
      starRocksReorder tableColumns = some ([], tableColumns) ∧
      flinkReorder tableColumns = some ([], tableColumns)) ∧
    ((tableColumns.PrimaryKCU ≠ [] ∨ tableColumns.UniqueKCU ≠ []) →
      starRocksReorder tableColumns =
        (reorderTableColumns (effectiveKeyEntries tableColumns) tableColumns.Columns).map
          (fun r => (r.1, { tableColumns with Columns := r.2 })) ∧
      flinkReorder tableColumns =
        (reorderTableColumns (effectiveKeyEntries tableColumns) tableColumns.Columns).map
          (fun r => (r.1, { tableColumns with Columns := r.2 }))) := by
  constructor
  · intro hp hu
    simp [starRocksReorder, flinkReorder, hp, hu]
  · intro h
    by_cases hp : tableColumns.PrimaryKCU = []
    · have hu : tableColumns.UniqueKCU ≠ [] := by
        rcases h with h | h
        · exact absurd hp h
        · exact h
      have hul : 0 < tableColumns.UniqueKCU.length := List.length_pos.mpr hu
      simp [starRocksReorder, flinkReorder, effectiveKeyEntries, hp, hul]
    · have hpl : 0 < tableColumns.PrimaryKCU.length := List.length_pos.mpr hp
      simp [starRocksReorder, flinkReorder, effectiveKeyEntries, hp, hpl]

/-- C12 (evaluation at the failing input): a bundle with the primary key `id` and
the unique key `email`.  `StarRocks.ToCreateDDL` and `Flink.ToCreateDDL` reorder by
the primary key entries (`id` first); `StarRocksExternal.ToCreateDDL` gives
`reorderTableColumns` the unique key entries although the primary list is not
empty (`email` first). -/
theorem starRocksExternalReorder_ignores_primary :
    sampleKeyedBundle.PrimaryKCU ≠ [] ∧
    (starRocksReorder sampleKeyedBundle).map
        (fun r => r.2.Columns.map fun col => col.COLUMN_NAME) =
      some ["id".toList, "name".toList, "email".toList] ∧
    (flinkReorder sampleKeyedBundle).map
        (fun r => r.2.Columns.map fun col => col.COLUMN_NAME) =
      some ["id".toList, "name".toList, "email".toList] ∧
    (starRocksExternalReorder sampleKeyedBundle).map
        (fun r => r.Columns.map fun col => col.COLUMN_NAME) =
      some ["email".toList, "name".toList, "id".toList] ∧
    starRocksExternalReorder sampleKeyedBundle =
      (reorderTableColumns sampleKeyedBundle.UniqueKCU sampleKeyedBundle.Columns).map
        (fun r => { sampleKeyedBundle with Columns := r.2 }) := by
  refine ⟨by decide, by decide, by decide, by decide, rfl⟩

/-! ## Theorems: float64 quotients -/

theorem bitLength_zero (fuel : Nat) : bitLength fuel 0 = 0 := by
  cases fuel <;> simp [bitLength]

/-- The number of binary digits brackets the number. -/
theorem bitLength_bounds :
    ∀ (fuel n : Nat), n < 2 ^ fuel →
      n < 2 ^ bitLength fuel n ∧ (0 < n → 2 ^ bitLength fuel n ≤ 2 * n) := by
  intro fuel
  induction fuel with
  | zero =>
    intro n h
    have : n = 0 := by simpa using h
    subst this
    simp [bitLength]
  | succ fuel ih =>
    intro n h
    by_cases hn : n = 0
    · subst hn
      simp [bitLength]
    · have hhalf : n / 2 < 2 ^ fuel := by
        rw [pow_succ] at h
        omega
      obtain ⟨h1, h2⟩ := ih (n / 2) hhalf
      simp only [bitLength, hn, if_false, pow_succ]
      constructor
      · omega
      · intro _
        by_cases h0 : n / 2 = 0
        · rw [h0, bitLength_zero]
          omega
        · have := h2 (Nat.pos_of_ne_zero h0)
          omega

theorem bitLen_bounds (n : Nat) (hn : 0 < n) :
    n < 2 ^ bitLen n ∧ 2 ^ bitLen n ≤ 2 * n := by
  obtain ⟨h1, h2⟩ := bitLength_bounds n n (Nat.lt_two_pow n)
  exact ⟨h1, h2 hn⟩

/-- The scaled quotient has 53 significant bits, and the scaling is by powers of
two: `N = P * 2 ^ up`, `D = Q * 2 ^ down` with exponent `down - up`. -/
theorem quotScale_spec (P Q : Nat) (hP : 0 < P) (hQ : 0 < Q) :
    ∃ up down : Nat,
      (quotScale P Q).1 = P * 2 ^ up ∧ (quotScale P Q).2.1 = Q * 2 ^ down ∧
      (quotScale P Q).2.2 = (down : Int) - (up : Int) ∧
      2 ^ 52 * (quotScale P Q).2.1 ≤ (quotScale P Q).1 ∧
      (quotScale P Q).1 < 2 ^ 53 * (quotScale P Q).2.1 := by
  obtain ⟨hP1, hP2⟩ := bitLen_bounds P hP
  obtain ⟨hQ1, hQ2⟩ := bitLen_bounds Q hQ
  have hexp : bitLen P + (bitLen Q + 53 - bitLen P) = bitLen Q + 53 + (bitLen P - (bitLen Q + 53)) := by
    omega
  have hpow : 2 ^ bitLen P * 2 ^ (bitLen Q + 53 - bitLen P) =
      2 ^ 53 * (2 ^ bitLen Q * 2 ^ (bitLen P - (bitLen Q + 53))) := by
    rw [← pow_add, hexp, pow_add, pow_add]
    ring
  set up := bitLen Q + 53 - bitLen P with hup
  set down := bitLen P - (bitLen Q + 53) with hdown
  have hu : 0 < 2 ^ up := Nat.pow_pos (by norm_num)
  have hd : 0 < 2 ^ down := Nat.pow_pos (by norm_num)
  -- lower: 2 ^ 53 * (Q * 2 ^ down) < 2 * (P * 2 ^ up)
  have hlow : 2 ^ 53 * (Q * 2 ^ down) < 2 * (P * 2 ^ up) := by
    calc 2 ^ 53 * (Q * 2 ^ down) < 2 ^ 53 * (2 ^ bitLen Q * 2 ^ down) := by
          apply Nat.mul_lt_mul_of_pos_left _ (by norm_num)
          exact Nat.mul_lt_mul_of_pos_right hQ1 hd
      _ = 2 ^ bitLen P * 2 ^ up := hpow.symm
      _ ≤ 2 * P * 2 ^ up := Nat.mul_le_mul_right _ hP2
      _ = 2 * (P * 2 ^ up) := by ring
  -- upper: P * 2 ^ up < 2 ^ 53 * (2 * (Q * 2 ^ down))
  have hhigh : P * 2 ^ up < 2 ^ 53 * (2 * (Q * 2 ^ down)) := by
    calc P * 2 ^ up < 2 ^ bitLen P * 2 ^ up := Nat.mul_lt_mul_of_pos_right hP1 hu
      _ = 2 ^ 53 * (2 ^ bitLen Q * 2 ^ down) := hpow
      _ ≤ 2 ^ 53 * (2 * Q * 2 ^ down) :=
          Nat.mul_le_mul_left _ (Nat.mul_le_mul_right _ hQ2)
      _ = 2 ^ 53 * (2 * (Q * 2 ^ down)) := by ring
  by_cases hb : 2 ^ 53 * (Q * 2 ^ down) ≤ P * 2 ^ up
  · refine ⟨up, down + 1, ?_, ?_, ?_, ?_, ?_⟩
    · simp only [quotScale, ← hup, ← hdown, hb, if_true]
    · simp only [quotScale, ← hup, ← hdown, hb, if_true]
      ring
    · simp only [quotScale, ← hup, ← hdown, hb, if_true]
      push_cast
      ring
    · simp only [quotScale, ← hup, ← hdown, hb, if_true]
      omega
    · simp only [quotScale, ← hup, ← hdown, hb, if_true]
      exact hhigh
  · refine ⟨up, down, ?_, ?_, ?_, ?_, ?_⟩
    · simp only [quotScale, ← hup, ← hdown, hb, if_false]
    · simp only [quotScale, ← hup, ← hdown, hb, if_false]
    · simp only [quotScale, ← hup, ← hdown, hb, if_false]
    · simp only [quotScale, ← hup, ← hdown, hb, if_false]
      omega
    · simp only [quotScale, ← hup, ← hdown, hb, if_false]
      omega

/-- Rounding to nearest moves the quotient by at most one half. -/
theorem roundHalfEven_bounds (N D : Nat) (hD : 0 < D) :
    2 * D * roundHalfEven N D ≤ 2 * N + D ∧ 2 * N ≤ 2 * D * roundHalfEven N D + D := by
  have hdiv := Nat.div_add_mod N D
  have hmod := Nat.mod_lt N hD
  have hmul : 2 * D * (N / D + 1) = 2 * (D * (N / D)) + 2 * D := by ring
  have hmul' : 2 * D * (N / D) = 2 * (D * (N / D)) := by ring
  unfold roundHalfEven
  split
  · rename_i h
    rw [hmul]
    rcases h with h | ⟨h, _⟩ <;> constructor <;> omega
  · rename_i h
    push_neg at h
    rw [hmul']
    constructor <;> omega

/-- A quotient that is a natural number is not changed by the rounding. -/
theorem roundHalfEven_of_dvd (N D : Nat) (hD : 0 < D) (h : D ∣ N) :
    roundHalfEven N D = N / D := by
  have hmod : N % D = 0 := Nat.mod_eq_zero_of_dvd h
  unfold roundHalfEven
  rw [hmod]
  have : ¬ (D < 2 * 0 ∨ (2 * 0 = D ∧ N / D % 2 = 1)) := by omega
  rw [if_neg this]
theorem toInt64_finite_zero (x : Int) (h1 : -9223372036854775808 ≤ x)
    (h2 : x < 9223372036854775808) : (GoFloat.finite x 0).toInt64 = x := by
  have hr : -(2 : Int) ^ 63 ≤ x ∧ x < (2 : Int) ^ 63 := by
    constructor <;> norm_num <;> assumption
  simp only [GoFloat.toInt64, le_refl, if_true, Int.toNat_zero, pow_zero, Nat.cast_one, mul_one,
    int64OfFloat64]
  rw [if_pos hr]

/-- Ceiling of a quotient of natural numbers: the least `k` with `P ≤ k * Q`. -/
theorem ceilDiv_bounds (P Q : Nat) (hP : 0 < P) (hQ : 0 < Q) :
    P ≤ (P + Q - 1) / Q * Q ∧ ((P + Q - 1) / Q - 1) * Q < P ∧ 0 < (P + Q - 1) / Q := by
  have hdiv := Nat.div_add_mod (P + Q - 1) Q
  have hmod := Nat.mod_lt (P + Q - 1) hQ
  have hpos : 0 < (P + Q - 1) / Q := Nat.div_pos (by omega) hQ
  have hcomm : Q * ((P + Q - 1) / Q) = (P + Q - 1) / Q * Q := Nat.mul_comm _ _
  refine ⟨by omega, ?_, hpos⟩
  have hsub : ((P + Q - 1) / Q - 1) * Q = (P + Q - 1) / Q * Q - Q := by
    rw [Nat.sub_mul, Nat.one_mul]
  rw [hsub]
  omega

/-- The ceiling of a number of the form `m / 2 ^ s`, as `math.Ceil` and the
conversion to `int64` compute it. -/
theorem toInt64_ceil_finite (m k up down : Nat) (hdu : down ≤ up)
    (hk : k < 2 ^ 53) (hlow : (k - 1) * 2 ^ (up - down) < m) (hhigh : m ≤ k * 2 ^ (up - down))
    (hkpos : 0 < k) :
    (GoFloat.ceil (.finite (m : Int) ((down : Int) - (up : Int)))).toInt64 = (k : Int) := by
  have hk63 : (k : Int) < 9223372036854775808 := by
    have : (k : Int) < (2 ^ 53 : Nat) := by exact_mod_cast hk
    norm_num at this
    omega
  by_cases hs : up = down
  · subst hs
    have hm : m = k := by
      simp only [Nat.sub_self, pow_zero, Nat.mul_one] at hlow hhigh
      omega
    subst hm
    have h0 : (0 : Int) ≤ (up : Int) - (up : Int) := by omega
    simp only [GoFloat.ceil, h0, if_true, sub_self]
    exact toInt64_finite_zero _ (by omega) hk63
  · have hneg : ¬ (0 : Int) ≤ (down : Int) - (up : Int) := by omega
    have hto : (-((down : Int) - (up : Int))).toNat = up - down := by omega
    simp only [GoFloat.ceil, hneg, if_false, hto]
    have hpos : (0 : Int) < ((2 ^ (up - down) : Nat) : Int) := by
      exact_mod_cast Nat.pow_pos (by norm_num)
    have hlow' : ((k : Int) - 1) * ((2 ^ (up - down) : Nat) : Int) < (m : Int) := by
      have : (((k - 1) * 2 ^ (up - down) : Nat) : Int) < (m : Int) := by exact_mod_cast hlow
      have hk1 : ((k - 1 : Nat) : Int) = (k : Int) - 1 := by omega
      rw [Nat.cast_mul, hk1] at this
      exact this
    have hhigh' : (m : Int) ≤ (k : Int) * ((2 ^ (up - down) : Nat) : Int) := by
      exact_mod_cast hhigh
    have hq : (-(m : Int)) / ((2 ^ (up - down) : Nat) : Int) = -(k : Int) := by
      apply le_antisymm
      · have : (-(m : Int)) / ((2 ^ (up - down) : Nat) : Int) < -(k : Int) + 1 := by
          rw [Int.ediv_lt_iff_lt_mul hpos]
          linarith
        omega
      · rw [Int.le_ediv_iff_mul_le hpos]
        linarith
    rw [hq, neg_neg]
    exact toInt64_finite_zero _ (by omega) hk63

/-- For a dividend below `2 ^ 53` the `float64` quotient has the ceiling of the
exact quotient: the rounding of the division does not reach the next integer. -/
theorem toInt64_ceil_roundQuot (P Q : Nat) (hP : 0 < P) (hP53 : P < 2 ^ 53) (hQ : 0 < Q) :
    (GoFloat.ceil (.finite ((roundQuot P Q).1 : Int) (roundQuot P Q).2)).toInt64 =
      (((P + Q - 1) / Q : Nat) : Int) := by
  obtain ⟨up, down, hN, hD, he, hlow, hhigh⟩ := quotScale_spec P Q hP hQ
  obtain ⟨hc1, hc2, hc3⟩ := ceilDiv_bounds P Q hP hQ
  set k := (P + Q - 1) / Q with hk
  have hDpos : 0 < Q * 2 ^ down := Nat.mul_pos hQ (Nat.pow_pos (by norm_num))
  obtain ⟨hr1, hr2⟩ := roundHalfEven_bounds (P * 2 ^ up) (Q * 2 ^ down) hDpos
  set m := roundHalfEven (P * 2 ^ up) (Q * 2 ^ down) with hm
  rw [hN, hD] at hlow hhigh
  -- the denominator is below `2 ^ (up + 1)`
  have hQd : Q * 2 ^ down < 2 ^ (up + 1) := by
    have h1 : 2 ^ 52 * (Q * 2 ^ down) < 2 ^ 52 * 2 ^ (up + 1) := by
      calc 2 ^ 52 * (Q * 2 ^ down) ≤ P * 2 ^ up := hlow
        _ < 2 ^ 53 * 2 ^ up := Nat.mul_lt_mul_of_pos_right hP53 (Nat.pow_pos (by norm_num))
        _ = 2 ^ 52 * 2 ^ (up + 1) := by ring
    exact Nat.lt_of_mul_lt_mul_left h1
  have hdu : down ≤ up := by
    by_contra hcon
    push_neg at hcon
    have h1 : 2 ^ (up + 1) ≤ 2 ^ down := Nat.pow_le_pow_right (by norm_num) hcon
    have h2 : 2 ^ down ≤ Q * 2 ^ down := Nat.le_mul_of_pos_left _ hQ
    omega
  have hsplit : 2 ^ up = 2 ^ (up - down) * 2 ^ down := by
    rw [← pow_add, Nat.sub_add_cancel hdu]
  have hkP : k ≤ P := by
    by_contra hcon
    push_neg at hcon
    have : (k - 1) * Q ≥ P * Q := Nat.mul_le_mul_right _ (by omega)
    have : P * Q ≥ P := Nat.le_mul_of_pos_right _ hQ
    omega
  have hupper : m ≤ k * 2 ^ (up - down) := by
    have h1 : P * 2 ^ up ≤ k * 2 ^ (up - down) * (Q * 2 ^ down) := by
      calc P * 2 ^ up ≤ k * Q * 2 ^ up := Nat.mul_le_mul_right _ hc1
        _ = k * 2 ^ (up - down) * (Q * 2 ^ down) := by rw [hsplit]; ring
    by_contra hcon
    push_neg at hcon
    have h2 : (k * 2 ^ (up - down) + 1) * (Q * 2 ^ down) ≤ m * (Q * 2 ^ down) :=
      Nat.mul_le_mul_right _ hcon
    have h3 : 2 * (Q * 2 ^ down) * m = 2 * (m * (Q * 2 ^ down)) := by ring
    have h4 : (k * 2 ^ (up - down) + 1) * (Q * 2 ^ down) =
        k * 2 ^ (up - down) * (Q * 2 ^ down) + Q * 2 ^ down := by ring
    omega
  have hlower : (k - 1) * 2 ^ (up - down) < m := by
    have h1 : (k - 1) * 2 ^ (up - down) * (Q * 2 ^ down) + 2 ^ up ≤ P * 2 ^ up := by
      calc (k - 1) * 2 ^ (up - down) * (Q * 2 ^ down) + 2 ^ up
          = ((k - 1) * Q + 1) * 2 ^ up := by rw [hsplit]; ring
        _ ≤ P * 2 ^ up := Nat.mul_le_mul_right _ hc2
    by_contra hcon
    push_neg at hcon
    have h2 : m * (Q * 2 ^ down) ≤ (k - 1) * 2 ^ (up - down) * (Q * 2 ^ down) :=
      Nat.mul_le_mul_right _ hcon
    have h3 : 2 * (Q * 2 ^ down) * m = 2 * (m * (Q * 2 ^ down)) := by ring
    have h5 : 2 ^ (up + 1) = 2 * 2 ^ up := by ring
    omega
  have hval : (roundQuot P Q).1 = m := by
    simp only [roundQuot, hN, hD, hm]
  have hexp : (roundQuot P Q).2 = (down : Int) - (up : Int) := by
    simp only [roundQuot, he]
  rw [hval, hexp]
  exact toInt64_ceil_finite m k up down hdu (lt_of_le_of_lt hkP hP53) hlower hupper hc3
theorem wrapInt64_of_range (x : Int) (h1 : -9223372036854775808 ≤ x)
    (h2 : x < 9223372036854775808) : wrapInt64 x = x := by
  unfold wrapInt64
  omega

/-- The ceiling of the exact quotient of two natural numbers. -/
theorem ceil_rat_div (P Q : Nat) (hQ : 0 < Q) :
    ⌈((P : ℚ) / (Q : ℚ))⌉ = (((P + Q - 1) / Q : Nat) : Int) := by
  have hQ' : (0 : ℚ) < (Q : ℚ) := by exact_mod_cast hQ
  by_cases hP : P = 0
  · subst hP
    have : (0 + Q - 1) / Q = 0 := Nat.div_eq_of_lt (by omega)
    rw [this]
    simp
  · obtain ⟨h1, h2, h3⟩ := ceilDiv_bounds P Q (Nat.pos_of_ne_zero hP) hQ
    rw [Int.ceil_eq_iff]
    constructor
    · rw [lt_div_iff₀ hQ']
      have : (((((P + Q - 1) / Q - 1) * Q : Nat)) : ℚ) < (P : ℚ) := by exact_mod_cast h2
      have hsub : ((((P + Q - 1) / Q - 1 : Nat)) : ℚ) = (((P + Q - 1) / Q : Nat) : ℚ) - 1 := by
        rw [Nat.cast_sub h3]
        simp
      rw [Nat.cast_mul, hsub] at this
      exact_mod_cast this
    · rw [div_le_iff₀ hQ']
      exact_mod_cast h1

/-- The `float64` division of a natural number below `2 ^ 53` by a positive
natural number, followed by `math.Ceil` and the conversion to `int64`, gives the
ceiling of the exact quotient. -/
theorem toInt64_ceil_div_nat (P Q : Nat) (hP53 : P < 2 ^ 53) (hQ : 0 < Q) :
    (GoFloat.ceil (GoFloat.div (.finite (P : Int) 0) (.finite (Q : Int) 0))).toInt64 =
      ⌈((P : ℚ) / (Q : ℚ))⌉ := by
  have hQ0 : ¬ (Q : Int) = 0 := by omega
  by_cases hP : P = 0
  · subst hP
    simp only [GoFloat.div, hQ0, if_false, Nat.cast_zero, if_true, GoFloat.ceil, le_refl,
      zero_div, Int.ceil_zero]
    exact toInt64_finite_zero 0 (by norm_num) (by norm_num)
  · have hP0 : ¬ (P : Int) = 0 := by omega
    have hsign : ((decide ((P : Int) < 0)) != (decide ((Q : Int) < 0))) = false := by
      have h1 : ¬ (P : Int) < 0 := by omega
      have h2 : ¬ (Q : Int) < 0 := by omega
      simp [h1, h2]
    simp only [GoFloat.div, hQ0, hP0, if_false, hsign, sub_self, Int.toNat_zero, pow_zero,
      Nat.mul_one, Int.natAbs_ofNat, Bool.false_eq_true]
    rw [toInt64_ceil_roundQuot P Q (Nat.pos_of_ne_zero hP) hP53 hQ, ceil_rat_div P Q hQ]

/-- The `float64` division of a positive number below `2 ^ 53` by `2 ^ 30` is
exact: the mantissa is the number scaled by a power of two. -/
theorem roundQuot_giga (a : Nat) (ha : 0 < a) (ha53 : a < 2 ^ 53) :
    ∃ s : Nat, 30 ≤ s ∧ roundQuot a (2 ^ 30) = (a * 2 ^ (s - 30), -(s : Int)) ∧
      a * 2 ^ (s - 30) < 2 ^ 53 := by
  obtain ⟨up, down, hN, hD, he, hlow, hhigh⟩ := quotScale_spec a (2 ^ 30) ha (by norm_num)
  rw [hN, hD] at hlow hhigh
  have hQd : 2 ^ (30 + down) < 2 ^ (up + 1) := by
    have h1 : 2 ^ 52 * (2 ^ 30 * 2 ^ down) < 2 ^ 52 * 2 ^ (up + 1) := by
      calc 2 ^ 52 * (2 ^ 30 * 2 ^ down) ≤ a * 2 ^ up := hlow
        _ < 2 ^ 53 * 2 ^ up := Nat.mul_lt_mul_of_pos_right ha53 (Nat.pow_pos (by norm_num))
        _ = 2 ^ 52 * 2 ^ (up + 1) := by ring
    have h2 := Nat.lt_of_mul_lt_mul_left h1
    rwa [← pow_add] at h2
  have hle : 30 + down ≤ up := by
    have := (Nat.pow_lt_pow_iff_right (by norm_num : 1 < 2)).mp hQd
    omega
  have hsplit : 2 ^ up = 2 ^ (up - down - 30) * (2 ^ 30 * 2 ^ down) := by
    rw [← pow_add, ← pow_add]
    congr 1
    omega
  have hDpos : 0 < 2 ^ 30 * 2 ^ down := by positivity
  have hNeq : a * 2 ^ up = a * 2 ^ (up - down - 30) * (2 ^ 30 * 2 ^ down) := by
    rw [hsplit]; ring
  have hdvd : 2 ^ 30 * 2 ^ down ∣ a * 2 ^ up := ⟨a * 2 ^ (up - down - 30), by rw [hNeq]; ring⟩
  have hquot : a * 2 ^ up / (2 ^ 30 * 2 ^ down) = a * 2 ^ (up - down - 30) := by
    rw [hNeq]
    exact Nat.mul_div_cancel _ hDpos
  refine ⟨up - down, by omega, ?_, ?_⟩
  · have h1 : (roundQuot a (2 ^ 30)).1 = a * 2 ^ (up - down - 30) := by
      simp only [roundQuot, hN, hD]
      rw [roundHalfEven_of_dvd _ _ hDpos hdvd, hquot]
    have h2 : (roundQuot a (2 ^ 30)).2 = -((up - down : Nat) : Int) := by
      simp only [roundQuot, he]
      omega
    exact Prod.ext h1 h2
  · have h3 : a * 2 ^ (up - down - 30) * (2 ^ 30 * 2 ^ down) < 2 ^ 53 * (2 ^ 30 * 2 ^ down) := by
      rw [← hNeq]
      exact hhigh
    exact Nat.lt_of_mul_lt_mul_right h3

/-! ## Theorems: calculatePartitions -/

theorem lookup_setDProps_time_unit (interval : GoString) :
    List.lookup "dynamic_partition.time_unit".toList (setDProps interval) = some interval := by
  rfl

theorem lookup_setDProps_enable (interval : GoString) :
    List.lookup "dynamic_partition.enable".toList (setDProps interval) = some "true".toList := by
  rfl

theorem GIGA_BYTES_eq : GIGA_BYTES = 2 ^ 30 := by decide

theorem DAY_SECONDS_eq : DAY_SECONDS = 86400 := by decide

/-- The day count for a table created in the past, less than `2 ^ 53` seconds
ago: the ceiling of the exact quotient, and 1 in place of 0. -/
theorem partitionDays_of_past (now created : Int) (h1 : created ≤ now)
    (h2 : now - created < 9007199254740992) :
    partitionDays now created = max 1 ⌈((now - created : Int) : ℚ) / 86400⌉ := by
  obtain ⟨d, hd⟩ := Int.eq_ofNat_of_zero_le (by omega : 0 ≤ now - created)
  have hd53 : d < 2 ^ 53 := by
    have : (d : Int) < 9007199254740992 := by omega
    norm_num
    exact_mod_cast this
  have hwrap : wrapInt64 (d : Int) = (d : Int) :=
    wrapInt64_of_range _ (by omega) (by omega)
  have hconv : GoFloat.ofInt64 (d : Int) = .finite (d : Int) 0 := by
    unfold GoFloat.ofInt64
    rw [float64OfInt64_exact _ (by simpa using hd53)]
  have hconv2 : GoFloat.ofInt64 ((DAY_SECONDS : Nat) : Int) = .finite ((86400 : Nat) : Int) 0 := by
    unfold GoFloat.ofInt64
    rw [float64OfInt64_exact _ (by rw [DAY_SECONDS_eq]; norm_num), DAY_SECONDS_eq]
  have hceil := toInt64_ceil_div_nat d 86400 hd53 (by norm_num)
  unfold partitionDays
  rw [hd, hwrap, hconv, hconv2, hceil]
  simp only []
  have hnonneg : (0 : Int) ≤ ⌈((d : ℚ) / ((86400 : Nat) : ℚ))⌉ := by
    apply Int.ceil_nonneg
    positivity
  have hcast : (((d : Int) : ℚ) / 86400) = ((d : ℚ) / ((86400 : Nat) : ℚ)) := by
    push_cast
    rfl
  rw [hcast]
  split
  · rename_i h0
    rw [h0]
    rfl
  · rename_i h0
    rw [max_eq_right]
    omega

/-- C13 (evaluation at the failing input): a table created one day after the
clock reading.  The day count that `calculatePartitions` divides by is `-1`,
while `max(1, ceil((now - created) / 86400))` is 1. -/
theorem partitionDays_future_negative :
    partitionDays 1000000 (1000000 + 86400) = -1 ∧
    max 1 ⌈(((1000000 - (1000000 + 86400) : Int) : ℚ) / 86400)⌉ = 1 := by
  constructor
  · decide
  · have h : (((1000000 - (1000000 + 86400) : Int) : ℚ) / 86400) = ((-1 : Int) : ℚ) := by
      norm_num
    rw [h, Int.ceil_intCast]
    rfl
theorem GIGA_BYTES_cast : ((GIGA_BYTES : Nat) : Int) = 1073741824 := by
  rw [GIGA_BYTES_eq]
  norm_num

/-- For a size that is not negative and a positive day count the `int64`
division is the quotient rounded down, without wraparound. -/
theorem int64Div_of_nonneg (S days : Int) (hS : 0 ≤ S) (hS63 : S < 9223372036854775808)
    (hdays : 1 ≤ days) :
    int64Div S days = S / days ∧ 0 ≤ S / days ∧ S / days ≤ S := by
  have h0 : 0 ≤ S / days := Int.ediv_nonneg hS (by omega)
  have hle : S / days ≤ S := Int.ediv_le_self _ hS
  refine ⟨?_, h0, hle⟩
  unfold int64Div
  rw [Int.tdiv_eq_ediv hS (by omega)]
  exact wrapInt64_of_range _ (by omega) (by omega)

/-- The results of `calculatePartitions` for a size of at least 100 GiB: the
properties are those of `setDProps` for the chosen granularity, and the
partition clause is not empty. -/
theorem calculatePartitionsFor_large (env : TimeEnv) (S : Int) (created : GoTime) (days : Int)
    (hS : 100 * (GIGA_BYTES : Int) ≤ S) :
    (calculatePartitionsFor env S created days).2.1 =
        setDProps (chosenGranularity (int64Div S days)) ∧
      (calculatePartitionsFor env S created days).2.2 ≠ [] := by
  have hnot : ¬ S < 100 * (GIGA_BYTES : Int) := by omega
  unfold calculatePartitionsFor chosenGranularity
  by_cases h1 : int64Div S days > 10 * (GIGA_BYTES : Int)
  · simp only [h1, if_true, hnot, if_false]
    exact ⟨trivial, by simp⟩
  · by_cases h2 : int64Div S days > (GIGA_BYTES : Int)
    · simp only [h1, h2, if_true, hnot, if_false]
      exact ⟨trivial, by simp⟩
    · simp only [h1, h2, hnot, if_false]
      exact ⟨trivial, by simp⟩

/-- The results of `calculatePartitions` for a size below 100 GiB: no property
and no partition clause, in every branch. -/
theorem calculatePartitionsFor_small (env : TimeEnv) (S : Int) (created : GoTime) (days : Int)
    (hS : S < 100 * (GIGA_BYTES : Int)) :
    (calculatePartitionsFor env S created days).2 = ([], []) := by
  unfold calculatePartitionsFor
  by_cases h1 : int64Div S days > 10 * (GIGA_BYTES : Int)
  · simp only [h1, if_true, hS]
  · by_cases h2 : int64Div S days > (GIGA_BYTES : Int)
    · simp only [h1, h2, if_true, hS, if_false]
    · simp only [h1, h2, hS, if_true, if_false]

/-- The basis returned by `calculatePartitions`, in `int64` arithmetic. -/
theorem calculatePartitionsFor_basis_wrap (env : TimeEnv) (S : Int) (created : GoTime)
    (days : Int) :
    (calculatePartitionsFor env S created days).1 =
      if int64Div S days > 10 * (GIGA_BYTES : Int) then int64Div S days
      else if int64Div S days > (GIGA_BYTES : Int) then wrapInt64 (int64Div S days * 30)
      else wrapInt64 (int64Div S days * 365) := by
  unfold calculatePartitionsFor
  by_cases h1 : int64Div S days > 10 * (GIGA_BYTES : Int)
  · simp only [h1, if_true]
    split <;> rfl
  · by_cases h2 : int64Div S days > (GIGA_BYTES : Int)
    · simp only [h1, h2, if_true, if_false]
      split <;> rfl
    · simp only [h1, h2, if_false]
      split <;> rfl

/-- The granularity as a function of the rate. -/
theorem chosenGranularity_cases (rate : Int) :
    (chosenGranularity rate = "DAY".toList ↔ rate > 10 * (GIGA_BYTES : Int)) ∧
    (chosenGranularity rate = "MONTH".toList ↔
      (GIGA_BYTES : Int) < rate ∧ rate ≤ 10 * (GIGA_BYTES : Int)) ∧
    (chosenGranularity rate = "YEAR".toList ↔ rate ≤ (GIGA_BYTES : Int)) := by
  have hG := GIGA_BYTES_cast
  have hdm : "DAY".toList ≠ "MONTH".toList := by decide
  have hdy : "DAY".toList ≠ "YEAR".toList := by decide
  have hmy : "MONTH".toList ≠ "YEAR".toList := by decide
  unfold chosenGranularity
  by_cases h1 : rate > 10 * (GIGA_BYTES : Int)
  · rw [if_pos h1]
    refine ⟨⟨fun _ => h1, fun _ => rfl⟩, ⟨fun h => absurd h hdm, fun h => ?_⟩,
      ⟨fun h => absurd h hdy, fun h => ?_⟩⟩
    · omega
    · omega
  · rw [if_neg h1]
    by_cases h2 : rate > (GIGA_BYTES : Int)
    · rw [if_pos h2]
      refine ⟨⟨fun h => absurd h.symm hdm, fun h => absurd h h1⟩,
        ⟨fun _ => ⟨h2, by omega⟩, fun _ => rfl⟩, ⟨fun h => absurd h hmy, fun h => ?_⟩⟩
      omega
    · rw [if_neg h2]
      refine ⟨⟨fun h => absurd h.symm hdy, fun h => absurd h h1⟩,
        ⟨fun h => absurd h.symm hmy, fun h => ?_⟩, ⟨fun _ => by omega, fun _ => rfl⟩⟩
      omega

/-- C14 (counterexample): a size of 110 GiB + 1 byte and 11 days.  The exact
quotient is above 10 GiB, yet the time unit written is MONTH, not DAY: the code
compares the quotient rounded down, which is exactly 10 GiB. -/
theorem calculatePartitionsFor_exact_quotient_month :
    (100 * (GIGA_BYTES : Int) ≤ 118111600641) ∧
    ((118111600641 : ℚ) / 11 > 10 * 1073741824) ∧
    List.lookup "dynamic_partition.time_unit".toList
        (calculatePartitionsFor (sampleEnv 100000000) 118111600641 (GoTime.ofUnix 0) 11).2.1 =
      some "MONTH".toList := by
  refine ⟨by decide, by norm_num, by decide⟩

/-- C14 (amended): for every size of at least 100 GiB and every day count of at
least 1, with `rate` the quotient of the size by the day count rounded down: the
time unit written into the dynamic-partition properties is DAY if and only if
`rate > 10 GiB`, MONTH if and only if `1 GiB < rate ≤ 10 GiB`, YEAR if and only
if `rate ≤ 1 GiB`. -/
theorem calculatePartitionsFor_time_unit (env : TimeEnv) (S : Int) (created : GoTime)
    (days : Int) (hS : 100 * (GIGA_BYTES : Int) ≤ S) (hS63 : S < 9223372036854775808)
    (hdays : 1 ≤ days) :
    (List.lookup "dynamic_partition.time_unit".toList
        (calculatePartitionsFor env S created days).2.1 = some "DAY".toList ↔
      S / days > 10 * (GIGA_BYTES : Int)) ∧
    (List.lookup "dynamic_partition.time_unit".toList
        (calculatePartitionsFor env S created days).2.1 = some "MONTH".toList ↔
      (GIGA_BYTES : Int) < S / days ∧ S / days ≤ 10 * (GIGA_BYTES : Int)) ∧
    (List.lookup "dynamic_partition.time_unit".toList
        (calculatePartitionsFor env S created days).2.1 = some "YEAR".toList ↔
      S / days ≤ (GIGA_BYTES : Int)) := by
  have hG := GIGA_BYTES_cast
  obtain ⟨hdiv, _, _⟩ := int64Div_of_nonneg S days (by omega) hS63 hdays
  rw [(calculatePartitionsFor_large env S created days hS).1, lookup_setDProps_time_unit, hdiv]
  simp only [Option.some.injEq]
  exact chosenGranularity_cases (S / days)

/-- C14 (witness): 300 GiB over 10 days, a rate of 30 GiB, is partitioned by day. -/
theorem calculatePartitionsFor_time_unit_witness :
    List.lookup "dynamic_partition.time_unit".toList
        (calculatePartitionsFor (sampleEnv 100000000) (300 * (GIGA_BYTES : Int))
          (GoTime.ofUnix 0) 10).2.1 = some "DAY".toList ↔
      300 * (GIGA_BYTES : Int) / 10 > 10 * (GIGA_BYTES : Int) :=
  (calculatePartitionsFor_time_unit (sampleEnv 100000000) (300 * (GIGA_BYTES : Int))
    (GoTime.ofUnix 0) 10 (by decide) (by decide) (by decide)).1
/-- C15: threshold exactness.  For every day count of at least 1: a size whose
quotient by the day count is exactly 10 GiB takes the MONTH branch, not the DAY
branch (the basis is 30 times the rate, and the time unit, written when the size
reaches 100 GiB, is MONTH); a size whose quotient is exactly 1 GiB takes the YEAR
branch, not the MONTH branch (basis 365 times the rate, time unit YEAR). -/
theorem calculatePartitionsFor_threshold (env : TimeEnv) (created : GoTime) (S days : Int)
    (hdays : 1 ≤ days) (hS63 : S < 9223372036854775808) :
    (S = 10 * (GIGA_BYTES : Int) * days →
      (calculatePartitionsFor env S created days).1 = 10 * (GIGA_BYTES : Int) * 30 ∧
      List.lookup "dynamic_partition.time_unit".toList
          (calculatePartitionsFor env S created days).2.1 ≠ some "DAY".toList ∧
      (100 * (GIGA_BYTES : Int) ≤ S →
        List.lookup "dynamic_partition.time_unit".toList
          (calculatePartitionsFor env S created days).2.1 = some "MONTH".toList)) ∧
    (S = (GIGA_BYTES : Int) * days →
      (calculatePartitionsFor env S created days).1 = (GIGA_BYTES : Int) * 365 ∧
      List.lookup "dynamic_partition.time_unit".toList
          (calculatePartitionsFor env S created days).2.1 ≠ some "MONTH".toList ∧
      (100 * (GIGA_BYTES : Int) ≤ S →
        List.lookup "dynamic_partition.time_unit".toList
          (calculatePartitionsFor env S created days).2.1 = some "YEAR".toList)) := by
  have hG := GIGA_BYTES_cast
  have hdm : "MONTH".toList ≠ "DAY".toList := by decide
  have hym : "YEAR".toList ≠ "MONTH".toList := by decide
  constructor
  · intro hS
    have hS0 : 0 ≤ S := by
      rw [hS, hG]
      positivity
    obtain ⟨hdiv, _, _⟩ := int64Div_of_nonneg S days hS0 hS63 hdays
    have hrate : S / days = 10 * (GIGA_BYTES : Int) := by
      rw [hS]
      exact Int.mul_ediv_cancel _ (by omega)
    have hgran : chosenGranularity (S / days) = "MONTH".toList :=
      (chosenGranularity_cases (S / days)).2.1.mpr (by omega)
    refine ⟨?_, ?_, ?_⟩
    · rw [calculatePartitionsFor_basis_wrap, hdiv, hrate]
      rw [if_neg (by omega), if_pos (by omega)]
      exact wrapInt64_of_range _ (by omega) (by omega)
    · by_cases hbig : 100 * (GIGA_BYTES : Int) ≤ S
      · rw [(calculatePartitionsFor_large env S created days hbig).1,
          lookup_setDProps_time_unit, hdiv, hgran]
        exact fun h => hdm (Option.some.inj h)
      · rw [calculatePartitionsFor_small env S created days (by omega)]
        simp [List.lookup]
    · intro hbig
      rw [(calculatePartitionsFor_large env S created days hbig).1,
        lookup_setDProps_time_unit, hdiv, hgran]
  · intro hS
    have hS0 : 0 ≤ S := by
      rw [hS, hG]
      positivity
    obtain ⟨hdiv, _, _⟩ := int64Div_of_nonneg S days hS0 hS63 hdays
    have hrate : S / days = (GIGA_BYTES : Int) := by
      rw [hS]
      exact Int.mul_ediv_cancel _ (by omega)
    have hgran : chosenGranularity (S / days) = "YEAR".toList :=
      (chosenGranularity_cases (S / days)).2.2.mpr (by omega)
    refine ⟨?_, ?_, ?_⟩
    · rw [calculatePartitionsFor_basis_wrap, hdiv, hrate]
      rw [if_neg (by omega), if_neg (by omega)]
      exact wrapInt64_of_range _ (by omega) (by omega)
    · by_cases hbig : 100 * (GIGA_BYTES : Int) ≤ S
      · rw [(calculatePartitionsFor_large env S created days hbig).1,
          lookup_setDProps_time_unit, hdiv, hgran]
        exact fun h => hym (Option.some.inj h)
      · rw [calculatePartitionsFor_small env S created days (by omega)]
        simp [List.lookup]
    · intro hbig
      rw [(calculatePartitionsFor_large env S created days hbig).1,
        lookup_setDProps_time_unit, hdiv, hgran]

/-- C15 (witness): 200 GiB over 20 days, a rate of exactly 10 GiB. -/
theorem calculatePartitionsFor_threshold_witness :
    (calculatePartitionsFor (sampleEnv 100000000) 214748364800 (GoTime.ofUnix 0) 20).1 =
        10 * (GIGA_BYTES : Int) * 30 ∧
      List.lookup "dynamic_partition.time_unit".toList
          (calculatePartitionsFor (sampleEnv 100000000) 214748364800
            (GoTime.ofUnix 0) 20).2.1 ≠ some "DAY".toList ∧
      (100 * (GIGA_BYTES : Int) ≤ 214748364800 →
        List.lookup "dynamic_partition.time_unit".toList
          (calculatePartitionsFor (sampleEnv 100000000) 214748364800
            (GoTime.ofUnix 0) 20).2.1 = some "MONTH".toList) :=
  (calculatePartitionsFor_threshold (sampleEnv 100000000) (GoTime.ofUnix 0) 214748364800 20
    (by decide) (by decide)).1 (by decide)

/-- C16: for every size, creation time and current time: below 100 GiB
`calculatePartitions` returns an empty property map and an empty partition
clause; from 100 GiB on it returns a map with `dynamic_partition.enable` equal to
`true` and `dynamic_partition.time_unit` equal to the chosen granularity, and a
partition clause that is not empty. -/
theorem calculatePartitions_properties (env : TimeEnv) (S : Int) (created : GoTime) :
    (S < 100 * (GIGA_BYTES : Int) → (calculatePartitions env S created).2 = ([], [])) ∧
    (100 * (GIGA_BYTES : Int) ≤ S →
      List.lookup "dynamic_partition.enable".toList (calculatePartitions env S created).2.1 =
        some "true".toList ∧
      List.lookup "dynamic_partition.time_unit".toList (calculatePartitions env S created).2.1 =
        some (chosenGranularity (int64Div S (partitionDays env.now.Unix created.Unix))) ∧
      (calculatePartitions env S created).2.2 ≠ []) := by
  constructor
  · intro hS
    exact calculatePartitionsFor_small env S created _ hS
  · intro hS
    obtain ⟨h1, h2⟩ := calculatePartitionsFor_large env S created
      (partitionDays env.now.Unix created.Unix) hS
    unfold calculatePartitions
    rw [h1]
    exact ⟨lookup_setDProps_enable _, lookup_setDProps_time_unit _, h2⟩

/-- C16 (witness): 5 GiB gives nothing; 500 GiB created 30 days ago is
partitioned by day. -/
theorem calculatePartitions_properties_witness :
    (calculatePartitions (sampleEnv 100000000) (5 * (GIGA_BYTES : Int))
        (GoTime.ofUnix 97408000)).2 = ([], []) ∧
    List.lookup "dynamic_partition.time_unit".toList
        (calculatePartitions (sampleEnv 100000000) (500 * (GIGA_BYTES : Int))
          (GoTime.ofUnix 97408000)).2.1 =
      some (chosenGranularity (int64Div (500 * (GIGA_BYTES : Int))
        (partitionDays (sampleEnv 100000000).now.Unix (GoTime.ofUnix 97408000).Unix))) :=
  ⟨(calculatePartitions_properties (sampleEnv 100000000) (5 * (GIGA_BYTES : Int))
      (GoTime.ofUnix 97408000)).1 (by decide),
   ((calculatePartitions_properties (sampleEnv 100000000) (500 * (GIGA_BYTES : Int))
      (GoTime.ofUnix 97408000)).2 (by decide)).2.1⟩

/-- C17: the basis returned by `calculatePartitions` is the rate for DAY, 30
times the rate for MONTH and 365 times the rate for YEAR, the rate being the
quotient of the size by the day count rounded down; for 5 GiB created 30 days
ago the day count is 30, the YEAR branch gives the basis 65319294050 with no
property and no clause, and this basis is within 365 bytes of
`5 GiB * 365 / 30`. -/
theorem calculatePartitions_basis :
    (∀ (env : TimeEnv) (S : Int) (created : GoTime) (days : Int), 0 ≤ S →
      S < 9223372036854775808 → 1 ≤ days →
      (calculatePartitionsFor env S created days).1 =
        if S / days > 10 * (GIGA_BYTES : Int) then S / days
        else if S / days > (GIGA_BYTES : Int) then S / days * 30
        else S / days * 365) ∧
    partitionDays 100000000 (100000000 - 30 * 86400) = 30 ∧
    calculatePartitions (sampleEnv 100000000) (5 * (GIGA_BYTES : Int))
        (GoTime.ofUnix (100000000 - 30 * 86400)) = (65319294050, [], []) ∧
    (5 * (GIGA_BYTES : Int)) / 30 * 365 = 65319294050 ∧
    |(65319294050 : ℚ) - 5 * 1073741824 * 365 / 30| ≤ 365 := by
  refine ⟨?_, by decide, by decide, by decide, ?_⟩
  · intro env S created days hS hS63 hdays
    have hG := GIGA_BYTES_cast
    obtain ⟨hdiv, h0, hle⟩ := int64Div_of_nonneg S days hS hS63 hdays
    rw [calculatePartitionsFor_basis_wrap, hdiv]
    by_cases h1 : S / days > 10 * (GIGA_BYTES : Int)
    · rw [if_pos h1, if_pos h1]
    · rw [if_neg h1, if_neg h1]
      by_cases h2 : S / days > (GIGA_BYTES : Int)
      · rw [if_pos h2, if_pos h2]
        exact wrapInt64_of_range _ (by omega) (by omega)
      · rw [if_neg h2, if_neg h2]
        exact wrapInt64_of_range _ (by omega) (by omega)
  · rw [abs_le]
    constructor <;> norm_num

/-- C17 (witness): 300 GiB over 60 days, a rate of 5 GiB, gives the basis of a
month. -/
theorem calculatePartitions_basis_witness :
    (calculatePartitionsFor (sampleEnv 100000000) (300 * (GIGA_BYTES : Int))
        (GoTime.ofUnix 0) 60).1 =
      if 300 * (GIGA_BYTES : Int) / 60 > 10 * (GIGA_BYTES : Int) then
        300 * (GIGA_BYTES : Int) / 60
      else if 300 * (GIGA_BYTES : Int) / 60 > (GIGA_BYTES : Int) then
        300 * (GIGA_BYTES : Int) / 60 * 30
      else 300 * (GIGA_BYTES : Int) / 60 * 365 :=
  calculatePartitions_basis.1 (sampleEnv 100000000) (300 * (GIGA_BYTES : Int))
    (GoTime.ofUnix 0) 60 (by decide) (by decide) (by decide)
/-! ## Theorems: calculateBuckets -/

/-- The second division of `calculateBuckets`: a positive `float64` value
`m * 2 ^ (-s)` with `m < 2 ^ 53`, divided by a positive natural number, then
`math.Ceil` and the conversion to `int64`, gives the ceiling of the exact
quotient. -/
theorem toInt64_ceil_div_scaled (m s N : Nat) (hm : 0 < m) (hm53 : m < 2 ^ 53) (hN : 0 < N) :
    (GoFloat.ceil (GoFloat.div (.finite (m : Int) (-(s : Int))) (.finite (N : Int) 0))).toInt64 =
      ⌈((m : ℚ) / ((N : ℚ) * 2 ^ s))⌉ := by
  have hN0 : ¬ (N : Int) = 0 := by omega
  have hm0 : ¬ (m : Int) = 0 := by omega
  have hsign : ((decide ((m : Int) < 0)) != (decide ((N : Int) < 0))) = false := by
    have h1 : ¬ (m : Int) < 0 := by omega
    have h2 : ¬ (N : Int) < 0 := by omega
    simp [h1, h2]
  have he1 : (-(s : Int) - 0).toNat = 0 := by omega
  have he2 : ((0 : Int) - -(s : Int)).toNat = s := by omega
  simp only [GoFloat.div, hN0, hm0, if_false, hsign, he1, he2, pow_zero, Nat.mul_one,
    Int.natAbs_ofNat, Bool.false_eq_true]
  rw [toInt64_ceil_roundQuot m (N * 2 ^ s) hm hm53 (Nat.mul_pos hN (Nat.pow_pos (by norm_num))),
    ← ceil_rat_div m (N * 2 ^ s) (Nat.mul_pos hN (Nat.pow_pos (by norm_num)))]
  push_cast
  rfl

/-- The first division of `calculateBuckets`, by `GIGA_BYTES`, for a positive
size below `2 ^ 53`: exact. -/
theorem div_giga_exact (a : Nat) (ha : 0 < a) (ha53 : a < 2 ^ 53) :
    ∃ s : Nat, 30 ≤ s ∧ a * 2 ^ (s - 30) < 2 ^ 53 ∧
      GoFloat.div (GoFloat.ofInt64 (a : Int)) (GoFloat.ofInt64 ((GIGA_BYTES : Nat) : Int)) =
        .finite ((a * 2 ^ (s - 30) : Nat) : Int) (-(s : Int)) := by
  obtain ⟨s, hs, hq, hlt⟩ := roundQuot_giga a ha ha53
  refine ⟨s, hs, hlt, ?_⟩
  have hconv : GoFloat.ofInt64 (a : Int) = .finite (a : Int) 0 := by
    unfold GoFloat.ofInt64
    rw [float64OfInt64_exact _ (by simpa using ha53)]
  have hconv2 : GoFloat.ofInt64 ((GIGA_BYTES : Nat) : Int) = .finite ((2 ^ 30 : Nat) : Int) 0 := by
    unfold GoFloat.ofInt64
    rw [float64OfInt64_exact _ (by rw [GIGA_BYTES_eq]; norm_num), GIGA_BYTES_eq]
  have hG0 : ¬ ((2 ^ 30 : Nat) : Int) = 0 := by norm_num
  have ha0 : ¬ (a : Int) = 0 := by omega
  have hsign : ((decide ((a : Int) < 0)) != (decide (((2 ^ 30 : Nat) : Int) < 0))) = false := by
    have h1 : ¬ (a : Int) < 0 := by omega
    have h2 : ¬ ((2 ^ 30 : Nat) : Int) < 0 := by norm_num
    simp [h1, h2]
  rw [hconv, hconv2]
  simp only [GoFloat.div, hG0, ha0, if_false, hsign, sub_self, Int.toNat_zero, pow_zero,
    Nat.mul_one, Int.natAbs_ofNat, Bool.false_eq_true, hq]

set_option maxRecDepth 8000 in
/-- C18 (counterexample): with one backend and a basis of `2 ^ 53 + 1` bytes the
code returns `2 ^ 23` buckets, while the exact ceiling of `basis / 1 GiB / 1` is
`2 ^ 23 + 1`: the conversion of the basis to `float64` rounds it.  With `2 ^ 33`
backends the product `N * GIGA_BYTES` wraps around, and a basis of 2 GiB, which
is below `N` GiB, gives `2 ^ 33` buckets and not `ceil(2) = 2`. -/
theorem calculateBuckets_beyond_exact_range :
    calculateBuckets 1 9007199254740993 = 8388608 ∧
    ⌈((9007199254740993 : ℚ) / 1073741824 / 1)⌉ * 1 = 8388609 ∧
    calculateBuckets 8589934592 2147483648 = 8589934592 ∧
    ⌈((2147483648 : ℚ) / 1073741824)⌉ = 2 := by
  refine ⟨by decide, ?_, by decide, ?_⟩
  · rw [mul_one, Int.ceil_eq_iff]
    constructor <;> norm_num
  · rw [Int.ceil_eq_iff]
    constructor <;> norm_num

/-- C18 (amended): for every backend count `N` with `1 ≤ N < 2 ^ 33` and every
basis below `2 ^ 53` bytes, `calculateBuckets` returns 1 if the basis is below
1 GiB, the exact ceiling of `basis / 1 GiB` if `1 GiB ≤ basis < N GiB`, and the
exact ceiling of `basis / 1 GiB / N` times `N` if `basis ≥ N GiB`. -/
theorem calculateBuckets_spec (N basis : Int) (hN1 : 1 ≤ N) (hN33 : N < 8589934592)
    (hb53 : basis < 9007199254740992) :
    (basis < (GIGA_BYTES : Int) → calculateBuckets N basis = 1) ∧
    ((GIGA_BYTES : Int) ≤ basis → basis < N * (GIGA_BYTES : Int) →
      calculateBuckets N basis = ⌈((basis : ℚ) / 1073741824)⌉) ∧
    (N * (GIGA_BYTES : Int) ≤ basis →
      calculateBuckets N basis = ⌈((basis : ℚ) / 1073741824 / (N : ℚ))⌉ * N) := by
  have hG := GIGA_BYTES_cast
  rw [hG]
  have hwrap : wrapInt64 (N * 1073741824) = N * 1073741824 :=
    wrapInt64_of_range _ (by omega) (by omega)
  refine ⟨?_, ?_, ?_⟩
  · intro h
    simp only [calculateBuckets, hG, h, if_true]
  · intro h1 h2
    obtain ⟨a, ha⟩ := Int.eq_ofNat_of_zero_le (by omega : 0 ≤ basis)
    subst ha
    have ha53 : a < 2 ^ 53 := by
      have : (a : Int) < 9007199254740992 := hb53
      norm_num
      exact_mod_cast this
    have hconv : GoFloat.ofInt64 (a : Int) = .finite (a : Int) 0 := by
      unfold GoFloat.ofInt64
      rw [float64OfInt64_exact _ (by simpa using ha53)]
    have hconv2 : GoFloat.ofInt64 (1073741824 : Int) =
        .finite ((1073741824 : Nat) : Int) 0 := by
      unfold GoFloat.ofInt64
      rw [float64OfInt64_exact _ (by norm_num)]
      norm_num
    have hnot : ¬ (a : Int) < 1073741824 := by omega
    simp only [calculateBuckets, hG, hnot, if_false, hwrap, h2, if_true, hconv, hconv2]
    rw [toInt64_ceil_div_nat a 1073741824 ha53 (by norm_num)]
    push_cast
    rfl
  · intro h
    obtain ⟨a, ha⟩ := Int.eq_ofNat_of_zero_le (by omega : 0 ≤ basis)
    subst ha
    obtain ⟨n, hn⟩ := Int.eq_ofNat_of_zero_le (by omega : 0 ≤ N)
    subst hn
    have ha53 : a < 2 ^ 53 := by
      have : (a : Int) < 9007199254740992 := hb53
      norm_num
      exact_mod_cast this
    have hapos : 0 < a := by omega
    have hnpos : 0 < n := by omega
    obtain ⟨s, hs, hlt, hdiv⟩ := div_giga_exact a hapos ha53
    rw [hG] at hdiv
    have hconvN : GoFloat.ofInt64 (n : Int) = .finite (n : Int) 0 := by
      unfold GoFloat.ofInt64
      rw [float64OfInt64_exact _ (by
        have : (n : Int) < 8589934592 := hN33
        simp only [Int.natAbs_ofNat]
        norm_num
        omega)]
    have hnot : ¬ (a : Int) < 1073741824 := by omega
    have hnot2 : ¬ (a : Int) < (n : Int) * 1073741824 := by omega
    simp only [calculateBuckets, hG, hnot, if_false, hwrap, hnot2, hdiv, hconvN]
    rw [toInt64_ceil_div_scaled (a * 2 ^ (s - 30)) s n
      (Nat.mul_pos hapos (Nat.pow_pos (by norm_num))) hlt hnpos]
    have hfrac : (((a * 2 ^ (s - 30) : Nat) : ℚ) / ((n : ℚ) * 2 ^ s)) =
        (((a : Int) : ℚ) / 1073741824 / ((n : Int) : ℚ)) := by
      have hsplit : (2 : ℚ) ^ s = 2 ^ (s - 30) * 1073741824 := by
        have : s = (s - 30) + 30 := by omega
        conv_lhs => rw [this, pow_add]
        norm_num
      have hn' : (n : ℚ) ≠ 0 := by exact_mod_cast hnpos.ne'
      have hp : (2 : ℚ) ^ (s - 30) ≠ 0 := by positivity
      push_cast
      rw [hsplit]
      field_simp
      ring
    rw [hfrac]
    -- the product stays far below `2 ^ 63`
    have hq0 : (0 : ℚ) ≤ ((a : Int) : ℚ) / 1073741824 / ((n : Int) : ℚ) := by positivity
    have hceil_nonneg : 0 ≤ ⌈(((a : Int) : ℚ) / 1073741824 / ((n : Int) : ℚ))⌉ :=
      Int.ceil_nonneg hq0
    have hn1 : (0 : ℚ) < ((n : Int) : ℚ) := by exact_mod_cast hnpos
    have hprod : (⌈(((a : Int) : ℚ) / 1073741824 / ((n : Int) : ℚ))⌉ : ℚ) * ((n : Int) : ℚ) <
        ((a : Int) : ℚ) / 1073741824 + ((n : Int) : ℚ) := by
      have h1 := Int.ceil_lt_add_one (((a : Int) : ℚ) / 1073741824 / ((n : Int) : ℚ))
      calc (⌈(((a : Int) : ℚ) / 1073741824 / ((n : Int) : ℚ))⌉ : ℚ) * ((n : Int) : ℚ)
          < (((a : Int) : ℚ) / 1073741824 / ((n : Int) : ℚ) + 1) * ((n : Int) : ℚ) :=
            mul_lt_mul_of_pos_right h1 hn1
        _ = ((a : Int) : ℚ) / 1073741824 + ((n : Int) : ℚ) := by
            field_simp
            ring
    have hbound : (⌈(((a : Int) : ℚ) / 1073741824 / ((n : Int) : ℚ))⌉ : ℚ) * ((n : Int) : ℚ) <
        ((9223372036854775808 : Int) : ℚ) := by
      have ha' : ((a : Int) : ℚ) < 9007199254740992 := by exact_mod_cast hb53
      have hn2 : ((n : Int) : ℚ) < 8589934592 := by exact_mod_cast hN33
      have h3 : ((a : Int) : ℚ) / 1073741824 < 8388608 := by
        rw [div_lt_iff₀ (by norm_num)]
        linarith
      have hlit : ((9223372036854775808 : Int) : ℚ) = 9223372036854775808 := by norm_num
      rw [hlit]
      linarith
    have hbound' : ⌈(((a : Int) : ℚ) / 1073741824 / ((n : Int) : ℚ))⌉ * (n : Int) <
        9223372036854775808 := by exact_mod_cast hbound
    apply wrapInt64_of_range
    · have := mul_nonneg hceil_nonneg (by omega : (0 : Int) ≤ (n : Int))
      omega
    · exact hbound'

/-- C18 (witness): the three sample values: 0.5 GiB gives 1; 2 GiB with three
backends gives 2; 10 GiB with three backends gives 12. -/
theorem calculateBuckets_spec_witness :
    calculateBuckets 3 536870912 = 1 ∧
    calculateBuckets 3 2147483648 = ⌈((2147483648 : Int) : ℚ) / 1073741824⌉ ∧
    calculateBuckets 3 10737418240 =
      ⌈((10737418240 : Int) : ℚ) / 1073741824 / ((3 : Int) : ℚ)⌉ * 3 ∧
    calculateBuckets 3 2147483648 = 2 ∧ calculateBuckets 3 10737418240 = 12 :=
  ⟨(calculateBuckets_spec 3 536870912 (by decide) (by decide) (by decide)).1 (by decide),
   (calculateBuckets_spec 3 2147483648 (by decide) (by decide) (by decide)).2.1
     (by decide) (by decide),
   (calculateBuckets_spec 3 10737418240 (by decide) (by decide) (by decide)).2.2 (by decide),
   by decide, by decide⟩

/-! ## Theorems: StarRocks.ToCreateDDL -/

/-- The statement that a completed iteration of `StarRocks.ToCreateDDL` builds for
a bundle: the clauses in their order, with the values of the locals `keys`,
`columnStrList` and `partitionKey`. -/
theorem starRocksBundle_createTableDDL (env : StarRocksEnv) (rule : TableRule)
    (tableColumns : TableColumns) (r : BundleDDL)
    (h : starRocksBundle env rule tableColumns = some r) :
    ∃ keys columnStrList partitionKey pre properties,
      starRocksReorder tableColumns = some (keys, r.tableColumns) ∧
      formatColumnsLoop env r.tableColumns.Table r.tableColumns.Columns []
          (if 0 < rule.PartitionKey.length then rule.PartitionKey else []) =
        some (columnStrList, partitionKey) ∧
      r.createTableDDL =
        pre ++
          partitionClause rule keys partitionKey
            (calculatePartitions env.time (int64OfUint64 r.tableColumns.Table.DATA_LENGTH)
              r.tableColumns.Table.CREATE_TIME).2.2 ++
          distributedClause env rule (keysClause env rule r.tableColumns keys).1
            (calculatePartitions env.time (int64OfUint64 r.tableColumns.Table.DATA_LENGTH)
              r.tableColumns.Table.CREATE_TIME).1 ++
          propertiesClause properties := by
  unfold starRocksBundle at h
  simp only at h
  cases hre : starRocksReorder tableColumns with
  | none => simp [hre] at h
  | some found =>
    obtain ⟨keys, tc'⟩ := found
    simp only [hre] at h
    cases hf : formatColumnsLoop env tc'.Table tc'.Columns []
        (if 0 < rule.PartitionKey.length then rule.PartitionKey else []) with
    | none => simp [hf] at h
    | some res =>
      obtain ⟨columnStrList, partitionKey⟩ := res
      simp only [hf] at h
      cases hm : mergeProperties rule.Properties keys
          (calculatePartitions env.time (int64OfUint64 tc'.Table.DATA_LENGTH)
            tc'.Table.CREATE_TIME).2.1
          (bucketCount env rule
            (calculatePartitions env.time (int64OfUint64 tc'.Table.DATA_LENGTH)
              tc'.Table.CREATE_TIME).1) with
      | none => simp [hm] at h
      | some properties =>
        simp only [hm, Option.some.injEq] at h
        subst h
        refine ⟨keys, columnStrList, partitionKey,
          createTableHead tableColumns.Table.TABLE_CATALOG
            (if ¬ rule.FromShardingSrc ∧ ¬ env.CombineSchemaName then
              tableColumns.Table.TABLE_NAME
            else GetSchemaPrefixedTableName tableColumns.Table)
            columnStrList (keysClause env rule tc' keys).2 tc'.Table.TABLE_COMMENT,
          properties.map env.rangeOrder, ?_, ?_, ?_⟩
        · dsimp only
        · dsimp only
          exact hf
        · dsimp only

/-- C19: the local `buckets` of `StarRocks.ToCreateDDL` is the rule's `Buckets` when
that is positive, whatever `calculateBuckets` computes, and otherwise
`calculateBuckets` of the basis; in the statement of every bundle that is
processed to the end, the clause `DISTRIBUTED BY HASH(...) BUCKETS n` carries this
count for the basis that `calculatePartitions` returns for the bundle's table. -/
theorem starRocksBundle_bucket_count (env : StarRocksEnv) (rule : TableRule)
    (tableColumns : TableColumns) :
    (∀ partitionSize : Int,
      (0 < rule.Buckets → bucketCount env rule partitionSize = rule.Buckets) ∧
      (¬ 0 < rule.Buckets →
        bucketCount env rule partitionSize = calculateBuckets env.BENum partitionSize)) ∧
    (∀ r, starRocksBundle env rule tableColumns = some r →
      ∃ pre disKeys post,
        r.createTableDDL =
          pre ++
            ("DISTRIBUTED BY HASH(".toList ++ disKeys ++ ") BUCKETS ".toList ++
              formatInt
                (if 0 < rule.Buckets then rule.Buckets
                 else calculateBuckets env.BENum
                  (calculatePartitions env.time
                    (int64OfUint64 r.tableColumns.Table.DATA_LENGTH)
                    r.tableColumns.Table.CREATE_TIME).1) ++
              "\n".toList) ++
            post) := by
  constructor
  · intro partitionSize
    constructor
    · intro h
      simp [bucketCount, h]
    · intro h
      simp [bucketCount, h]
  · intro r h
    obtain ⟨keys, columnStrList, partitionKey, pre, properties, _, _, hddl⟩ :=
      starRocksBundle_createTableDDL env rule tableColumns r h
    refine ⟨pre ++ partitionClause rule keys partitionKey
        (calculatePartitions env.time (int64OfUint64 r.tableColumns.Table.DATA_LENGTH)
          r.tableColumns.Table.CREATE_TIME).2.2,
      if 0 < rule.DistributedBy.length then rule.DistributedBy
      else (keysClause env rule r.tableColumns keys).1,
      propertiesClause properties, ?_⟩
    rw [hddl]
    simp only [distributedClause, bucketCount, gt_iff_lt, List.append_assoc]

set_option maxRecDepth 8000 in
/-- C19 (witness): the sample rule sets 7 buckets; its bundle is processed to the
end and the statement carries `BUCKETS 7`. -/
theorem starRocksBundle_bucket_count_witness :
    bucketCount (sampleStarRocksEnv 100000000) sampleOverrideRule 5 = 7 ∧
    ∃ pre disKeys post,
      ((starRocksBundle (sampleStarRocksEnv 100000000) sampleOverrideRule
          (sampleEventsBundle 5)).get (by decide)).createTableDDL =
        pre ++
          ("DISTRIBUTED BY HASH(".toList ++ disKeys ++ ") BUCKETS ".toList ++
            formatInt
              (if 0 < sampleOverrideRule.Buckets then sampleOverrideRule.Buckets
               else calculateBuckets (sampleStarRocksEnv 100000000).BENum
                (calculatePartitions (sampleStarRocksEnv 100000000).time
                  (int64OfUint64 ((starRocksBundle (sampleStarRocksEnv 100000000)
                    sampleOverrideRule (sampleEventsBundle 5)).get
                      (by decide)).tableColumns.Table.DATA_LENGTH)
                  ((starRocksBundle (sampleStarRocksEnv 100000000) sampleOverrideRule
                    (sampleEventsBundle 5)).get (by decide)).tableColumns.Table.CREATE_TIME).1) ++
            "\n".toList) ++
          post :=
  ⟨((starRocksBundle_bucket_count (sampleStarRocksEnv 100000000) sampleOverrideRule
      (sampleEventsBundle 5)).1 5).1 (by decide),
   (starRocksBundle_bucket_count (sampleStarRocksEnv 100000000) sampleOverrideRule
      (sampleEventsBundle 5)).2 _ (Option.some_get _).symm⟩

set_option maxRecDepth 8000 in
/-- C20 (counterexample): the rule sets an explicit partition clause; its bundle
of 5 bytes has no key and has a date column.  `calculatePartitions` returns an
empty range for it, the partition step is skipped and the statement of the
bundle holds no partition clause at all. -/
theorem starRocksBundle_explicit_partitions_absent :
    sampleOverrideRule.Partitions ≠ [] ∧
    (starRocksBundle (sampleStarRocksEnv 100000000) sampleOverrideRule
        (sampleEventsBundle 5)).map
      (fun r => decide ("PARTITION BY".toList <:+: r.createTableDDL)) = some false ∧
    (starRocksBundle (sampleStarRocksEnv 100000000) sampleOverrideRule
        (sampleEventsBundle (500 * GIGA_BYTES))).map
      (fun r => decide (("PARTITION BY RANGE (day) (\n".toList ++ sampleOverrideRule.Partitions)
        <:+: r.createTableDDL)) = some true := by
  decide

/-- C20 (amended): for a rule that sets an explicit partition clause, the
partition step of `StarRocks.ToCreateDDL` appends the clause with the rule's
explicit text, never the computed range, when the bundle has no selected key, a
partition key is known and the size is at least 100 GiB (the computed range is
not empty); in every other case it appends no partition clause. -/
theorem partitionClause_explicit (env : StarRocksEnv) (rule : TableRule) (keys : List GoString)
    (partitionKey : GoString) (S : Int) (created : GoTime) (hset : rule.Partitions ≠ []) :
    (keys = [] → partitionKey ≠ [] → 100 * (GIGA_BYTES : Int) ≤ S →
      partitionClause rule keys partitionKey (calculatePartitions env.time S created).2.2 =
        "PARTITION BY RANGE (".toList ++ partitionKey ++ ") (\n".toList ++ rule.Partitions ++
          "\n)\n".toList) ∧
    ((keys ≠ [] ∨ partitionKey = [] ∨ S < 100 * (GIGA_BYTES : Int)) →
      partitionClause rule keys partitionKey (calculatePartitions env.time S created).2.2 =
        []) := by
  have hlen : 0 < rule.Partitions.length := List.length_pos.mpr hset
  constructor
  · intro hk hp hS
    have hne := ((calculatePartitions_properties env.time S created).2 hS).2.2
    have h1 : 0 < partitionKey.length := List.length_pos.mpr hp
    have h2 : 0 < (calculatePartitions env.time S created).2.2.length := List.length_pos.mpr hne
    simp [partitionClause, hk, h1, h2, hlen]
  · intro h
    rcases h with h | h | h
    · have : ¬ keys.length = 0 := fun h0 => h (List.length_eq_zero.mp h0)
      simp [partitionClause, this]
    · simp [partitionClause, h]
    · have hnil : (calculatePartitions env.time S created).2.2 = [] := by
        have := (calculatePartitions_properties env.time S created).1 h
        rw [this]
      simp [partitionClause, hnil]

set_option maxRecDepth 8000 in
/-- C20 (witness): a key-less bundle of 500 GiB with the partition key `day`. -/
theorem partitionClause_explicit_witness :
    partitionClause sampleOverrideRule [] "day".toList
        (calculatePartitions (sampleStarRocksEnv 100000000).time (500 * (GIGA_BYTES : Int))
          (GoTime.ofUnix 100)).2.2 =
      "PARTITION BY RANGE (".toList ++ "day".toList ++ ") (\n".toList ++
        sampleOverrideRule.Partitions ++ "\n)\n".toList :=
  (partitionClause_explicit (sampleStarRocksEnv 100000000) sampleOverrideRule [] "day".toList
    (500 * (GIGA_BYTES : Int)) (GoTime.ofUnix 100) (by decide)).1 rfl (by decide) (by decide)

/-! ## Theorems: prefix and suffix mode of LongestCommonXfix -/

/-- The suffix scan is the mirror image of the prefix scan on the reversed
operands, while the scan index stays inside both operands. -/
theorem suffixLoop_mirror (xfix str : GoString) :
    ∀ n i, i + n ≤ xfix.length → i + n ≤ str.length →
      suffixLoop xfix str n i = (prefixLoop xfix.reverse str.reverse n i).reverse := by
  intro n
  induction n with
  | zero => intro i _ _; simp [suffixLoop, prefixLoop]
  | succ n ih =>
    intro i hx hs
    have hix : i < xfix.length := by omega
    have his : i < str.length := by omega
    have e1 : xfix.reverse[i]? = xfix[xfix.length - i - 1]? := by
      rw [List.getElem?_reverse hix, Nat.sub_right_comm]
    have e2 : str.reverse[i]? = str[str.length - i - 1]? := by
      rw [List.getElem?_reverse his, Nat.sub_right_comm]
    unfold suffixLoop prefixLoop
    rw [e1, e2]
    split
    · rw [List.take_reverse, List.reverse_reverse]
      congr 1
      omega
    · exact ih (i + 1) (by omega) (by omega)

/-- The outer loop in suffix mode is the mirror image of the outer loop in
prefix mode on the reversed strings. -/
theorem xfixLoop_mirror :
    ∀ (rest : List GoString) (xfix : GoString),
      xfixLoop false xfix rest =
        (xfixLoop true xfix.reverse (rest.map List.reverse)).reverse := by
  intro rest
  induction rest with
  | nil => intro xfix; simp [xfixLoop]
  | cons str rest ih =>
    intro xfix
    simp only [List.map_cons]
    unfold xfixLoop
    simp only [List.length_reverse]
    split
    · rfl
    · simp only [Bool.false_eq_true, if_false, if_true]
      rw [ih, suffixLoop_mirror, List.reverse_reverse]
      · split <;> omega
      · split <;> omega

/-- C30: prefix mode and suffix mode of LongestCommonXfix mirror each other: for
every list of strings, the result in suffix mode (second argument false) is the
reverse of the result in prefix mode on the list of the reversed strings. -/
theorem LongestCommonXfix_suffix_mirror (strs : List GoString) :
    LongestCommonXfix strs false =
      (LongestCommonXfix (strs.map List.reverse) true).reverse := by
  match strs with
  | [] => rfl
  | [xfix] => simp [LongestCommonXfix]
  | xfix :: str :: rest =>
    simp only [LongestCommonXfix, List.map_cons]
    exact xfixLoop_mirror (str :: rest) xfix

/-! ## Theorems: ParseDBSourceType, ParseDBSourceAuthType -/

/-- A key that is not among the keys of an association list is not found. -/
theorem lookup_eq_none_of_not_mem {β : Type} (name : GoString) :
    ∀ l : List (GoString × β), name ∉ l.map Prod.fst → List.lookup name l = none := by
  intro l
  induction l with
  | nil => intro _; rfl
  | cons p rest ih =>
    intro h
    obtain ⟨k, v⟩ := p
    simp only [List.map_cons, List.mem_cons, not_or] at h
    rw [List.lookup_cons]
    have : (name == k) = false := by simpa using h.1
    rw [this]
    exact ih h.2

/-- C25: ParseDBSourceType returns a nil error and the matching constant for each
of the seven names mysql, pgsql, oracle, sqlserver, clickhouse, hive, tidb, the
constants being pairwise distinct and different from DBSourceUnknow, and returns
DBSourceUnknow with a non-nil error for every other string, so that the error is
nil exactly for the seven names; ParseDBSourceAuthType does the same for the
seven names kerberos, nosasl, none, none_http, kerberos_http, zk, ldap with
DBSourceAuthUnknow. -/
theorem ParseDBSource_types :
    (List.map ParseDBSourceType sourceTypeNames =
        [(DBSourceMySQL, none), (DBSourcePostgreSQL, none), (DBSourceOracle, none),
         (DBSourceSQLServer, none), (DBSourceClickHouse, none), (DBSourceHive, none),
         (DBSourceTiDB, none)]) ∧
    List.Nodup [DBSourceUnknow, DBSourceMySQL, DBSourcePostgreSQL, DBSourceOracle,
      DBSourceSQLServer, DBSourceClickHouse, DBSourceHive, DBSourceTiDB] ∧
    (∀ name : GoString, name ∉ sourceTypeNames →
      (ParseDBSourceType name).1 = DBSourceUnknow ∧ (ParseDBSourceType name).2 ≠ none) ∧
    (∀ name : GoString, (ParseDBSourceType name).2 = none ↔ name ∈ sourceTypeNames) ∧
    (List.map ParseDBSourceAuthType sourceAuthTypeNames =
        [(DBSourceAuthKerberos, none), (DBSourceAuthNoSasl, none), (DBSourceAuthNone, none),
         (DBSourceAuthNoneHTTP, none), (DBSourceAuthKerberosHTTP, none), (DBSourceAuthZK, none),
         (DBSourceAuthLDAP, none)]) ∧
    List.Nodup [DBSourceAuthUnknow, DBSourceAuthKerberos, DBSourceAuthNoSasl, DBSourceAuthNone,
      DBSourceAuthNoneHTTP, DBSourceAuthKerberosHTTP, DBSourceAuthZK, DBSourceAuthLDAP] ∧
    (∀ name : GoString, name ∉ sourceAuthTypeNames →
      (ParseDBSourceAuthType name).1 = DBSourceAuthUnknow ∧
        (ParseDBSourceAuthType name).2 ≠ none) ∧
    (∀ name : GoString, (ParseDBSourceAuthType name).2 = none ↔ name ∈ sourceAuthTypeNames) := by
  have h1 : ∀ name : GoString, name ∉ sourceTypeNames →
      (ParseDBSourceType name).1 = DBSourceUnknow ∧ (ParseDBSourceType name).2 ≠ none := by
    intro name h
    have : List.lookup name dbSourceTypeMap = none := lookup_eq_none_of_not_mem name _ h
    simp [ParseDBSourceType, this]
  have h2 : ∀ name : GoString, name ∉ sourceAuthTypeNames →
      (ParseDBSourceAuthType name).1 = DBSourceAuthUnknow ∧
        (ParseDBSourceAuthType name).2 ≠ none := by
    intro name h
    have : List.lookup name dbSourceAuthTypeMap = none := lookup_eq_none_of_not_mem name _ h
    simp [ParseDBSourceAuthType, this]
  have e1 : List.map ParseDBSourceType sourceTypeNames =
        [(DBSourceMySQL, none), (DBSourcePostgreSQL, none), (DBSourceOracle, none),
         (DBSourceSQLServer, none), (DBSourceClickHouse, none), (DBSourceHive, none),
         (DBSourceTiDB, none)] := by decide
  have e2 : List.map ParseDBSourceAuthType sourceAuthTypeNames =
        [(DBSourceAuthKerberos, none), (DBSourceAuthNoSasl, none), (DBSourceAuthNone, none),
         (DBSourceAuthNoneHTTP, none), (DBSourceAuthKerberosHTTP, none), (DBSourceAuthZK, none),
         (DBSourceAuthLDAP, none)] := by decide
  refine ⟨e1, by decide, h1, ?_, e2, by decide, h2, ?_⟩
  · intro name
    constructor
    · intro h
      by_contra hn
      exact (h1 name hn).2 h
    · intro h
      have : ∀ n ∈ sourceTypeNames, (ParseDBSourceType n).2 = none := by decide
      exact this name h
  · intro name
    constructor
    · intro h
      by_contra hn
      exact (h2 name hn).2 h
    · intro h
      have : ∀ n ∈ sourceAuthTypeNames, (ParseDBSourceAuthType n).2 = none := by decide
      exact this name h

/-- The names `rocksdb` and `know` of the tests are not among the fourteen names:
both functions return the unknown constant with an error. -/
theorem ParseDBSource_types_witness :
    ((ParseDBSourceType "rocksdb".toList).1 = DBSourceUnknow ∧
      (ParseDBSourceType "rocksdb".toList).2 ≠ none) ∧
    ((ParseDBSourceAuthType "know".toList).1 = DBSourceAuthUnknow ∧
      (ParseDBSourceAuthType "know".toList).2 ≠ none) :=
  ⟨ParseDBSource_types.2.2.1 "rocksdb".toList (by decide),
   ParseDBSource_types.2.2.2.2.2.2.1 "know".toList (by decide)⟩

/-! ## Theorems: keys of the dynamic properties -/

/-- The keys that `setDProps` writes, in the order of the assignments. -/
theorem setDProps_keys (interval : GoString) :
    (setDProps interval).map Prod.fst =
      ["dynamic_partition.enable".toList, "dynamic_partition.time_unit".toList,
       "dynamic_partitoin.end".toList, "dynamic_partition.prefix".toList] := by
  simp [setDProps, propsSet]

/-- For every size of at least 100 GiB, creation time and current time the map
that `calculatePartitions` returns has four entries under four distinct keys, and
the third key written, `dynamic_partitoin.end`, does not begin with
`dynamic_partition.` (the letters `i` and `o` are exchanged in the source). -/
theorem calculatePartitions_dynamic_keys (env : TimeEnv) (S : Int) (created : GoTime)
    (hS : 100 * (GIGA_BYTES : Int) ≤ S) :
    (calculatePartitions env S created).2.1.length = 4 ∧
    ((calculatePartitions env S created).2.1.map Prod.fst).Nodup ∧
    "dynamic_partitoin.end".toList ∈ (calculatePartitions env S created).2.1.map Prod.fst ∧
    ¬ "dynamic_partition.".toList <+: "dynamic_partitoin.end".toList := by
  have h := (calculatePartitionsFor_large env S created
    (partitionDays env.now.Unix created.Unix) hS).1
  have hk := setDProps_keys (chosenGranularity (int64Div S (partitionDays env.now.Unix created.Unix)))
  have hlen : (calculatePartitions env S created).2.1.length = 4 := by
    unfold calculatePartitions
    rw [h, ← List.length_map, hk]
    rfl
  refine ⟨hlen, ?_, ?_, by decide⟩
  · unfold calculatePartitions
    rw [h, hk]
    decide
  · unfold calculatePartitions
    rw [h, hk]
    decide

/-- C29 (evaluation at the failing input): 500 GiB created 30 days before the
clock reading.  The map returned by `calculatePartitions` has four entries, but
its keys are not all prefixed with `dynamic_partition.`: one of them is
`dynamic_partitoin.end`. -/
theorem calculatePartitions_key_without_prefix :
    (calculatePartitions (sampleEnv 100000000) (500 * (GIGA_BYTES : Int))
        (GoTime.ofUnix 97408000)).2.1.length = 4 ∧
    ¬ ∀ key ∈ (calculatePartitions (sampleEnv 100000000) (500 * (GIGA_BYTES : Int))
        (GoTime.ofUnix 97408000)).2.1.map Prod.fst, "dynamic_partition.".toList <+: key := by
  obtain ⟨hlen, _, hmem, hpre⟩ := calculatePartitions_dynamic_keys (sampleEnv 100000000)
    (500 * (GIGA_BYTES : Int)) (GoTime.ofUnix 97408000) (by decide)
  exact ⟨hlen, fun hall => hpre (hall _ hmem)⟩

/-! ## Theorems: reorderTableColumns as a permutation, and repeated -/

/-- The function `reorderTableColumns` in terms of the first qualifying group. -/
theorem reorderTableColumns_eq (keys : List KeyColumnUsage) (columns : List Column) :
    reorderTableColumns keys columns =
      if (firstQualifyingGroup keys columns).length = 0 then
        some (firstQualifyingGroup keys columns, columns)
      else
        match findKeyColumns columns (firstQualifyingGroup keys columns) with
        | none => none
        | some uniqCols =>
          some (firstQualifyingGroup keys columns,
            uniqCols ++ columns.filter fun col =>
              ¬ col.COLUMN_NAME ∈ firstQualifyingGroup keys columns) := by
  simp only [reorderTableColumns, selectKeyList_foldl]

/-- The first qualifying group is empty or the group of a constraint name. -/
theorem firstQualifyingGroup_cases (keys : List KeyColumnUsage) (columns : List Column) :
    firstQualifyingGroup keys columns = [] ∨
      ∃ name, keyGroup keys name ∈ keyGroups keys ∧
        firstQualifyingGroup keys columns = keyGroup keys name := by
  unfold firstQualifyingGroup
  cases h : (keyGroups keys).find? (fun group => ¬ HasNullableColumn columns group) with
  | none => left; rfl
  | some group =>
    right
    have hmem : group ∈ keyGroups keys := List.mem_of_find?_eq_some h
    have hmem' := hmem
    unfold keyGroups at hmem
    obtain ⟨name, _, hname⟩ := List.mem_map.mp hmem
    exact ⟨name, hname ▸ hmem', hname.symm⟩

/-- A member of a group is the column name of a key entry. -/
theorem mem_keyGroup (keys : List KeyColumnUsage) (name c : GoString) (h : c ∈ keyGroup keys name) :
    ∃ key ∈ keys, key.COLUMN_NAME = c := by
  unfold keyGroup at h
  obtain ⟨key, hkey, hc⟩ := List.mem_map.mp h
  exact ⟨key, (List.mem_filter.mp hkey).1, hc⟩

/-- What the lookup of the key columns returns: columns whose names are the
keys, each of them the first column of the list with its name. -/
theorem findKeyColumns_spec (columns : List Column) :
    ∀ (keyList : List GoString) (uniqCols : List Column),
      findKeyColumns columns keyList = some uniqCols →
      uniqCols.map (fun col => col.COLUMN_NAME) = keyList ∧
      ∀ col, col ∈ uniqCols ↔
        ∃ key ∈ keyList, columns.find? (fun c => c.COLUMN_NAME = key) = some col := by
  intro keyList
  induction keyList with
  | nil =>
    intro uniqCols h
    simp only [findKeyColumns, Option.some.injEq] at h
    subst h
    simp
  | cons key rest ih =>
    intro uniqCols h
    simp only [findKeyColumns] at h
    cases hf : columns.find? (fun c => decide (c.COLUMN_NAME = key)) with
    | none => simp [hf] at h
    | some col =>
      cases hr : findKeyColumns columns rest with
      | none => simp [hf, hr] at h
      | some cols =>
        simp only [hf, hr, Option.map_some', Option.some.injEq] at h
        subst h
        obtain ⟨hmap, hmem⟩ := ih cols hr
        have hname : col.COLUMN_NAME = key := by
          have := List.find?_some hf
          simpa using this
        refine ⟨by simp [hmap, hname], ?_⟩
        intro c
        simp only [List.mem_cons, hmem, exists_eq_or_imp, hf, Option.some.injEq]
        constructor
        · rintro (h | h)
          · exact Or.inl h.symm
          · exact Or.inr h
        · rintro (h | h)
          · exact Or.inl h.symm
          · exact Or.inr h

/-- The lookup of the key columns depends on the column list only through the
first column of each key name. -/
theorem findKeyColumns_congr (columns columns' : List Column) :
    ∀ keyList : List GoString,
      (∀ key ∈ keyList, columns'.find? (fun c => c.COLUMN_NAME = key) =
        columns.find? (fun c => c.COLUMN_NAME = key)) →
      findKeyColumns columns' keyList = findKeyColumns columns keyList := by
  intro keyList
  induction keyList with
  | nil => intro _; rfl
  | cons key rest ih =>
    intro h
    simp only [findKeyColumns]
    rw [h key (List.mem_cons_self _ _), ih (fun k hk => h k (List.mem_cons_of_mem _ hk))]

/-- In a column list with pairwise distinct names every column is the first one
with its name. -/
theorem find_of_nodup_names (columns : List Column)
    (hnames : (columns.map fun col => col.COLUMN_NAME).Nodup) (col : Column) (hcol : col ∈ columns) :
    columns.find? (fun c => c.COLUMN_NAME = col.COLUMN_NAME) = some col := by
  induction columns with
  | nil => simp at hcol
  | cons head rest ih =>
    simp only [List.map_cons, List.nodup_cons] at hnames
    rw [List.find?_cons]
    rcases List.mem_cons.mp hcol with h | h
    · subst h
      simp
    · have hne : ¬ head.COLUMN_NAME = col.COLUMN_NAME := by
        intro heq
        apply hnames.1
        rw [heq]
        exact List.mem_map.mpr ⟨col, h, rfl⟩
      simp only [hne, decide_False]
      exact ih hnames.2 h

/-- The first qualifying group depends on the column list only through its set
of columns. -/
theorem firstQualifyingGroup_congr (keys : List KeyColumnUsage) (columns columns' : List Column)
    (h : ∀ col, col ∈ columns' ↔ col ∈ columns) :
    firstQualifyingGroup keys columns' = firstQualifyingGroup keys columns := by
  have hn : ∀ group, HasNullableColumn columns' group ↔ HasNullableColumn columns group := by
    intro group
    unfold HasNullableColumn
    constructor
    · rintro ⟨col, hcol, hp⟩
      exact ⟨col, (h col).mp hcol, hp⟩
    · rintro ⟨col, hcol, hp⟩
      exact ⟨col, (h col).mpr hcol, hp⟩
  unfold firstQualifyingGroup
  congr 2
  funext group
  simp only [hn group]
/-- With pairwise distinct column names, the key columns found are the columns
whose name is a key. -/
theorem findKeyColumns_mem_iff (columns : List Column)
    (hnames : (columns.map fun col => col.COLUMN_NAME).Nodup)
    (keyList : List GoString) (uniqCols : List Column)
    (hu : findKeyColumns columns keyList = some uniqCols) (col : Column) :
    col ∈ uniqCols ↔ col ∈ columns ∧ col.COLUMN_NAME ∈ keyList := by
  rw [(findKeyColumns_spec columns keyList uniqCols hu).2 col]
  constructor
  · rintro ⟨key, hkey, hf⟩
    have hname : col.COLUMN_NAME = key := by simpa using List.find?_some hf
    exact ⟨List.mem_of_find?_eq_some hf, hname ▸ hkey⟩
  · rintro ⟨hcol, hkey⟩
    exact ⟨col.COLUMN_NAME, hkey, find_of_nodup_names columns hnames col hcol⟩

/-- With pairwise distinct column names, the reordered list holds the same
columns as the input list. -/
theorem reordered_mem_iff (columns : List Column)
    (hnames : (columns.map fun col => col.COLUMN_NAME).Nodup)
    (keyList : List GoString) (uniqCols : List Column)
    (hu : findKeyColumns columns keyList = some uniqCols) (col : Column) :
    col ∈ uniqCols ++ columns.filter (fun c => ¬ c.COLUMN_NAME ∈ keyList) ↔ col ∈ columns := by
  rw [List.mem_append, findKeyColumns_mem_iff columns hnames keyList uniqCols hu, List.mem_filter]
  by_cases hk : col.COLUMN_NAME ∈ keyList
  · simp [hk]
  · simp [hk]

/-- C26: for every key-entry list and column list in which the column names are
pairwise distinct, the column names inside each constraint group are pairwise
distinct and every key entry's column name occurs among the columns,
`reorderTableColumns` completes (the lookup of every key column finds a column)
and the returned column list is a permutation of the input column list: same
length, no column dropped or duplicated. -/
theorem reorderTableColumns_perm (keys : List KeyColumnUsage) (columns : List Column)
    (hnames : (columns.map fun col => col.COLUMN_NAME).Nodup)
    (hgroups : ∀ group ∈ keyGroups keys, group.Nodup)
    (hfound : ∀ key ∈ keys, ∃ col ∈ columns, col.COLUMN_NAME = key.COLUMN_NAME) :
    ∃ keyList reordered,
      reorderTableColumns keys columns = some (keyList, reordered) ∧
      reordered.Perm columns ∧ reordered.length = columns.length := by
  have hkl : (firstQualifyingGroup keys columns).Nodup ∧
      ∀ c ∈ firstQualifyingGroup keys columns, ∃ col ∈ columns, col.COLUMN_NAME = c := by
    rcases firstQualifyingGroup_cases keys columns with h | ⟨name, hmem, h⟩
    · rw [h]
      exact ⟨List.nodup_nil, fun c hc => absurd hc (List.not_mem_nil c)⟩
    · rw [h]
      refine ⟨hgroups _ hmem, fun c hc => ?_⟩
      obtain ⟨key, hkey, hc'⟩ := mem_keyGroup keys name c hc
      obtain ⟨col, hcol, hn⟩ := hfound key hkey
      exact ⟨col, hcol, hn.trans hc'⟩
  rw [reorderTableColumns_eq]
  by_cases hlen : (firstQualifyingGroup keys columns).length = 0
  · rw [if_pos hlen]
    exact ⟨_, columns, rfl, List.Perm.refl _, rfl⟩
  · rw [if_neg hlen]
    obtain ⟨uniqCols, hu⟩ := findKeyColumns_isSome columns _ hkl.2
    rw [hu]
    have hcolsNodup : columns.Nodup := List.Nodup.of_map _ hnames
    have huNodup : uniqCols.Nodup := by
      apply List.Nodup.of_map (fun col : Column => col.COLUMN_NAME)
      rw [(findKeyColumns_spec columns _ uniqCols hu).1]
      exact hkl.1
    have hperm : (uniqCols ++ columns.filter fun col =>
        ¬ col.COLUMN_NAME ∈ firstQualifyingGroup keys columns).Perm columns := by
      rw [List.perm_ext_iff_of_nodup _ hcolsNodup]
      · exact reordered_mem_iff columns hnames _ uniqCols hu
      · rw [List.nodup_append]
        refine ⟨huNodup, hcolsNodup.filter _, ?_⟩
        intro col h1 h2
        have hin := ((findKeyColumns_mem_iff columns hnames _ uniqCols hu col).mp h1).2
        have hout := (List.mem_filter.mp h2).2
        simp only [decide_not, Bool.not_eq_true', decide_eq_false_iff_not] at hout
        exact hout hin
    exact ⟨_, _, rfl, hperm, hperm.length_eq⟩

/-- C26 (witness): the key `(c, a)` on the columns `a, b, c`. -/
theorem reorderTableColumns_perm_witness :
    ∃ keyList reordered,
      reorderTableColumns [sampleKey "uk" "c", sampleKey "uk" "a"]
          [sampleColumn "a" "int" "NO", sampleColumn "b" "int" "YES",
            sampleColumn "c" "int" "NO"] = some (keyList, reordered) ∧
      reordered.Perm [sampleColumn "a" "int" "NO", sampleColumn "b" "int" "YES",
        sampleColumn "c" "int" "NO"] ∧
      reordered.length = [sampleColumn "a" "int" "NO", sampleColumn "b" "int" "YES",
        sampleColumn "c" "int" "NO"].length :=
  reorderTableColumns_perm [sampleKey "uk" "c", sampleKey "uk" "a"]
    [sampleColumn "a" "int" "NO", sampleColumn "b" "int" "YES", sampleColumn "c" "int" "NO"]
    (by decide)
    (by decide) (by decide)
/-- Reordering the reordered columns: with pairwise distinct column names, the
lookup of the key columns in the reordered list finds the same columns, and the
columns outside the key are the same. -/
theorem reordered_again (columns : List Column)
    (hnames : (columns.map fun col => col.COLUMN_NAME).Nodup)
    (keyList : List GoString) (uniqCols : List Column)
    (hu : findKeyColumns columns keyList = some uniqCols) :
    findKeyColumns (uniqCols ++ columns.filter fun c => ¬ c.COLUMN_NAME ∈ keyList) keyList =
        some uniqCols ∧
      (uniqCols ++ columns.filter fun c => ¬ c.COLUMN_NAME ∈ keyList).filter
          (fun c => ¬ c.COLUMN_NAME ∈ keyList) =
        columns.filter fun c => ¬ c.COLUMN_NAME ∈ keyList := by
  have hmem := findKeyColumns_mem_iff columns hnames keyList uniqCols hu
  constructor
  · rw [← hu]
    apply findKeyColumns_congr
    intro key hkey
    rw [List.find?_append]
    have hex : ∃ col ∈ uniqCols, col.COLUMN_NAME = key := by
      have : key ∈ uniqCols.map fun col => col.COLUMN_NAME := by
        rw [(findKeyColumns_spec columns keyList uniqCols hu).1]
        exact hkey
      obtain ⟨col, hcol, hn⟩ := List.mem_map.mp this
      exact ⟨col, hcol, hn⟩
    cases hf : uniqCols.find? (fun c => decide (c.COLUMN_NAME = key)) with
    | none =>
      obtain ⟨col, hcol, hn⟩ := hex
      rw [List.find?_eq_none] at hf
      exact absurd (by simpa using hn) (hf col hcol)
    | some found =>
      have hname : found.COLUMN_NAME = key := by simpa using List.find?_some hf
      have hin : found ∈ columns := ((hmem found).mp (List.mem_of_find?_eq_some hf)).1
      have := find_of_nodup_names columns hnames found hin
      rw [hname] at this
      rw [this]
      rfl
  · rw [List.filter_append, List.filter_filter]
    have h1 : uniqCols.filter (fun c => ¬ c.COLUMN_NAME ∈ keyList) = [] := by
      rw [List.filter_eq_nil_iff]
      intro col hcol
      simp [((hmem col).mp hcol).2]
    rw [h1, List.nil_append]
    apply List.filter_congr
    intro col _
    simp

/-- C27: `reorderTableColumns` is idempotent on the column list: when the column
names are pairwise distinct and every key entry's column name occurs among the
columns, the first reordering completes, and reordering the reordered columns
with the same key entries returns the same key list and the same column order;
so a bundle reordered in place by `StarRocks.ToCreateDDL` is left as it is, with
the same keys, by the reordering step of `Flink.ToCreateDDL` and by a repeated
reordering step of `StarRocks.ToCreateDDL`. -/
theorem reorderTableColumns_idempotent (keys : List KeyColumnUsage) (columns : List Column)
    (hnames : (columns.map fun col => col.COLUMN_NAME).Nodup)
    (hfound : ∀ key ∈ keys, ∃ col ∈ columns, col.COLUMN_NAME = key.COLUMN_NAME) :
    (∃ keyList reordered,
      reorderTableColumns keys columns = some (keyList, reordered) ∧
      reorderTableColumns keys reordered = some (keyList, reordered)) ∧
    ∀ tableColumns : TableColumns, tableColumns.Columns = columns →
      effectiveKeyEntries tableColumns = keys →
      ∃ keyList reorderedBundle,
        starRocksReorder tableColumns = some (keyList, reorderedBundle) ∧
        flinkReorder reorderedBundle = some (keyList, reorderedBundle) ∧
        starRocksReorder reorderedBundle = some (keyList, reorderedBundle) := by
  have hkl : ∀ c ∈ firstQualifyingGroup keys columns, ∃ col ∈ columns, col.COLUMN_NAME = c := by
    rcases firstQualifyingGroup_cases keys columns with h | ⟨name, _, h⟩
    · rw [h]
      exact fun c hc => absurd hc (List.not_mem_nil c)
    · rw [h]
      intro c hc
      obtain ⟨key, hkey, hc'⟩ := mem_keyGroup keys name c hc
      obtain ⟨col, hcol, hn⟩ := hfound key hkey
      exact ⟨col, hcol, hn.trans hc'⟩
  have hcore : ∃ keyList reordered,
      reorderTableColumns keys columns = some (keyList, reordered) ∧
      reorderTableColumns keys reordered = some (keyList, reordered) := by
    by_cases hlen : (firstQualifyingGroup keys columns).length = 0
    · have h1 : reorderTableColumns keys columns =
          some (firstQualifyingGroup keys columns, columns) := by
        rw [reorderTableColumns_eq, if_pos hlen]
      exact ⟨_, _, h1, h1⟩
    · obtain ⟨uniqCols, hu⟩ := findKeyColumns_isSome columns _ hkl
      have h1 : reorderTableColumns keys columns =
          some (firstQualifyingGroup keys columns,
            uniqCols ++ columns.filter fun c =>
              ¬ c.COLUMN_NAME ∈ firstQualifyingGroup keys columns) := by
        rw [reorderTableColumns_eq, if_neg hlen, hu]
      refine ⟨_, _, h1, ?_⟩
      have hfq := firstQualifyingGroup_congr keys columns _
        (reordered_mem_iff columns hnames _ uniqCols hu)
      obtain ⟨h2, h3⟩ := reordered_again columns hnames _ uniqCols hu
      rw [reorderTableColumns_eq, hfq, if_neg hlen, h2]
      simp only [h3]
  refine ⟨hcore, ?_⟩
  intro tableColumns hcols hkeys
  obtain ⟨keyList, reordered, h1, h2⟩ := hcore
  obtain ⟨hnone, hsome⟩ := starRocks_flink_reorder_entries tableColumns
  by_cases hempty : tableColumns.PrimaryKCU = [] ∧ tableColumns.UniqueKCU = []
  · obtain ⟨hs, hf⟩ := hnone hempty.1 hempty.2
    exact ⟨[], tableColumns, hs, hf, hs⟩
  · have hne : tableColumns.PrimaryKCU ≠ [] ∨ tableColumns.UniqueKCU ≠ [] := by
      by_contra hcon
      push_neg at hcon
      exact hempty hcon
    obtain ⟨hs, _⟩ := hsome hne
    rw [hkeys, hcols, h1] at hs
    refine ⟨keyList, { tableColumns with Columns := reordered }, hs, ?_⟩
    obtain ⟨_, hsome'⟩ := starRocks_flink_reorder_entries { tableColumns with Columns := reordered }
    have hkeys' : effectiveKeyEntries { tableColumns with Columns := reordered } = keys := by
      rw [← hkeys]
      rfl
    obtain ⟨hs', hf'⟩ := hsome' hne
    rw [hkeys'] at hs' hf'
    simp only [h2, Option.map_some'] at hs' hf'
    exact ⟨hf', hs'⟩

/-- C27 (witness): the bundle with the columns `name, email, id` and the primary
key `id`. -/
theorem reorderTableColumns_idempotent_witness :
    (∃ keyList reordered,
      reorderTableColumns sampleKeyedBundle.PrimaryKCU sampleKeyedBundle.Columns =
        some (keyList, reordered) ∧
      reorderTableColumns sampleKeyedBundle.PrimaryKCU reordered = some (keyList, reordered)) ∧
    ∃ keyList reorderedBundle,
      starRocksReorder sampleKeyedBundle = some (keyList, reorderedBundle) ∧
      flinkReorder reorderedBundle = some (keyList, reorderedBundle) ∧
      starRocksReorder reorderedBundle = some (keyList, reorderedBundle) :=
  ⟨(reorderTableColumns_idempotent sampleKeyedBundle.PrimaryKCU sampleKeyedBundle.Columns
      (by decide) (by decide)).1,
   (reorderTableColumns_idempotent sampleKeyedBundle.PrimaryKCU sampleKeyedBundle.Columns
      (by decide) (by decide)).2 sampleKeyedBundle rfl (by decide)⟩

/-! ## Theorems: the grouping loop as a partition of the tables -/

/-- The body of the grouping loop, in terms of the rule assigned to the table. -/
theorem groupStep_eq (m : GoString → GoString → Bool) (rules : List TableRule)
    (allColumns : List Column) (kcus : List KeyColumnUsage) (map : RuledTablesMap)
    (table : Table) :
    groupStep m rules allColumns kcus map table =
      match assignedRule m rules table with
      | none => map
      | some idx => appendBundle map idx (makeBundle allColumns kcus table) := by
  unfold groupStep assignedRule
  cases h : matchLoop m table rules 0 none with
  | none => simp [matchedProperties, TableRule.zero]
  | some found =>
    obtain ⟨idx, r⟩ := found
    cases hp : r.Properties with
    | none => simp [matchedProperties, hp]
    | some props => simp [matchedProperties, hp]

/-- The keys of the map after the grouping loop: the keys it started with and
the rules that a table of the list is assigned to. -/
theorem foldl_groupStep_mem_keys (m : GoString → GoString → Bool) (rules : List TableRule)
    (allColumns : List Column) (kcus : List KeyColumnUsage) (rule : Nat) :
    ∀ (tables : List Table) (map : RuledTablesMap),
      rule ∈ (tables.foldl (groupStep m rules allColumns kcus) map).map Prod.fst ↔
        rule ∈ map.map Prod.fst ∨ ∃ table ∈ tables, assignedRule m rules table = some rule := by
  intro tables
  induction tables with
  | nil => intro map; simp
  | cons table rest ih =>
    intro map
    rw [List.foldl_cons, ih, groupStep_eq]
    cases ha : assignedRule m rules table with
    | none =>
      simp only [List.mem_cons, exists_eq_or_imp, ha]
      simp
    | some idx =>
      simp only [appendBundle_keys, List.mem_cons, exists_eq_or_imp, ha, Option.some.injEq]
      by_cases hmem : idx ∈ map.map Prod.fst
      · rw [if_pos hmem]
        constructor
        · rintro (h | h)
          · exact Or.inl h
          · exact Or.inr (Or.inr h)
        · rintro (h | h | h)
          · exact Or.inl h
          · exact Or.inl (h ▸ hmem)
          · exact Or.inr h
      · rw [if_neg hmem, List.mem_append, List.mem_singleton]
        constructor
        · rintro ((h | h) | h)
          · exact Or.inl h
          · exact Or.inr (Or.inl h.symm)
          · exact Or.inr (Or.inr h)
        · rintro (h | h | h)
          · exact Or.inl (Or.inl h)
          · exact Or.inl (Or.inr h.symm)
          · exact Or.inr h

/-- The merge loop keeps the keys of the map. -/
theorem mergeLoop_keys (now : Nat → Int) (rules : List TableRule) :
    ∀ (map merged : RuledTablesMap), mergeLoop now rules map = some merged →
      merged.map Prod.fst = map.map Prod.fst := by
  intro map
  induction map with
  | nil =>
    intro merged h
    simp only [mergeLoop, Option.some.injEq] at h
    subst h
    rfl
  | cons e0 rest ih =>
    obtain ⟨rule, tables⟩ := e0
    intro merged h
    simp only [mergeLoop] at h
    cases hr : mergeRule (now rule) (getFromShardingSrc rules rule) tables with
    | none => simp [hr] at h
    | some tables' =>
      cases hrest : mergeLoop now rules rest with
      | none => simp [hr, hrest] at h
      | some rest' =>
        simp only [hr, hrest, Option.map_some', Option.some.injEq] at h
        subst h
        simp [ih rest' hrest]

/-- The merge body of one rule leaves a non-empty bundle list non-empty. -/
theorem mergeRule_nonempty (now : Int) (flag : Bool) (tables tables' : List TableColumns)
    (hne : tables ≠ []) (h : mergeRule now flag tables = some tables') : tables' ≠ [] := by
  unfold mergeRule at h
  cases flag with
  | false =>
    simp only [Bool.false_eq_true, if_false, Option.some.injEq] at h
    exact h ▸ hne
  | true =>
    simp only [if_true] at h
    cases hm : mergeBundles now tables with
    | none => simp [hm] at h
    | some single =>
      simp only [hm, Option.map_some', Option.some.injEq] at h
      rw [← h]
      exact List.cons_ne_nil _ _

/-- C23 (counterexample): one rule and one table that the rule does not match.
`calculateRuledTablesMap` returns a map without any key: the rule is not a key of
the map, it does not appear with an empty bundle list. -/
theorem calculateRuledTablesMap_rule_without_tables_absent :
    ruleMatches samplePrefixMatch (sampleRule "1" "shop" "orders" (some []))
      (sampleTable "shop" "shop" "users" 5 100) = false ∧
    (calculateRuledTablesMap samplePrefixMatch (fun _ => 1000)
        [sampleRule "1" "shop" "orders" (some [])]
        [sampleTable "shop" "shop" "users" 5 100] [] []).map (fun r => r.2) = some [] := by
  decide

/-- C23 (amended): for every rule list and table list `calculateRuledTablesMap`
finishes, and the keys of the rule-to-bundles map it leaves are exactly the rules
that at least one table is assigned to; every bundle list in the map is
non-empty, so a rule that no table is assigned to is not a key of the map. -/
theorem calculateRuledTablesMap_keys (m : GoString → GoString → Bool) (now : Nat → Int)
    (rules : List TableRule) (matchedTables : List Table) (allColumns : List Column)
    (kcus : List KeyColumnUsage) :
    ∃ rules' ruledTablesMap,
      calculateRuledTablesMap m now rules matchedTables allColumns kcus =
        some (rules', ruledTablesMap) ∧
      (∀ rule, rule ∈ ruledTablesMap.map Prod.fst ↔
        ∃ table ∈ matchedTables, assignedRule m rules table = some rule) ∧
      (∀ e ∈ ruledTablesMap, e.2 ≠ []) ∧
      (∀ rule, (∀ table ∈ matchedTables, assignedRule m rules table ≠ some rule) →
        rule ∉ ruledTablesMap.map Prod.fst) := by
  have hne := groupTables_nonempty m rules allColumns kcus matchedTables [] (by simp)
  obtain ⟨merged, hm, _⟩ := mergeLoop_flag_single now
    (checkShardingLoop (groupTables m rules matchedTables allColumns kcus) rules)
    (groupTables m rules matchedTables allColumns kcus) hne
  have hkeys := mergeLoop_keys now _ _ merged hm
  have hiff : ∀ rule, rule ∈ merged.map Prod.fst ↔
      ∃ table ∈ matchedTables, assignedRule m rules table = some rule := by
    intro rule
    rw [hkeys]
    unfold groupTables
    rw [foldl_groupStep_mem_keys]
    simp
  refine ⟨checkShardingLoop (groupTables m rules matchedTables allColumns kcus) rules, merged,
    by simp [calculateRuledTablesMap, hm], hiff, ?_, ?_⟩
  · intro e he
    obtain ⟨tables, hmem, hrule⟩ := mergeLoop_entry now _ _ merged hm e he
    exact mergeRule_nonempty _ _ tables e.2 (hne _ hmem) hrule
  · intro rule hall hmem
    obtain ⟨table, ht, ha⟩ := (hiff rule).mp hmem
    exact hall table ht ha

set_option maxRecDepth 8000 in
/-- C23 (witness): two rules and two tables that both go to the second rule: the
map has the second rule as its only key. -/
theorem calculateRuledTablesMap_keys_witness :
    ∃ rules' ruledTablesMap,
      calculateRuledTablesMap samplePrefixMatch (fun _ => 1000)
          [sampleRule "1" "crm" "" (some []), sampleRule "2" "shop" "orders" (some [])]
          [sampleTable "shop" "shop" "orders_00" 5 100,
            sampleTable "shop" "shop" "orders_01" 5 100] [] [] =
        some (rules', ruledTablesMap) ∧
      0 ∉ ruledTablesMap.map Prod.fst ∧ 1 ∈ ruledTablesMap.map Prod.fst := by
  obtain ⟨rules', ruledTablesMap, h, hiff, _, habsent⟩ :=
    calculateRuledTablesMap_keys samplePrefixMatch (fun _ => 1000)
      [sampleRule "1" "crm" "" (some []), sampleRule "2" "shop" "orders" (some [])]
      [sampleTable "shop" "shop" "orders_00" 5 100,
        sampleTable "shop" "shop" "orders_01" 5 100] [] []
  exact ⟨rules', ruledTablesMap, h, habsent 0 (by decide),
    (hiff 1).mpr ⟨sampleTable "shop" "shop" "orders_00" 5 100, by decide, by decide⟩⟩

/-! ## Theorems: the unification step applied twice -/

/-- The function `calculateRuledTablesMap` is the grouping loop followed by the
unification step. -/
theorem calculateRuledTablesMap_eq_unify (m : GoString → GoString → Bool) (now : Nat → Int)
    (rules : List TableRule) (matchedTables : List Table) (allColumns : List Column)
    (kcus : List KeyColumnUsage) :
    calculateRuledTablesMap m now rules matchedTables allColumns kcus =
      unifyRuledTablesMap now rules (groupTables m rules matchedTables allColumns kcus) :=
  rfl

/-- The structural check of a rule with exactly one bundle clears the flag. -/
theorem checkSharding_single (flag : Bool) (tables : List TableColumns)
    (h : tables.length = 1) : checkSharding flag tables = false := by
  unfold checkSharding
  rw [if_pos h]
  exact tablesLoop_false tables []

/-- In a map with pairwise distinct keys an entry is determined by its key. -/
theorem entry_unique_of_nodup_keys (map : RuledTablesMap) (hnodup : (map.map Prod.fst).Nodup)
    (a b : Nat × List TableColumns) (ha : a ∈ map) (hb : b ∈ map) (hkey : a.1 = b.1) : a = b :=
  List.inj_on_of_nodup_map hnodup ha hb hkey

set_option maxRecDepth 8000 in
/-- C24 (counterexample): a rule with the two tables `orders_00` and `orders_01`
of one layout.  The first application of the unification step merges them into
one bundle and leaves the flag of the rule true; the second application, on that
output, leaves the bundle list as it is and sets the flag to false. -/
theorem unifyRuledTablesMap_second_flips_flag :
    (unifyRuledTablesMap (fun _ => 1000) [sampleRule "1" "shop" "orders" (some [])]
        sampleShardMap).map (fun r => (getFromShardingSrc r.1 0, (bundlesOf r.2 0).length)) =
      some (true, 1) ∧
    ((unifyRuledTablesMap (fun _ => 1000) [sampleRule "1" "shop" "orders" (some [])]
        sampleShardMap).bind fun r => (unifyRuledTablesMap (fun _ => 2000) r.1 r.2).map
          fun r2 => (getFromShardingSrc r2.1 0, decide (r2.2 = r.2))) = some (false, true) := by
  decide

/-- C24 (amended): applying the unification step a second time to its own output
finishes, and for every rule that the first application merged into a single
bundle (the flag of the rule is true after it), the second application leaves
the bundle list of the rule exactly as the first application left it, one
bundle, and sets the `FromShardingSrc` flag of the rule to false.  The map given to
the first application has pairwise distinct keys inside the rule list and no
empty bundle list, as the grouping loop builds it. -/
theorem unifyRuledTablesMap_twice (now now' : Nat → Int) (rules : List TableRule)
    (map : RuledTablesMap) (rules1 : List TableRule) (map1 : RuledTablesMap)
    (hnodup : (map.map Prod.fst).Nodup) (hrange : ∀ e ∈ map, e.1 < rules.length)
    (hne : ∀ e ∈ map, e.2 ≠ [])
    (h : unifyRuledTablesMap now rules map = some (rules1, map1)) :
    ∃ rules2 map2, unifyRuledTablesMap now' rules1 map1 = some (rules2, map2) ∧
      ∀ e ∈ map1, getFromShardingSrc rules1 e.1 = true →
        e.2.length = 1 ∧ e ∈ map2 ∧ (∀ e2 ∈ map2, e2.1 = e.1 → e2 = e) ∧
          getFromShardingSrc rules2 e.1 = false := by
  unfold unifyRuledTablesMap at h
  simp only at h
  cases hm : mergeLoop now (checkShardingLoop map rules) map with
  | none => simp [hm] at h
  | some merged =>
    simp only [hm, Option.map_some', Option.some.injEq, Prod.mk.injEq] at h
    obtain ⟨hr1, hm1⟩ := h
    subst hm1
    have hkeys1 := mergeLoop_keys now _ map merged hm
    have hnodup1 : (merged.map Prod.fst).Nodup := hkeys1 ▸ hnodup
    have hlen1 : rules1.length = rules.length := by
      rw [← hr1]
      exact checkShardingLoop_length map rules
    have hrange1 : ∀ e ∈ merged, e.1 < rules1.length := by
      intro e he
      have : e.1 ∈ map.map Prod.fst := hkeys1 ▸ List.mem_map_of_mem Prod.fst he
      obtain ⟨e0, he0, hk⟩ := List.mem_map.mp this
      rw [hlen1, ← hk]
      exact hrange e0 he0
    have hne1 : ∀ e ∈ merged, e.2 ≠ [] := by
      intro e he
      obtain ⟨tables, hmem, hrule⟩ := mergeLoop_entry now _ map merged hm e he
      exact mergeRule_nonempty _ _ tables e.2 (hne _ hmem) hrule
    obtain ⟨map2, hm2, _⟩ := mergeLoop_flag_single now' (checkShardingLoop merged rules1) merged hne1
    have hkeys2 := mergeLoop_keys now' _ merged map2 hm2
    refine ⟨checkShardingLoop merged rules1, map2, by simp [unifyRuledTablesMap, hm2], ?_⟩
    intro e he hflag
    have hsingle : e.2.length = 1 := by
      obtain ⟨tables, _, hrule⟩ := mergeLoop_entry now _ map merged hm e he
      rw [hr1, hflag] at hrule
      simp only [mergeRule, if_true] at hrule
      cases hb : mergeBundles (now e.1) tables with
      | none => simp [hb] at hrule
      | some single =>
        simp only [hb, Option.map_some', Option.some.injEq] at hrule
        rw [← hrule]
        rfl
    have hflag2 : getFromShardingSrc (checkShardingLoop merged rules1) e.1 = false := by
      rw [checkShardingLoop_key merged rules1 hnodup1 hrange1 e he]
      exact checkSharding_single _ _ hsingle
    have hsame : ∀ e2 ∈ map2, e2.1 = e.1 → e2 = e := by
      intro e2 he2 hk
      obtain ⟨tables, hmem, hrule⟩ := mergeLoop_entry now' _ merged map2 hm2 e2 he2
      have heq : (e2.1, tables) = e :=
        entry_unique_of_nodup_keys merged hnodup1 _ _ hmem he hk
      rw [hk, hflag2] at hrule
      simp only [mergeRule, Bool.false_eq_true, if_false, Option.some.injEq] at hrule
      rw [← heq, hrule]
    refine ⟨hsingle, ?_, hsame, hflag2⟩
    have : e.1 ∈ map2.map Prod.fst := hkeys2 ▸ List.mem_map_of_mem Prod.fst he
    obtain ⟨e2, he2, hk⟩ := List.mem_map.mp this
    rw [← hsame e2 he2 hk]
    exact he2

set_option maxRecDepth 8000 in
/-- C24 (witness): the sample shard family, unified twice: the rule is merged
by the first application (its flag is true), the second application keeps its
entry in the map and clears its flag. -/
theorem unifyRuledTablesMap_twice_witness :
    ∃ rules1 map1 e rules2 map2,
      unifyRuledTablesMap (fun _ => 1000) [sampleRule "1" "shop" "orders" (some [])]
        sampleShardMap = some (rules1, map1) ∧
      e ∈ map1 ∧ getFromShardingSrc rules1 e.1 = true ∧
      unifyRuledTablesMap (fun _ => 2000) rules1 map1 = some (rules2, map2) ∧
      e.2.length = 1 ∧ e ∈ map2 ∧ getFromShardingSrc rules2 e.1 = false := by
  have hd : (unifyRuledTablesMap (fun _ => 1000) [sampleRule "1" "shop" "orders" (some [])]
      sampleShardMap).map (fun r => r.2.any fun e => getFromShardingSrc r.1 e.1) = some true := by
    decide
  cases h : unifyRuledTablesMap (fun _ => 1000) [sampleRule "1" "shop" "orders" (some [])]
      sampleShardMap with
  | none => exact absurd h (by decide)
  | some r =>
    obtain ⟨rules1, map1⟩ := r
    rw [h] at hd
    simp only [Option.map_some', Option.some.injEq, List.any_eq_true] at hd
    obtain ⟨e, he, hflag⟩ := hd
    obtain ⟨rules2, map2, h2, hall⟩ := unifyRuledTablesMap_twice (fun _ => 1000) (fun _ => 2000)
      [sampleRule "1" "shop" "orders" (some [])] sampleShardMap rules1 map1
      (by decide) (by decide) (by decide) h
    obtain ⟨h3, h4, _, h5⟩ := hall e he hflag
    exact ⟨rules1, map1, e, rules2, map2, rfl, he, hflag, h2, h3, h4, h5⟩

/-! ## Theorems: the properties of StarRocks.ToCreateDDL -/

/-- Reading a map after an assignment. -/
theorem lookup_propsSet (k name value : GoString) :
    ∀ props : List (GoString × GoString),
      List.lookup k (propsSet props name value) =
        if k = name then some value else List.lookup k props := by
  intro props
  induction props with
  | nil =>
    by_cases h : k = name
    · simp [propsSet, List.lookup, h]
    · have : (k == name) = false := by simpa using h
      simp [propsSet, List.lookup, h, this]
  | cons e rest ih =>
    obtain ⟨key, old⟩ := e
    by_cases hk : key = name
    · subst hk
      by_cases h : k = key
      · simp [propsSet, List.lookup, h]
      · have : (k == key) = false := by simpa using h
        simp [propsSet, List.lookup, h, this]
    · by_cases hkk : k = key
      · subst hkk
        have : ¬ k = name := hk
        simp [propsSet, List.lookup, hk, this]
      · have : (k == key) = false := by simpa using hkk
        simp [propsSet, List.lookup, hk, this, ih]

/-- The loop that copies the computed properties: a key that the computed
properties hold not at all keeps its value. -/
theorem lookup_propsSetAll_other (k : GoString) :
    ∀ (dynamicProperties props : List (GoString × GoString)),
      k ∉ dynamicProperties.map Prod.fst →
      List.lookup k (propsSetAll props dynamicProperties) = List.lookup k props := by
  intro dynamicProperties
  induction dynamicProperties with
  | nil => intro props _; rfl
  | cons e rest ih =>
    obtain ⟨key, v⟩ := e
    intro props h
    simp only [List.map_cons, List.mem_cons, not_or] at h
    rw [propsSetAll, ih _ h.2, lookup_propsSet, if_neg h.1]

/-- The loop that copies the computed properties: a key that the computed
properties hold once takes the computed value, whatever value it had. -/
theorem lookup_propsSetAll_mem (k v : GoString) :
    ∀ (dynamicProperties props : List (GoString × GoString)),
      (dynamicProperties.map Prod.fst).Nodup → (k, v) ∈ dynamicProperties →
      List.lookup k (propsSetAll props dynamicProperties) = some v := by
  intro dynamicProperties
  induction dynamicProperties with
  | nil => intro props _ h; simp at h
  | cons e rest ih =>
    obtain ⟨key, val⟩ := e
    intro props hnodup h
    simp only [List.map_cons, List.nodup_cons] at hnodup
    rw [propsSetAll]
    rcases List.mem_cons.mp h with heq | hmem
    · simp only [Prod.mk.injEq] at heq
      obtain ⟨hk, hv⟩ := heq
      subst hk hv
      rw [lookup_propsSetAll_other k rest _ hnodup.1, lookup_propsSet, if_pos rfl]
    · exact ih _ hnodup.2 hmem

/-- What the merge step of `StarRocks.ToCreateDDL` does when it runs (no key
selected, no `dynamic_partition.time_unit` configured, computed properties
present): every computed key takes the computed value, whatever the rule
configured under it; `dynamic_partition.buckets` takes the bucket count; every
other key keeps the configured value. -/
theorem mergeProperties_computed_wins (props dynamicProperties : List (GoString × GoString))
    (buckets : Int)
    (hunit : List.lookup "dynamic_partition.time_unit".toList props = none)
    (hdyn : dynamicProperties ≠ [])
    (hnodup : (dynamicProperties.map Prod.fst).Nodup)
    (hb : "dynamic_partition.buckets".toList ∉ dynamicProperties.map Prod.fst) :
    ∃ merged, mergeProperties (some props) [] dynamicProperties buckets = some (some merged) ∧
      (∀ k v, (k, v) ∈ dynamicProperties → List.lookup k merged = some v) ∧
      List.lookup "dynamic_partition.buckets".toList merged = some (formatInt buckets) ∧
      ∀ k, k ∉ dynamicProperties.map Prod.fst → k ≠ "dynamic_partition.buckets".toList →
        List.lookup k merged = List.lookup k props := by
  have hlen : 0 < dynamicProperties.length := List.length_pos.mpr hdyn
  refine ⟨propsSet (propsSetAll props dynamicProperties) "dynamic_partition.buckets".toList
    (formatInt buckets), ?_, ?_, ?_, ?_⟩
  · simp only [mergeProperties, Option.getD_some, hunit, Option.isSome_none, List.length_nil,
      Bool.false_eq_true, not_false_eq_true, and_self, if_true, hlen]
  · intro k v hkv
    have hk : k ≠ "dynamic_partition.buckets".toList := by
      intro heq
      apply hb
      rw [← heq]
      exact List.mem_map.mpr ⟨(k, v), hkv, rfl⟩
    rw [lookup_propsSet, if_neg hk]
    exact lookup_propsSetAll_mem k v dynamicProperties props hnodup hkv
  · rw [lookup_propsSet, if_pos rfl]
  · intro k hk hkb
    rw [lookup_propsSet, if_neg hkb]
    exact lookup_propsSetAll_other k dynamicProperties props hk

set_option maxRecDepth 8000 in
/-- C21 (counterexample): the rule configures `dynamic_partition.enable = false`;
its bundle of 500 GiB has no key and has a date column.  The merge step replaces
the configured value: the statement is emitted with
`dynamic_partition.enable = true`. -/
theorem starRocksBundle_overwrites_configured_property :
    List.lookup "dynamic_partition.enable".toList (sampleStaticRule.Properties.getD []) =
      some "false".toList ∧
    (starRocksBundle (sampleStarRocksEnv 100000000) sampleStaticRule
        (sampleEventsBundle (500 * GIGA_BYTES))).map
      (fun r => List.lookup "dynamic_partition.enable".toList (r.rule.Properties.getD [])) =
      some (some "true".toList) ∧
    (starRocksBundle (sampleStarRocksEnv 100000000) sampleStaticRule
        (sampleEventsBundle (500 * GIGA_BYTES))).map
      (fun r => decide ((quote ++ "dynamic_partition.enable".toList ++ quote ++ " = ".toList ++
        quote ++ "true".toList ++ quote) <:+: r.createTableDDL)) = some true := by
  decide

/-- A bundle below 100 GiB processed on its own leaves the `Properties` map of
the rule as it finds it: nothing is computed for it, so nothing is merged. -/
theorem starRocksBundle_small_keeps_properties (env : StarRocksEnv) (rule : TableRule)
    (tableColumns : TableColumns) (r : BundleDDL)
    (h : starRocksBundle env rule tableColumns = some r)
    (hsize : int64OfUint64 tableColumns.Table.DATA_LENGTH < 100 * (GIGA_BYTES : Int)) :
    r.rule.Properties = rule.Properties := by
  unfold starRocksBundle at h
  simp only at h
  cases hre : starRocksReorder tableColumns with
  | none => simp [hre] at h
  | some found =>
    obtain ⟨keys, tc'⟩ := found
    have htable : tc'.Table = tableColumns.Table := by
      unfold starRocksReorder at hre
      split at hre
      · cases hr : reorderTableColumns tableColumns.PrimaryKCU tableColumns.Columns with
        | none => simp [hr] at hre
        | some res =>
          simp only [hr, Option.map_some', Option.some.injEq, Prod.mk.injEq] at hre
          rw [← hre.2]
      · split at hre
        · cases hr : reorderTableColumns tableColumns.UniqueKCU tableColumns.Columns with
          | none => simp [hr] at hre
          | some res =>
            simp only [hr, Option.map_some', Option.some.injEq, Prod.mk.injEq] at hre
            rw [← hre.2]
        · simp only [Option.some.injEq, Prod.mk.injEq] at hre
          rw [← hre.2]
    simp only [hre] at h
    cases hf : formatColumnsLoop env tc'.Table tc'.Columns []
        (if 0 < rule.PartitionKey.length then rule.PartitionKey else []) with
    | none => simp [hf] at h
    | some res =>
      obtain ⟨columnStrList, partitionKey⟩ := res
      simp only [hf] at h
      have hdyn : (calculatePartitions env.time (int64OfUint64 tc'.Table.DATA_LENGTH)
          tc'.Table.CREATE_TIME).2.1 = [] := by
        rw [htable]
        unfold calculatePartitions
        rw [calculatePartitionsFor_small env.time _ _ _ hsize]
      rw [hdyn] at h
      have hmerge : ∀ buckets, mergeProperties rule.Properties keys [] buckets =
          some rule.Properties := by
        intro buckets
        unfold mergeProperties
        simp
      rw [hmerge] at h
      simp only [Option.some.injEq] at h
      rw [← h]

set_option maxRecDepth 16000 in
/-- C28 (counterexample): a rule whose configured properties
hold only `replication_num`, with the bundles `events` (500 GiB, no key, a date
column) and `users` (5 bytes) in this order.  Processed on its own, `users` is
emitted with the configured property only.  Processed after `events`, it is
emitted with the dynamic-partition properties computed for `events`, which the
first iteration wrote into the map of the rule. -/
theorem starRocksBundles_properties_leak :
    (sampleShopRule.Properties.getD []).map Prod.fst = ["replication_num".toList] ∧
    (starRocksBundles (sampleStarRocksEnv 100000000) sampleShopRule [sampleUsersBundle]).map
        (fun rs => rs.map fun r =>
          (emittedPropertyKeys r, decide ("dynamic_partition".toList <:+: r.createTableDDL))) =
      some [(["replication_num".toList], false)] ∧
    (starRocksBundles (sampleStarRocksEnv 100000000) sampleShopRule
        [sampleEventsBundle (500 * GIGA_BYTES), sampleUsersBundle]).map
        (fun rs => rs.map emittedPropertyKeys) =
      some [["replication_num".toList, "dynamic_partition.enable".toList,
              "dynamic_partition.time_unit".toList, "dynamic_partitoin.end".toList,
              "dynamic_partition.prefix".toList, "dynamic_partition.buckets".toList],
            ["replication_num".toList, "dynamic_partition.enable".toList,
              "dynamic_partition.time_unit".toList, "dynamic_partitoin.end".toList,
              "dynamic_partition.prefix".toList, "dynamic_partition.buckets".toList]] ∧
    (starRocksBundles (sampleStarRocksEnv 100000000) sampleShopRule
        [sampleEventsBundle (500 * GIGA_BYTES), sampleUsersBundle]).map
        (fun rs => rs.map fun r =>
          decide ("dynamic_partition.enable".toList <:+: r.createTableDDL)) =
      some [true, true] := by
  decide

/-- The reordering step leaves the table of the bundle as it is. -/
theorem starRocksReorder_table (tableColumns : TableColumns) (keys : List GoString)
    (reordered : TableColumns) (h : starRocksReorder tableColumns = some (keys, reordered)) :
    reordered.Table = tableColumns.Table := by
  unfold starRocksReorder at h
  split at h
  · cases hr : reorderTableColumns tableColumns.PrimaryKCU tableColumns.Columns with
    | none => simp [hr] at h
    | some res =>
      simp only [hr, Option.map_some', Option.some.injEq, Prod.mk.injEq] at h
      rw [← h.2]
  · split at h
    · cases hr : reorderTableColumns tableColumns.UniqueKCU tableColumns.Columns with
      | none => simp [hr] at h
      | some res =>
        simp only [hr, Option.map_some', Option.some.injEq, Prod.mk.injEq] at h
        rw [← h.2]
    · simp only [Option.some.injEq, Prod.mk.injEq] at h
      rw [← h.2]

/-- The merge step leaves the map as it is when a key is selected, when the map
holds `dynamic_partition.time_unit`, or when nothing was computed. -/
theorem mergeProperties_unchanged (properties : GoMap) (keys : List GoString)
    (dynamicProperties : List (GoString × GoString)) (buckets : Int)
    (h : keys ≠ [] ∨
      List.lookup "dynamic_partition.time_unit".toList (properties.getD []) ≠ none ∨
      dynamicProperties = []) :
    mergeProperties properties keys dynamicProperties buckets = some properties := by
  unfold mergeProperties
  simp only
  split
  · rename_i hgate
    split
    · rename_i hlen
      rcases h with h | h | h
      · exact absurd (List.length_eq_zero.mp hgate.1) h
      · exfalso
        apply hgate.2
        cases hl : List.lookup "dynamic_partition.time_unit".toList (properties.getD []) with
        | none => exact absurd hl h
        | some v => rfl
      · rw [h] at hlen
        simp at hlen
    · rfl
  · rfl

/-- What a completed iteration of `StarRocks.ToCreateDDL` does with the
`Properties` map of the rule: the map it leaves is the result of the merge step
on the map it found, with the keys selected for the bundle, the properties and
the basis that `calculatePartitions` returns for the bundle's table, and the
statement ends with the properties clause of the map it leaves. -/
theorem starRocksBundle_properties_eq (env : StarRocksEnv) (rule : TableRule)
    (tableColumns : TableColumns) (r : BundleDDL)
    (h : starRocksBundle env rule tableColumns = some r) :
    ∃ keys head,
      starRocksReorder tableColumns = some (keys, r.tableColumns) ∧
      mergeProperties rule.Properties keys
          (calculatePartitions env.time (int64OfUint64 tableColumns.Table.DATA_LENGTH)
            tableColumns.Table.CREATE_TIME).2.1
          (bucketCount env rule
            (calculatePartitions env.time (int64OfUint64 tableColumns.Table.DATA_LENGTH)
              tableColumns.Table.CREATE_TIME).1) = some r.rule.Properties ∧
      r.createTableDDL = head ++ propertiesClause (r.rule.Properties.map env.rangeOrder) := by
  unfold starRocksBundle at h
  simp only at h
  cases hre : starRocksReorder tableColumns with
  | none => simp [hre] at h
  | some found =>
    obtain ⟨keys, tc'⟩ := found
    have htable := starRocksReorder_table tableColumns keys tc' hre
    simp only [hre] at h
    cases hf : formatColumnsLoop env tc'.Table tc'.Columns []
        (if 0 < rule.PartitionKey.length then rule.PartitionKey else []) with
    | none => simp [hf] at h
    | some res =>
      obtain ⟨columnStrList, partitionKey⟩ := res
      simp only [hf] at h
      cases hm : mergeProperties rule.Properties keys
          (calculatePartitions env.time (int64OfUint64 tc'.Table.DATA_LENGTH)
            tc'.Table.CREATE_TIME).2.1
          (bucketCount env rule
            (calculatePartitions env.time (int64OfUint64 tc'.Table.DATA_LENGTH)
              tc'.Table.CREATE_TIME).1) with
      | none => simp [hm] at h
      | some properties =>
        simp only [hm, Option.some.injEq] at h
        subst h
        rw [htable] at hm
        refine ⟨keys,
          createTableHead tableColumns.Table.TABLE_CATALOG
              (if ¬ rule.FromShardingSrc ∧ ¬ env.CombineSchemaName then
                tableColumns.Table.TABLE_NAME
              else GetSchemaPrefixedTableName tableColumns.Table)
              columnStrList (keysClause env rule tc' keys).2 tc'.Table.TABLE_COMMENT ++
            partitionClause rule keys partitionKey
              (calculatePartitions env.time (int64OfUint64 tc'.Table.DATA_LENGTH)
                tc'.Table.CREATE_TIME).2.2 ++
            distributedClause env rule (keysClause env rule tc' keys).1
              (calculatePartitions env.time (int64OfUint64 tc'.Table.DATA_LENGTH)
                tc'.Table.CREATE_TIME).1, ?_, ?_, ?_⟩
        · dsimp only
        · dsimp only
          exact hm
        · dsimp only
/-- C21 (amended): what a completed iteration of `StarRocks.ToCreateDDL` does with
the rule's `Properties` map as it finds it (the configured properties for the
first bundle of a rule; for a later bundle the same map with what the earlier
iterations wrote into it), and with which the statement is emitted.  The merge is
all or nothing.  When a key is selected for the bundle, or the map holds
`dynamic_partition.time_unit`, or the table is below 100 GiB (nothing is
computed), the map stays exactly as found: no computed property is added.
Otherwise every key of the properties computed by `calculatePartitions` takes the
computed value, also when the map held a value under it,
`dynamic_partition.buckets` takes the bucket count, and every other key keeps the
value found. -/
theorem starRocksBundle_merge (env : StarRocksEnv) (rule : TableRule)
    (tableColumns : TableColumns) (r : BundleDDL)
    (h : starRocksBundle env rule tableColumns = some r) :
    ∃ keys head,
      starRocksReorder tableColumns = some (keys, r.tableColumns) ∧
      r.createTableDDL = head ++ propertiesClause (r.rule.Properties.map env.rangeOrder) ∧
      ((keys ≠ [] ∨
          List.lookup "dynamic_partition.time_unit".toList (rule.Properties.getD []) ≠ none ∨
          int64OfUint64 tableColumns.Table.DATA_LENGTH < 100 * (GIGA_BYTES : Int)) →
        r.rule.Properties = rule.Properties) ∧
      (keys = [] →
        List.lookup "dynamic_partition.time_unit".toList (rule.Properties.getD []) = none →
        100 * (GIGA_BYTES : Int) ≤ int64OfUint64 tableColumns.Table.DATA_LENGTH →
        (∀ k v,
          (k, v) ∈ (calculatePartitions env.time (int64OfUint64 tableColumns.Table.DATA_LENGTH)
            tableColumns.Table.CREATE_TIME).2.1 →
          List.lookup k (r.rule.Properties.getD []) = some v) ∧
        List.lookup "dynamic_partition.buckets".toList (r.rule.Properties.getD []) =
          some (formatInt (bucketCount env rule
            (calculatePartitions env.time (int64OfUint64 tableColumns.Table.DATA_LENGTH)
              tableColumns.Table.CREATE_TIME).1)) ∧
        ∀ k,
          k ∉ (calculatePartitions env.time (int64OfUint64 tableColumns.Table.DATA_LENGTH)
            tableColumns.Table.CREATE_TIME).2.1.map Prod.fst →
          k ≠ "dynamic_partition.buckets".toList →
          List.lookup k (r.rule.Properties.getD []) =
            List.lookup k (rule.Properties.getD [])) := by
  obtain ⟨keys, head, hre, hmerge, hddl⟩ := starRocksBundle_properties_eq env rule tableColumns r h
  refine ⟨keys, head, hre, hddl, ?_, ?_⟩
  · intro hcase
    have hcase' : keys ≠ [] ∨
        List.lookup "dynamic_partition.time_unit".toList (rule.Properties.getD []) ≠ none ∨
        (calculatePartitions env.time (int64OfUint64 tableColumns.Table.DATA_LENGTH)
          tableColumns.Table.CREATE_TIME).2.1 = [] := by
      rcases hcase with h1 | h1 | h1
      · exact Or.inl h1
      · exact Or.inr (Or.inl h1)
      · right
        right
        unfold calculatePartitions
        rw [calculatePartitionsFor_small env.time _ _ _ h1]
    rw [mergeProperties_unchanged _ _ _ _ hcase'] at hmerge
    exact (Option.some.inj hmerge).symm
  · intro hkeys hunit hsize
    subst hkeys
    have hdps := (calculatePartitionsFor_large env.time
      (int64OfUint64 tableColumns.Table.DATA_LENGTH) tableColumns.Table.CREATE_TIME
      (partitionDays env.time.now.Unix tableColumns.Table.CREATE_TIME.Unix) hsize).1
    have hcalc : (calculatePartitions env.time (int64OfUint64 tableColumns.Table.DATA_LENGTH)
        tableColumns.Table.CREATE_TIME).2.1 =
        setDProps (chosenGranularity (int64Div (int64OfUint64 tableColumns.Table.DATA_LENGTH)
          (partitionDays env.time.now.Unix tableColumns.Table.CREATE_TIME.Unix))) := by
      unfold calculatePartitions
      exact hdps
    have hk := setDProps_keys (chosenGranularity
      (int64Div (int64OfUint64 tableColumns.Table.DATA_LENGTH)
        (partitionDays env.time.now.Unix tableColumns.Table.CREATE_TIME.Unix)))
    have hnodup : ((calculatePartitions env.time (int64OfUint64 tableColumns.Table.DATA_LENGTH)
        tableColumns.Table.CREATE_TIME).2.1.map Prod.fst).Nodup := by
      rw [hcalc, hk]
      decide
    have hb : "dynamic_partition.buckets".toList ∉
        (calculatePartitions env.time (int64OfUint64 tableColumns.Table.DATA_LENGTH)
          tableColumns.Table.CREATE_TIME).2.1.map Prod.fst := by
      rw [hcalc, hk]
      decide
    have hne : (calculatePartitions env.time (int64OfUint64 tableColumns.Table.DATA_LENGTH)
        tableColumns.Table.CREATE_TIME).2.1 ≠ [] := by
      intro hnil
      have := congrArg (List.map Prod.fst) hnil
      rw [hcalc, hk] at this
      simp at this
    cases hp : rule.Properties with
    | none =>
      exfalso
      rw [hp] at hmerge
      have hlen := List.length_pos.mpr hne
      simp [mergeProperties, hlen, List.lookup] at hmerge
    | some props =>
      rw [hp] at hmerge hunit
      simp only [Option.getD_some] at hunit ⊢
      obtain ⟨merged, hm, h1, h2, h3⟩ := mergeProperties_computed_wins props _
        (bucketCount env rule
          (calculatePartitions env.time (int64OfUint64 tableColumns.Table.DATA_LENGTH)
            tableColumns.Table.CREATE_TIME).1) hunit hne hnodup hb
      rw [hm] at hmerge
      have hr : r.rule.Properties = some merged := (Option.some.inj hmerge).symm
      rw [hr]
      exact ⟨h1, h2, h3⟩

set_option maxRecDepth 8000 in
/-- C21 (witness): the rule that configures `dynamic_partition.enable = false`
and its bundle of 500 GiB without key: the iteration completes, the merge runs
and the key takes the computed value `true`. -/
theorem starRocksBundle_merge_witness :
    ∃ r, starRocksBundle (sampleStarRocksEnv 100000000) sampleStaticRule
        (sampleEventsBundle (500 * GIGA_BYTES)) = some r ∧
      List.lookup "dynamic_partition.enable".toList (r.rule.Properties.getD []) =
        some "true".toList := by
  cases h : starRocksBundle (sampleStarRocksEnv 100000000) sampleStaticRule
      (sampleEventsBundle (500 * GIGA_BYTES)) with
  | none => exact absurd h (by decide)
  | some r =>
    obtain ⟨keys, head, hre, _, _, hrun⟩ := starRocksBundle_merge (sampleStarRocksEnv 100000000)
      sampleStaticRule (sampleEventsBundle (500 * GIGA_BYTES)) r h
    have hkeys : keys = [] := by
      have hd : starRocksReorder (sampleEventsBundle (500 * GIGA_BYTES)) =
          some ([], sampleEventsBundle (500 * GIGA_BYTES)) := by decide
      rw [hd] at hre
      simp only [Option.some.injEq, Prod.mk.injEq] at hre
      exact hre.1.symm
    exact ⟨r, rfl, (hrun hkeys (by decide) (by decide)).1 _ _ (by decide)⟩
/-- The rule left by a stretch of iterations that starts with the iteration `r`. -/
theorem ruleAfter_cons (rule : TableRule) (r : BundleDDL) (rs : List BundleDDL) :
    ruleAfter rule (r :: rs) = ruleAfter r.rule rs := rfl

/-- The loop over the bundles of a rule, cut in two: the second stretch runs
with the rule as the first stretch leaves it. -/
theorem starRocksBundles_append (env : StarRocksEnv) :
    ∀ (pre rest : List TableColumns) (rule : TableRule) (rs : List BundleDDL),
      starRocksBundles env rule (pre ++ rest) = some rs →
      ∃ rsPre rsRest, rs = rsPre ++ rsRest ∧ starRocksBundles env rule pre = some rsPre ∧
        starRocksBundles env (ruleAfter rule rsPre) rest = some rsRest := by
  intro pre
  induction pre with
  | nil =>
    intro rest rule rs h
    exact ⟨[], rs, rfl, rfl, h⟩
  | cons tc pre ih =>
    intro rest rule rs h
    simp only [List.cons_append, starRocksBundles] at h
    cases hb : starRocksBundle env rule tc with
    | none => simp [hb] at h
    | some r =>
      simp only [hb] at h
      cases hrest : starRocksBundles env r.rule (pre ++ rest) with
      | none => simp [hrest] at h
      | some rs' =>
        simp only [List.append_eq, hrest, Option.map_some', Option.some.injEq] at h
        obtain ⟨rsPre, rsRest, heq, hpre, hpost⟩ := ih rest r.rule rs' hrest
        refine ⟨r :: rsPre, rsRest, ?_, ?_, ?_⟩
        · rw [← h, heq]
          rfl
        · simp [starRocksBundles, hb, hpre]
        · rw [ruleAfter_cons]
          exact hpost

/-- A stretch of bundles that are all below 100 GiB leaves the `Properties` map
of the rule as it finds it. -/
theorem starRocksBundles_small_keep_properties (env : StarRocksEnv) :
    ∀ (pre : List TableColumns) (rule : TableRule) (rsPre : List BundleDDL),
      starRocksBundles env rule pre = some rsPre →
      (∀ b ∈ pre, int64OfUint64 b.Table.DATA_LENGTH < 100 * (GIGA_BYTES : Int)) →
      (ruleAfter rule rsPre).Properties = rule.Properties := by
  intro pre
  induction pre with
  | nil =>
    intro rule rsPre h _
    simp only [starRocksBundles, Option.some.injEq] at h
    subst h
    rfl
  | cons tc pre ih =>
    intro rule rsPre h hsmall
    simp only [starRocksBundles] at h
    cases hb : starRocksBundle env rule tc with
    | none => simp [hb] at h
    | some r =>
      simp only [hb] at h
      cases hrest : starRocksBundles env r.rule pre with
      | none => simp [hrest] at h
      | some rs' =>
        simp only [hrest, Option.map_some', Option.some.injEq] at h
        subst h
        rw [ruleAfter_cons, ih r.rule rs' hrest (fun b hb' => hsmall b (List.mem_cons_of_mem _ hb'))]
        exact starRocksBundle_small_keeps_properties env rule tc r hb
          (hsmall tc (List.mem_cons_self _ _))

/-- An assignment into a map keeps the keys the map has. -/
theorem propsSet_keys_subset (k name value : GoString) :
    ∀ props : List (GoString × GoString),
      k ∈ props.map Prod.fst → k ∈ (propsSet props name value).map Prod.fst := by
  intro props
  induction props with
  | nil => intro h; simp at h
  | cons e rest ih =>
    obtain ⟨key, old⟩ := e
    intro h
    simp only [List.map_cons, List.mem_cons] at h
    unfold propsSet
    split
    · simpa using h
    · simp only [List.map_cons, List.mem_cons]
      rcases h with h | h
      · exact Or.inl h
      · exact Or.inr (ih h)

/-- The loop that copies the computed properties keeps the keys the map has. -/
theorem propsSetAll_keys_subset (k : GoString) :
    ∀ (dynamicProperties props : List (GoString × GoString)),
      k ∈ props.map Prod.fst → k ∈ (propsSetAll props dynamicProperties).map Prod.fst := by
  intro dynamicProperties
  induction dynamicProperties with
  | nil => intro props h; exact h
  | cons e rest ih =>
    obtain ⟨key, v⟩ := e
    intro props h
    rw [propsSetAll]
    exact ih _ (propsSet_keys_subset k key v props h)

/-- The merge step removes no key from the map. -/
theorem mergeProperties_keys_subset (properties merged : GoMap) (keys : List GoString)
    (dynamicProperties : List (GoString × GoString)) (buckets : Int)
    (h : mergeProperties properties keys dynamicProperties buckets = some merged) (k : GoString)
    (hk : k ∈ (properties.getD []).map Prod.fst) : k ∈ (merged.getD []).map Prod.fst := by
  unfold mergeProperties at h
  simp only at h
  split at h
  · split at h
    · cases hp : properties with
      | none =>
        rw [hp] at hk
        simp at hk
      | some props =>
        rw [hp] at h hk
        simp only [Option.some.injEq] at h
        rw [← h]
        exact propsSet_keys_subset k _ _ _ (propsSetAll_keys_subset k _ _ hk)
    · rw [← Option.some.inj h]
      exact hk
  · rw [← Option.some.inj h]
    exact hk

/-- A completed iteration of `StarRocks.ToCreateDDL` removes no key from the
`Properties` map of the rule. -/
theorem starRocksBundle_keys_subset (env : StarRocksEnv) (rule : TableRule)
    (tableColumns : TableColumns) (r : BundleDDL)
    (h : starRocksBundle env rule tableColumns = some r) (k : GoString)
    (hk : k ∈ (rule.Properties.getD []).map Prod.fst) : k ∈ emittedPropertyKeys r := by
  obtain ⟨keys, _, _, hmerge, _⟩ := starRocksBundle_properties_eq env rule tableColumns r h
  exact mergeProperties_keys_subset _ _ _ _ _ hmerge k hk

/-- Every statement of the loop over the bundles of a rule is emitted with all
the keys that the map of the rule had when the loop started. -/
theorem starRocksBundles_keys_subset (env : StarRocksEnv) :
    ∀ (bundles : List TableColumns) (rule : TableRule) (rs : List BundleDDL),
      starRocksBundles env rule bundles = some rs →
      ∀ r ∈ rs, ∀ k ∈ (rule.Properties.getD []).map Prod.fst, k ∈ emittedPropertyKeys r := by
  intro bundles
  induction bundles with
  | nil =>
    intro rule rs h r hr
    simp only [starRocksBundles, Option.some.injEq] at h
    subst h
    simp at hr
  | cons tc rest ih =>
    intro rule rs h r hr k hk
    simp only [starRocksBundles] at h
    cases hb : starRocksBundle env rule tc with
    | none => simp [hb] at h
    | some r0 =>
      simp only [hb] at h
      cases hrest : starRocksBundles env r0.rule rest with
      | none => simp [hrest] at h
      | some rs' =>
        simp only [hrest, Option.map_some', Option.some.injEq] at h
        subst h
        have h0 := starRocksBundle_keys_subset env rule tc r0 hb k hk
        rcases List.mem_cons.mp hr with heq | hmem
        · rw [heq]
          exact h0
        · exact ih r0.rule rs' hrest r hmem k h0

/-- Along the loop over the bundles of a rule the keys only grow: a later
statement is emitted with all the keys of an earlier one. -/
theorem starRocksBundles_keys_pairwise (env : StarRocksEnv) :
    ∀ (bundles : List TableColumns) (rule : TableRule) (rs : List BundleDDL),
      starRocksBundles env rule bundles = some rs →
      rs.Pairwise fun earlier later =>
        ∀ k ∈ emittedPropertyKeys earlier, k ∈ emittedPropertyKeys later := by
  intro bundles
  induction bundles with
  | nil =>
    intro rule rs h
    simp only [starRocksBundles, Option.some.injEq] at h
    subst h
    exact List.Pairwise.nil
  | cons tc rest ih =>
    intro rule rs h
    simp only [starRocksBundles] at h
    cases hb : starRocksBundle env rule tc with
    | none => simp [hb] at h
    | some r0 =>
      simp only [hb] at h
      cases hrest : starRocksBundles env r0.rule rest with
      | none => simp [hrest] at h
      | some rs' =>
        simp only [hrest, Option.map_some', Option.some.injEq] at h
        subst h
        exact List.Pairwise.cons
          (fun r hr k hk => starRocksBundles_keys_subset env rest r0.rule rs' hrest r hr k hk)
          (ih r0.rule rs' hrest)

/-- C28 (amended): within one run of `StarRocks.ToCreateDDL` the bundles of a rule
share the `Properties` map of the rule, which is extended over the run and not
reset between bundles.  For a bundle below 100 GiB, wherever it stands in the
bundle list of its rule, the map with which its statement is emitted is exactly
the map as the bundles processed before it left it.  That map holds every key
with which an earlier bundle of the rule was emitted, so also the keys that the
merge wrote for an earlier bundle; it is the configured map, so without
dynamic-partition key when the configuration holds none, when every bundle
processed before it is below 100 GiB too, in particular when it is the first. -/
theorem starRocksBundles_small_bundle (env : StarRocksEnv) (rule : TableRule)
    (pre : List TableColumns) (tableColumns : TableColumns) (post : List TableColumns)
    (rs : List BundleDDL)
    (h : starRocksBundles env rule (pre ++ tableColumns :: post) = some rs)
    (hsize : int64OfUint64 tableColumns.Table.DATA_LENGTH < 100 * (GIGA_BYTES : Int)) :
    ∃ rsPre r rsPost,
      rs = rsPre ++ r :: rsPost ∧
      starRocksBundles env rule pre = some rsPre ∧
      starRocksBundle env (ruleAfter rule rsPre) tableColumns = some r ∧
      r.rule.Properties = (ruleAfter rule rsPre).Properties ∧
      (∃ head, r.createTableDDL =
        head ++ propertiesClause (r.rule.Properties.map env.rangeOrder)) ∧
      ((∀ b ∈ pre, int64OfUint64 b.Table.DATA_LENGTH < 100 * (GIGA_BYTES : Int)) →
        r.rule.Properties = rule.Properties) ∧
      (∀ earlier ∈ rsPre, ∀ k ∈ emittedPropertyKeys earlier, k ∈ emittedPropertyKeys r) := by
  have hpair := starRocksBundles_keys_pairwise env _ rule rs h
  obtain ⟨rsPre, rsRest, heq, hpre, hrest⟩ :=
    starRocksBundles_append env pre (tableColumns :: post) rule rs h
  simp only [starRocksBundles] at hrest
  cases hb : starRocksBundle env (ruleAfter rule rsPre) tableColumns with
  | none => simp [hb] at hrest
  | some r =>
    simp only [hb] at hrest
    cases hpost : starRocksBundles env r.rule post with
    | none => simp [hpost] at hrest
    | some rsPost =>
      simp only [hpost, Option.map_some', Option.some.injEq] at hrest
      have hkeep := starRocksBundle_small_keeps_properties env _ tableColumns r hb hsize
      obtain ⟨_, head, _, _, hddl⟩ := starRocksBundle_properties_eq env _ tableColumns r hb
      refine ⟨rsPre, r, rsPost, by rw [heq, ← hrest], hpre, hb, hkeep, ⟨head, hddl⟩, ?_, ?_⟩
      · intro hsmall
        rw [hkeep]
        exact starRocksBundles_small_keep_properties env pre rule rsPre hpre hsmall
      · intro earlier hearlier k hk
        rw [heq, ← hrest, List.pairwise_append] at hpair
        exact hpair.2.2 earlier hearlier r (List.mem_cons_self _ _) k hk

set_option maxRecDepth 16000 in
/-- C28 (witness): the bundle `users` processed after a bundle `events` of five
bytes: it is emitted with the configured map. -/
theorem starRocksBundles_small_bundle_witness :
    ∃ rs rsPre r rsPost,
      starRocksBundles (sampleStarRocksEnv 100000000) sampleShopRule
        ([sampleEventsBundle 5] ++ sampleUsersBundle :: []) = some rs ∧
      rs = rsPre ++ r :: rsPost ∧
      r.tableColumns.Table = sampleUsersBundle.Table ∧
      r.rule.Properties = sampleShopRule.Properties := by
  cases h : starRocksBundles (sampleStarRocksEnv 100000000) sampleShopRule
      ([sampleEventsBundle 5] ++ sampleUsersBundle :: []) with
  | none => exact absurd h (by decide)
  | some rs =>
    obtain ⟨rsPre, r, rsPost, heq, _, hb, _, _, hconf, _⟩ :=
      starRocksBundles_small_bundle (sampleStarRocksEnv 100000000) sampleShopRule
        [sampleEventsBundle 5] sampleUsersBundle [] rs h (by decide)
    obtain ⟨keys, _, hre, _, _⟩ := starRocksBundle_properties_eq _ _ _ r hb
    exact ⟨rs, rsPre, r, rsPost, rfl, heq,
      starRocksReorder_table sampleUsersBundle keys r.tableColumns hre, hconf (by decide)⟩

end Smt
